import Mathlib

/-!
# call_analyzer: register propagation and call-site emission

A shallow embedding of `src/call_analyzer.cpp`.

* A `bitArray` (one bit per ABI register id) is a natural number: bit `i` of the
  number is bit `i` of the array, `|=` is `|||`, `&=` is `&&&`, and
  `EnptyRegs()` is `0`.
* `std::map<BlockAddress, BlockSummary>` is an association list searched from
  the front; `std::set<BlockAddress>` is a strictly ascending list, so that
  `begin()` is the head.
* Dereferencing the null pointer that `GetBlock` returns for an unknown address
  is reported as `Outcome.nullDeref`.
* What the Dyninst library supplies (blocks, edges, region names, the ABI
  register sets) is data of the model.
-/

namespace CallAnalyzer

/-! ## Data supplied by the binary parser -/

abbrev Address := Nat
abbrev BlockAddress := Nat
abbrev bitArray := Nat
abbrev AddressVector := List BlockAddress
abbrev BlockAddressSet := List BlockAddress

/-- The value of `Address(-1)` and `BlockAddress(-1)` for 64-bit `unsigned long`. -/
def noAddress : Nat := 2 ^ 64 - 1

/-- The edge kinds of `ParseAPI::EdgeTypeEnum`. -/
inductive EdgeTypeEnum where
  | CALL
  | COND_TAKEN
  | COND_NOT_TAKEN
  | INDIRECT
  | DIRECT
  | FALLTHROUGH
  | CATCH
  | CALL_FT
  | RET
  | NOEDGE
  deriving DecidableEq, Repr

/-- What the analyzer reads of a `ParseAPI::Function`: its name, the name of the
region it lies in (empty when the region is not a symtab region), the low
address of that region and the start address of its entry block. -/
structure ParseFunction where
  name : String
  regionName : String
  regionLow : Address := 0
  entry : BlockAddress := 0
  deriving DecidableEq, Repr

/-- What the analyzer reads of a `ParseAPI::Edge`: the start addresses of its
source and target blocks, its `interproc()` flag, its `type()`, and the
functions `getFuncs` attributes the target block to. -/
structure Edge where
  src : BlockAddress
  trg : BlockAddress
  interproc : Bool
  type : EdgeTypeEnum
  trgFuncs : List ParseFunction := []
  deriving DecidableEq, Repr

/-- A register as `MachRegister` numbers it. -/
abbrev MachRegister := Nat

/-- A `std::set<RegisterAST::Ptr>`, as the registers it holds in the order of
iteration. -/
abbrev RegisterSet := List MachRegister

/-- The instruction categories of `InstructionAPI::InsnCategory`. -/
inductive InsnCategory where
  | c_CallInsn
  | c_ReturnInsn
  | c_BranchInsn
  | c_CompareInsn
  | c_PrefetchInsn
  | c_SysEnterInsn
  | c_SyscallInsn
  | c_VectorInsn
  | c_NoCategory
  deriving DecidableEq, Repr

/-- What the analyzer reads of an `Instruction`: the registers `getReadSet` and
`getWriteSet` add to a set, and `getCategory()`. -/
structure Instruction where
  readSet : RegisterSet := []
  writeSet : RegisterSet := []
  category : InsnCategory := .c_NoCategory
  deriving DecidableEq, Repr

/-- What the analyzer reads of a `ParseAPI::Block`: `start()`, `end()`, the edges
of `sources()` and `targets()`, and the instructions `getInsns` yields with their
addresses, in address order. -/
structure Block where
  start : BlockAddress
  sources : List Edge
  targets : List Edge
  end_ : Address := 0
  insns : List (Address × Instruction) := []
  deriving DecidableEq, Repr

/-- What the analyzer uses of the `ABI` object and of `RegisterAST::promote`:
the size of the bit arrays `getBitArray()` returns, the index `getIndex` gives
a register (`-1` when the register is not in the index map), and the register
a register is promoted to. -/
structure ABI where
  bitArraySize : Nat
  getIndex : MachRegister → Int
  promote : MachRegister → MachRegister

/-- The storage classes of `SymtabAPI::storageClass`. -/
inductive storageClass where
  | storageUnset
  | storageAddr
  | storageReg
  | storageRegOffset
  deriving DecidableEq, Repr

/-- A `SymtabAPI::VariableLocation`. -/
structure VariableLocation where
  stClass : storageClass
  mr_reg : MachRegister
  lowPC : Address
  hiPC : Address
  deriving DecidableEq, Repr

/-- What the analyzer reads of a `SymtabAPI::localVar`. -/
structure localVar where
  name : String
  locationLists : List VariableLocation
  deriving DecidableEq, Repr

/-- What the analyzer reads of a `SymtabAPI::Function`: the parameters `getParams`
yields. -/
structure SymtabFunction where
  params : List localVar
  deriving DecidableEq, Repr

/-- The lookup `findFuncByEntryOffset` of the `Symtab` object: `none` when it
returns false. -/
structure Symtab where
  findFuncByEntryOffset : Address → Option SymtabFunction

/-- The process-wide static members of `FunctionSummary`, with the size every
`bitArray` of the ABI has and, for each register id, the name of the register
that `regIdToReg` holds for it. -/
structure Statics where
  bitArraySize : Nat
  regIdToReg : Nat → String
  callParamRegisters : bitArray
  callReturnRegisters : bitArray
  callNotKilledRegisters : bitArray

/-- The global `options` object. -/
structure Options where
  help : Bool := false
  version : Bool := false
  debug : Bool := false
  onlyToPltCalls : Bool := true
  indent : Int := 2
  failed : Bool := false
  failureMsg : String := ""
  args : List String := []
  programVersion : String := "0.9.0"
  programName : String := ""
  deriving DecidableEq, Repr

/-! ## ProcessOptions

The argument vector is `argv[0]`, which can be the null pointer, and the list of
`argv[1]` to `argv[argc - 1]`. The text written to `clog` before an exit is left
out; `failureMsg` is kept. -/

/-- How `ProcessOptions` ends: it returns to `main`, or the process ends with a
status. -/
inductive OptionsResult where
  | returned (options : Options)
  | exited (status : Nat) (options : Options)
  deriving DecidableEq, Repr

namespace Options

/-- The line end that the messages carry. -/
def lineEnd : String := String.singleton (Char.ofNat 10)

/-- The test of the first character of the argument against the dash. -/
def startsWithDash (arg : String) : Bool := decide (arg.toList.head? = some '-')

/-- One pass of the loop over the arguments, on the options and
`lookingForOptions`. -/
def processArg (st : Options × Bool) (arg : String) : Options × Bool :=
  if st.2 = true ∧ startsWithDash arg = true then
    if arg = "--help" ∨ arg = "-h" then ({ st.1 with help := true }, st.2)
    else if arg = "--version" ∨ arg = "-v" then ({ st.1 with version := true }, st.2)
    else if arg = "--debug" then ({ st.1 with debug := true }, st.2)
    else if arg = "--" then (st.1, false)
    else if arg = "--compact-json" then ({ st.1 with indent := 0 }, st.2)
    else if arg = "--all-calls" then ({ st.1 with onlyToPltCalls := false }, st.2)
    else
      ({ st.1 with
          failed := true
          failureMsg := st.1.failureMsg ++ "Unknown option " ++ (arg ++ lineEnd) }, st.2)
  else ({ st.1 with args := st.1.args ++ [arg] }, false)

/-- The call `exit(1)` of `Options::Error`. -/
def Error (o : Options) (_msg : String) : OptionsResult := .exited 1 o

def ProcessOptions (o : Options) (argv0 : Option String) (arguments : List String) :
    OptionsResult :=
  let o1 :=
    match argv0 with
    | some name => { o with programName := name }
    | none => o
  let o2 := (arguments.foldl processArg (o1, true)).1
  if o2.help = true then .exited 0 o2
  else if o2.version = true then .exited 0 o2
  else
    let o3 :=
      if o2.args.length < 1 then
        { o2 with
            failed := true
            failureMsg := o2.failureMsg ++ "binary input argument not specified" ++ lineEnd }
      else o2
    let o4 :=
      if o3.args.length > 2 then
        { o3 with
            failed := true
            failureMsg := o3.failureMsg ++ "Only two arguments are allowd" ++ lineEnd }
      else o3
    if o4.failed = true then Error o4 o4.failureMsg else .returned o4

end Options

/-! ## BlockSummary -/

structure BlockSummary where
  block : Block
  startRegs : bitArray
  usedRegs : bitArray
  callInsnAddr : Address := 0
  isCallBlock : Bool := false
  isSysCallBlock : Bool := false
  deriving DecidableEq, Repr

abbrev BlockSummaryMap := List (BlockAddress × BlockSummary)

namespace BlockSummary

def Addr (b : BlockSummary) : BlockAddress := b.block.start

def IsCallBlock (b : BlockSummary) : Bool := b.isCallBlock

/-- The all-zero bit array of `abi()->getBitArray()`. -/
def EnptyRegs (_b : BlockSummary) : bitArray := 0

def SetStartRegs (b : BlockSummary) (regs : bitArray) : BlockSummary :=
  { b with startRegs := regs }

def StartRegs (b : BlockSummary) : bitArray := b.startRegs

def UsedRegs (b : BlockSummary) : bitArray := b.usedRegs

def OutRegs (s : Statics) (b : BlockSummary) : bitArray :=
  let out := b.usedRegs
  let out := out ||| b.startRegs
  if b.IsCallBlock then
    let out := out &&& s.callNotKilledRegisters
    let out := out ||| s.callReturnRegisters
    out
  else
    out

/-- The loop of `Predecessors()` over a list of source edges. -/
def sourceAddrs : List Edge → AddressVector
  | [] => []
  | e :: es =>
    if !e.interproc then
      if e.src ≠ noAddress then e.src :: sourceAddrs es else sourceAddrs es
    else sourceAddrs es

/-- The loop of `Successors()` over a list of target edges. -/
def targetAddrs : List Edge → AddressVector
  | [] => []
  | e :: es =>
    if !e.interproc then
      if e.trg ≠ noAddress then e.trg :: targetAddrs es else targetAddrs es
    else targetAddrs es

def Predecessors (b : BlockSummary) : AddressVector := sourceAddrs b.block.sources

def Successors (b : BlockSummary) : AddressVector := targetAddrs b.block.targets

end BlockSummary

/-! ## The block map and the work set -/

/-- The search of `blocks.find(a)`: `none` stands for `blocks.end()`, that is for
the null pointer `GetBlock` returns. -/
def GetBlock : BlockSummaryMap → BlockAddress → Option BlockSummary
  | [], _ => none
  | (k, b) :: rest, a => if k = a then some b else GetBlock rest a

/-- The effect on the map of `GetBlock(addr)->SetStartRegs(regs)`. -/
def SetStartRegsAt : BlockSummaryMap → BlockAddress → bitArray → BlockSummaryMap
  | [], _, _ => []
  | (k, b) :: rest, a, regs =>
    if k = a then (k, b.SetStartRegs regs) :: rest
    else (k, b) :: SetStartRegsAt rest a regs

/-- The operation `std::set::insert` on an ascending list without repetitions. -/
def setInsert (a : BlockAddress) : BlockAddressSet → BlockAddressSet
  | [] => [a]
  | b :: l =>
    if a < b then a :: b :: l
    else if a = b then b :: l
    else b :: setInsert a l

/-- Inserting every address of a vector, first to last. -/
def setInsertAll : AddressVector → BlockAddressSet → BlockAddressSet
  | [], s => s
  | a :: as, s => setInsertAll as (setInsert a s)

/-- The first loop of `PropagateStartRegs`: the keys of the map, as a set. -/
def blockKeys : BlockSummaryMap → BlockAddressSet
  | [] => []
  | (k, _) :: rest => setInsert k (blockKeys rest)

/-- How a run of the analysis ends: with a value, by dereferencing a null
pointer, with the step budget of the model used up, or by indexing a bit array
outside its size. -/
inductive Outcome (α : Type) where
  | done (a : α)
  | nullDeref
  | outOfFuel
  | outOfRange
  deriving DecidableEq, Repr

/-! ## PropagateStartRegs -/

/-- The inner loop `for (auto a: block->Predecessors()) newStartRegs |= GetBlock(a)->OutRegs()`,
started from the accumulator `acc`. -/
def unionOutRegs (s : Statics) (blocks : BlockSummaryMap) :
    AddressVector → bitArray → Option bitArray
  | [], acc => some acc
  | a :: as, acc =>
    match GetBlock blocks a with
    | none => none
    | some p => unionOutRegs s blocks as (acc ||| p.OutRegs s)

/-- One pass through the body of the `while` loop, for the address `addr` taken out
of the work set and `rest` the work set that remains. -/
def PropagateBody (s : Statics) (addr : BlockAddress) (rest : BlockAddressSet)
    (blocks : BlockSummaryMap) : Option (BlockAddressSet × BlockSummaryMap) :=
  match GetBlock blocks addr with
  | none => none
  | some block =>
    match unionOutRegs s blocks block.Predecessors block.EnptyRegs with
    | none => none
    | some newStartRegs =>
      if newStartRegs ≠ block.StartRegs then
        some (setInsertAll block.Successors rest, SetStartRegsAt blocks addr newStartRegs)
      else
        some (rest, blocks)

/-- The `while (!toProcess.empty())` loop, which takes `*toProcess.begin()` each
time round; `fuel` bounds the number of passes. -/
def PropagateLoop (s : Statics) : Nat → BlockAddressSet → BlockSummaryMap →
    Outcome BlockSummaryMap
  | _, [], blocks => .done blocks
  | 0, _ :: _, _ => .outOfFuel
  | fuel + 1, addr :: rest, blocks =>
    match PropagateBody s addr rest blocks with
    | none => .nullDeref
    | some (toProcess, blocks1) => PropagateLoop s fuel toProcess blocks1

/-- The bitwise or of the return registers and every `usedRegs` of the map: no
bit outside it is ever stored. -/
def regBound (s : Statics) : BlockSummaryMap → bitArray
  | [] => s.callReturnRegisters
  | (_, b) :: rest => b.usedRegs ||| regBound s rest

/-- How far the `startRegs` of the map are from `bound`, summed over the map. -/
def slack (bound : bitArray) : BlockSummaryMap → Nat
  | [] => 0
  | (_, b) :: rest => (bound - b.startRegs) + slack bound rest

/-- The addresses that can ever be in the work set: keys and successors. -/
def workUniverse : BlockSummaryMap → List BlockAddress
  | [] => []
  | (k, b) :: rest => k :: (b.Successors ++ workUniverse rest)

/-- A number of passes that `PropagateStartRegs` never exceeds. -/
def propagateFuel (s : Statics) (blocks : BlockSummaryMap) : Nat :=
  slack (regBound s blocks) blocks * ((workUniverse blocks).length + 1)
    + (workUniverse blocks).length

/-- The part of a `FunctionSummary` the analysis works on. -/
structure FunctionSummary where
  function : ParseFunction
  blocks : BlockSummaryMap
  callBlocks : BlockAddressSet
  deriving DecidableEq, Repr

namespace FunctionSummary

def GetBlock (f : FunctionSummary) (a : BlockAddress) : Option BlockSummary :=
  CallAnalyzer.GetBlock f.blocks a

def PropagateStartRegs (s : Statics) (f : FunctionSummary) : Outcome FunctionSummary :=
  match PropagateLoop s (propagateFuel s f.blocks) (blockKeys f.blocks) f.blocks with
  | .done blocks => .done { f with blocks := blocks }
  | .nullDeref => .nullDeref
  | .outOfFuel => .outOfFuel
  | .outOfRange => .outOfRange

end FunctionSummary

/-! ## Block construction and parameter seeding -/

/-- The assignment `bitmap[regId] = 1` on a bit array of `size` bits; `none` when
`regId`, which the index operator takes as an unsigned position, is not a
position of the array. -/
def setBit (size : Nat) (bitmap : bitArray) (regId : Int) : Option bitArray :=
  if 0 ≤ regId ∧ regId < size then some (bitmap ||| (1 <<< regId.toNat)) else none

namespace BlockSummary

def AbiRegisterId (abi : ABI) (r : MachRegister) : Int := abi.getIndex r

def PromotedRegisterId (abi : ABI) (r : MachRegister) : Int :=
  let promotedReg := abi.promote r
  let id := AbiRegisterId abi promotedReg
  if id ≠ -1 then id else AbiRegisterId abi r

/-- The loop of `RegisterSetToBitmap`, from the bitmap built so far. -/
def setRegisterBits (abi : ABI) : RegisterSet → bitArray → Option bitArray
  | [], bitmap => some bitmap
  | r :: rs, bitmap =>
    match setBit abi.bitArraySize bitmap (PromotedRegisterId abi r) with
    | none => none
    | some bitmap1 => setRegisterBits abi rs bitmap1

def RegisterSetToBitmap (abi : ABI) (rs : RegisterSet) : Option bitArray :=
  setRegisterBits abi rs 0

def SummarizeInstruction (abi : ABI) (b : BlockSummary) (i : Instruction) :
    Option BlockSummary :=
  let regs := i.readSet ++ i.writeSet
  match RegisterSetToBitmap abi regs with
  | none => none
  | some bitmap => some { b with usedRegs := b.usedRegs ||| bitmap }

/-- The `switch` of `SummarizeBlock` on the category of the instruction at `addr`. -/
def noteCategory (b : BlockSummary) (addr : Address) : InsnCategory → BlockSummary
  | .c_CallInsn => { b with callInsnAddr := addr, isCallBlock := true }
  | .c_SysEnterInsn => { b with isSysCallBlock := true }
  | .c_SyscallInsn => { b with isSysCallBlock := true }
  | _ => b

/-- The loop of `SummarizeBlock` over the instructions. -/
def SummarizeInsns (abi : ABI) : List (Address × Instruction) → BlockSummary →
    Option BlockSummary
  | [], b => some b
  | i :: rest, b =>
    match SummarizeInstruction abi b i.2 with
    | none => none
    | some b1 => SummarizeInsns abi rest (noteCategory b1 i.1 i.2.category)

def SummarizeBlock (abi : ABI) (b : BlockSummary) : Option BlockSummary :=
  SummarizeInsns abi b.block.insns b

/-- The constructor `BlockSummary(f, b)`. -/
def construct (abi : ABI) (block : Block) : Option BlockSummary :=
  SummarizeBlock abi { block := block, startRegs := 0, usedRegs := 0 }

def AddParamReg (abi : ABI) (b : BlockSummary) (r : MachRegister) : Option BlockSummary :=
  let regId := PromotedRegisterId abi r
  match setBit abi.bitArraySize b.usedRegs regId with
  | none => none
  | some usedRegs => some { b with usedRegs := usedRegs }

end BlockSummary

/-- The insertion of a new key into the map, at the place its order gives it. -/
def mapInsert (k : BlockAddress) (v : BlockSummary) : BlockSummaryMap → BlockSummaryMap
  | [] => [(k, v)]
  | (k1, v1) :: rest =>
    if k < k1 then (k, v) :: (k1, v1) :: rest else (k1, v1) :: mapInsert k v rest

/-- The effect on the map of changing, through the pointer `GetBlock(a)` returns,
the block summary at `a` into `b1`. -/
def SetBlockAt : BlockSummaryMap → BlockAddress → BlockSummary → BlockSummaryMap
  | [], _, _ => []
  | (k, b) :: rest, a, b1 =>
    if k = a then (k, b1) :: rest else (k, b) :: SetBlockAt rest a b1

namespace FunctionSummary

/-- The member `AddBlock`: the map after `blocks.insert`, which leaves a key that
is present as it is, and the block summary the returned pointer points to. -/
def AddBlock (abi : ABI) (f : FunctionSummary) (b : Block) :
    Option (FunctionSummary × BlockSummary) :=
  let addr := b.start
  match BlockSummary.construct abi b with
  | none => none
  | some summary =>
    match f.GetBlock addr with
    | some existing => some (f, existing)
    | none => some ({ f with blocks := mapInsert addr summary f.blocks }, summary)

/-- The loop of the constructor over `f->blocks()`. -/
def addBlocks (abi : ABI) : List Block → FunctionSummary → Option FunctionSummary
  | [], f => some f
  | b :: rest, f =>
    match AddBlock abi f b with
    | none => none
    | some (f1, blockSummary) =>
      if blockSummary.IsCallBlock then
        addBlocks abi rest { f1 with callBlocks := setInsert b.start f1.callBlocks }
      else
        addBlocks abi rest f1

/-- The body of the inner loop of `AddParamRegs`, for one location record. -/
def seedLocation (abi : ABI) (entryAddr entryBlockLastAddr : Address) (f : FunctionSummary)
    (loc : VariableLocation) : Option FunctionSummary :=
  if loc.stClass = .storageReg ∨ loc.stClass = .storageRegOffset then
    if entryBlockLastAddr > loc.lowPC ∧ entryAddr < loc.hiPC then
      match f.GetBlock entryAddr with
      | some b =>
        match b.AddParamReg abi loc.mr_reg with
        | none => none
        | some b1 => some { f with blocks := SetBlockAt f.blocks entryAddr b1 }
      | none => some f
    else some f
  else some f

/-- The inner loop of `AddParamRegs`, over the location records of a parameter. -/
def seedLocations (abi : ABI) (entryAddr entryBlockLastAddr : Address) :
    List VariableLocation → FunctionSummary → Option FunctionSummary
  | [], f => some f
  | loc :: rest, f =>
    match seedLocation abi entryAddr entryBlockLastAddr f loc with
    | none => none
    | some f1 => seedLocations abi entryAddr entryBlockLastAddr rest f1

/-- The outer loop of `AddParamRegs`, over the parameters. -/
def seedParams (abi : ABI) (entryAddr entryBlockLastAddr : Address) :
    List localVar → FunctionSummary → Option FunctionSummary
  | [], f => some f
  | p :: rest, f =>
    match seedLocations abi entryAddr entryBlockLastAddr p.locationLists f with
    | none => none
    | some f1 => seedParams abi entryAddr entryBlockLastAddr rest f1

/-- The member `AddParamRegs`, for the blocks `fblocks` of `function->blocks()` and
the block `entry` of `function->entry()`; `none` when a bit array is indexed
outside its size. -/
def AddParamRegs (abi : ABI) (symtab : Symtab) (fblocks : List Block) (entry : Block)
    (f : FunctionSummary) : Option FunctionSummary :=
  match fblocks with
  | [] => some f
  | first :: _ =>
    match symtab.findFuncByEntryOffset entry.start with
    | some symtabFunc => seedParams abi entry.start entry.end_ symtabFunc.params f
    | none =>
      match symtab.findFuncByEntryOffset first.start with
      | some symtabFunc => seedParams abi first.start first.end_ symtabFunc.params f
      | none => some f

/-- The constructor `FunctionSummary(f)`, the static members being set. -/
def construct (s : Statics) (abi : ABI) (symtab : Symtab) (function : ParseFunction)
    (fblocks : List Block) (entry : Block) : Outcome FunctionSummary :=
  match addBlocks abi fblocks { function := function, blocks := [], callBlocks := [] } with
  | none => .outOfRange
  | some f1 =>
    match AddParamRegs abi symtab fblocks entry f1 with
    | none => .outOfRange
    | some f2 => f2.PropagateStartRegs s

end FunctionSummary

/-! ## Call records -/

/-- What `WriteJsonAddressMember` writes for an address: the number, or `null`. -/
inductive JsonAddress where
  | num (a : Address)
  | null
  deriving DecidableEq, Repr

/-- The object `WriteJsonCall` writes between `OpenObject` and `CloseObject`: its
five members, in the order written. -/
structure CallRecord where
  callInstructionAddr : JsonAddress
  calledAddr : JsonAddress
  callToPlt : Bool
  liveRegisters : List String
  funcNames : List String
  deriving DecidableEq, Repr

/-- The search `name.find(pat) != npos` on the characters of a string. -/
def containsSubstring (pat : List Char) : List Char → Bool
  | [] => pat.isEmpty
  | c :: cs => pat.isPrefixOf (c :: cs) || containsSubstring pat cs

/-- The search `name.rfind(c)`: the last position of `c`, if any. -/
def rfind (c : Char) : List Char → Option Nat
  | [] => none
  | x :: xs =>
    match rfind c xs with
    | some i => some (i + 1)
    | none => if x = c then some 0 else none

/-- The set bits among the `n` positions from `i` on, in the order `find_first` and
`find_next` visit them. -/
def setBitsFrom (regs : bitArray) : Nat → Nat → List Nat
  | 0, _ => []
  | n + 1, i =>
    if regs.testBit i then i :: setBitsFrom regs n (i + 1) else setBitsFrom regs n (i + 1)

namespace FunctionSummary

def RegionName (func : ParseFunction) : String := func.regionName

def IsPltRegion (func : ParseFunction) : Bool :=
  containsSubstring ".plt".toList (RegionName func).toList

def RegIdToName (s : Statics) (id : Nat) : String :=
  let name := (s.regIdToReg id).toList
  match rfind ':' name with
  | some i => String.mk (name.drop (i + 1))
  | none => String.mk name

def RegBitmapToNames (s : Statics) (regs : bitArray) : List String :=
  (setBitsFrom regs s.bitArraySize 0).map (RegIdToName s)

def WriteJsonAddressMember (a : Address) : JsonAddress :=
  if a ≠ noAddress then .num a else .null

end FunctionSummary

namespace BlockSummary

/-- The records `WriteJsonCall` adds to the output: none or one. -/
def WriteJsonCall (options : Options) (b : BlockSummary) (callAddr : Address)
    (liveRegs : List String) (callNames : List String) (isToPlt : Bool) : List CallRecord :=
  if options.onlyToPltCalls && !isToPlt then
    []
  else
    [{ callInstructionAddr := FunctionSummary.WriteJsonAddressMember b.callInsnAddr
       calledAddr := FunctionSummary.WriteJsonAddressMember callAddr
       callToPlt := isToPlt
       liveRegisters := liveRegs
       funcNames := callNames }]

/-- The loop of `WriteJson` over the target edges: `numCallTargets` counts the CALL
edges seen and `out` holds the records written so far. -/
def WriteJsonEdges (options : Options) (b : BlockSummary) (regNames : List String) :
    List Edge → Nat → List CallRecord → Nat × List CallRecord
  | [], numCallTargets, out => (numCallTargets, out)
  | e :: es, numCallTargets, out =>
    if e.type = .CALL then
      let isToPlt := e.trgFuncs.foldl (fun acc f => acc || FunctionSummary.IsPltRegion f) false
      let funcNames := e.trgFuncs.map (fun f => f.name)
      WriteJsonEdges options b regNames es (numCallTargets + 1)
        (out ++ b.WriteJsonCall options e.trg regNames funcNames isToPlt)
    else
      WriteJsonEdges options b regNames es numCallTargets out

/-- The records `BlockSummary::WriteJson` adds to the output. -/
def WriteJson (s : Statics) (options : Options) (b : BlockSummary) : List CallRecord :=
  let usedRegs := b.UsedRegs &&& s.callParamRegisters
  let regNames := FunctionSummary.RegBitmapToNames s usedRegs
  let (numCallTargets, out) := WriteJsonEdges options b regNames b.block.targets 0 []
  if numCallTargets = 0 then
    out ++ b.WriteJsonCall options noAddress regNames [] false
  else
    out

end BlockSummary

/-- The object `FunctionSummary::WriteJson` writes. -/
structure FunctionRecord where
  funcName : String
  funcAddr : JsonAddress
  sectionName : String
  isInPlt : Bool
  calls : List CallRecord
  deriving DecidableEq, Repr

namespace FunctionSummary

/-- The loop `for (auto b: callBlocks) GetBlock(b)->WriteJson(writer)`; `none` when
`GetBlock` returns the null pointer. -/
def WriteJsonCalls (s : Statics) (options : Options) (f : FunctionSummary) :
    List BlockAddress → Option (List CallRecord)
  | [] => some []
  | b :: rest =>
    match f.GetBlock b with
    | none => none
    | some block =>
      match WriteJsonCalls s options f rest with
      | none => none
      | some out => some (block.WriteJson s options ++ out)

def WriteJson (s : Statics) (options : Options) (f : FunctionSummary) : Option FunctionRecord :=
  match f.WriteJsonCalls s options f.callBlocks with
  | none => none
  | some calls =>
    some { funcName := f.function.name
           funcAddr := WriteJsonAddressMember f.function.regionLow
           sectionName := RegionName f.function
           isInPlt := IsPltRegion f.function
           calls := calls }

end FunctionSummary

/-! ## JsonWriter

The stream `os` is the list of the characters written to it so far. An abort by
`JSON_WRITER_FATAL_ERR`, and the exception of `std::string(count, c)` for a
negative count, end the run with the characters written until then. The
overloads of `AddScalar` for the integer types are one operation on an integer;
the overload for `double` is left out. The members `indent` and `level` are of
type `int`: the sum `level + 1` and the product `level * indent` are the values
a 32-bit `int` holds, `wrap32` of the sum and of the product. The count
`numElements` of an item is a natural number, which the `int` of the source
holds as long as the item has fewer than `2^31` tokens. -/

/-- The value a 32-bit `int` holds for the integer `x`: the integer from `-2^31` up
to `2^31 - 1` that differs from `x` by a multiple of `2^32`. -/
def wrap32 (x : Int) : Int := (x + 2147483648) % 4294967296 - 2147483648

/-- The double quote. -/
def quoteChar : Char := Char.ofNat 34

/-- The backslash. -/
def backslashChar : Char := Char.ofNat 92

/-- The newline. -/
def newlineChar : Char := Char.ofNat 10

inductive JsonWriter.ItemType where
  | noType
  | anyType
  | arrayElemType
  | objectMemberType
  deriving DecidableEq, Repr

inductive JsonWriter.ItemSpeciality where
  | itemOrdinary
  | itemClosing
  | itemKey
  deriving DecidableEq, Repr

structure JsonWriter.ItemState where
  type : JsonWriter.ItemType
  numElements : Nat := 0
  level : Int := 0
  deriving DecidableEq, Repr

/-- The writer: the stream, the indent, and the stack of states with its top first. -/
structure JsonWriter where
  os : List Char
  indent : Int
  state : List JsonWriter.ItemState
  deriving DecidableEq, Repr

/-- How a member function of the writer ends: it returns, or the process aborts
with `os` written. -/
inductive JsonWriter.Result where
  | ok (w : JsonWriter)
  | abort (os : List Char)
  deriving DecidableEq, Repr

namespace JsonWriter

/-- The characters written when the member function ended. -/
def Result.output : Result → List Char
  | .ok w => w.os
  | .abort os => os

/-- The next member function, unless the process has aborted. -/
def Result.andThen : Result → (JsonWriter → Result) → Result
  | .ok w, next => next w
  | .abort os, _ => .abort os

/-- The insertion `os << text`. -/
def put (w : JsonWriter) (text : List Char) : JsonWriter :=
  { w with os := w.os ++ text }

def PushItem (w : JsonWriter) (t : ItemType) : JsonWriter :=
  let level : Int :=
    match w.state with
    | [] => 0
    | cur :: _ => wrap32 (cur.level + 1)
  { w with state := { type := t, numElements := 0, level := level } :: w.state }

/-- The constructor `JsonWriter(outStream, indentSpaces, initialLevel)`. -/
def new (indentSpaces : Int) (initialLevel : Int) : JsonWriter :=
  { os := [], indent := indentSpaces,
    state := [{ type := .anyType, numElements := 0, level := initialLevel }] }

def PopItem (w : JsonWriter) (t : ItemType) : Result :=
  match w.state with
  | [] => .abort w.os
  | cur :: rest =>
    if t ≠ cur.type then .abort w.os
    else if rest ≠ [] then .ok { w with state := rest }
    else .ok w

def IncElements (w : JsonWriter) : JsonWriter :=
  match w.state with
  | [] => w
  | cur :: rest => { w with state := { cur with numElements := cur.numElements + 1 } :: rest }

def RequiresAllowsAnyType (w : JsonWriter) : Result :=
  match w.state with
  | [] => .abort w.os
  | cur :: _ =>
    if cur.type = .anyType ∧ cur.numElements ≠ 0 then .abort w.os
    else if cur.type = .objectMemberType ∧ cur.numElements % 2 = 0 then .abort w.os
    else .ok w

/-- The loop of `JsonString` over the characters of the string. -/
def escapeChars : List Char → List Char
  | [] => []
  | c :: cs =>
    if c = newlineChar then backslashChar :: 'n' :: escapeChars cs
    else if c = backslashChar ∨ c = quoteChar then backslashChar :: c :: escapeChars cs
    else c :: escapeChars cs

def JsonString (s : List Char) : List Char :=
  quoteChar :: (escapeChars s ++ [quoteChar])

/-- The part of `WritePreitemPunctuation` after the count of elements is raised:
`type` and `numElements` are those read before. -/
def punctuate (w : JsonWriter) (type : ItemType) (numElements : Nat) (isClosing : Bool) :
    Result :=
  if (type = .arrayElemType ∨ type = .objectMemberType) ∧ numElements = 0 ∧ isClosing = true
  then .ok w
  else if (type = .arrayElemType ∨ type = .objectMemberType) ∧ type = .objectMemberType ∧
      numElements % 2 = 1
  then (if w.indent ≠ 0 then .ok (w.put [' ']) else .ok w)
  else
    let w1 :=
      if (type = .arrayElemType ∨ type = .objectMemberType) ∧ numElements > 0 ∧
          isClosing = false
      then w.put [','] else w
    let w2 := if w1.indent ≠ 0 ∧ type ≠ .anyType then w1.put [newlineChar] else w1
    match w2.state with
    | [] => .abort w2.os
    | cur :: _ =>
      let level := if isClosing = true ∧ cur.level > 0 then cur.level - 1 else cur.level
      let count := wrap32 (level * w2.indent)
      if count < 0 then .abort w2.os
      else .ok (w2.put (List.replicate count.toNat ' '))

def WritePreitemPunctuation (w : JsonWriter) (speciality : ItemSpeciality) : Result :=
  match w.state with
  | [] => .abort w.os
  | cur :: _ =>
    let type := cur.type
    let numElements := cur.numElements
    let isClosing := decide (speciality = .itemClosing)
    if speciality ≠ .itemClosing then
      if speciality = .itemOrdinary then
        (RequiresAllowsAnyType w).andThen
          (fun w1 => punctuate (IncElements w1) type numElements isClosing)
      else punctuate (IncElements w) type numElements isClosing
    else punctuate w type numElements isClosing

def WriteDelim (w : JsonWriter) (delim : Char) (speciality : ItemSpeciality) : Result :=
  (WritePreitemPunctuation w speciality).andThen (fun w1 => .ok (w1.put [delim]))

def OpenItem (w : JsonWriter) (type : ItemType) (delim : Char) : Result :=
  (WriteDelim w delim .itemOrdinary).andThen (fun w1 => .ok (PushItem w1 type))

def CloseItem (w : JsonWriter) (type : ItemType) (delim : Char) : Result :=
  (WriteDelim w delim .itemClosing).andThen (fun w1 => PopItem w1 type)

/-- The characters `os << i` writes for an integer. -/
def decimal (i : Int) : List Char :=
  if i < 0 then '-' :: Nat.toDigits 10 i.natAbs else Nat.toDigits 10 i.toNat

/-- The overloads of `AddScalar` for `int`, `unsigned int`, `long`, `unsigned long`,
`long long` and `unsigned long long`. -/
def AddScalarInt (w : JsonWriter) (i : Int) : Result :=
  (WritePreitemPunctuation w .itemOrdinary).andThen (fun w1 => .ok (w1.put (decimal i)))

/-- The overloads of `AddScalar` for `std::string` and `const char *`. -/
def AddScalarString (w : JsonWriter) (s : String) : Result :=
  (WritePreitemPunctuation w .itemOrdinary).andThen
    (fun w1 => .ok (w1.put (JsonString s.toList)))

def AddScalarBool (w : JsonWriter) (b : Bool) : Result :=
  (WritePreitemPunctuation w .itemOrdinary).andThen
    (fun w1 => .ok (w1.put (if b then "true".toList else "false".toList)))

def AddNull (w : JsonWriter) : Result :=
  (WritePreitemPunctuation w .itemOrdinary).andThen (fun w1 => .ok (w1.put "null".toList))

def OpenArray (w : JsonWriter) : Result := OpenItem w .arrayElemType '['

def CloseArray (w : JsonWriter) : Result := CloseItem w .arrayElemType ']'

def OpenObject (w : JsonWriter) : Result := OpenItem w .objectMemberType (Char.ofNat 123)

def NumElements (w : JsonWriter) : Nat :=
  match w.state with
  | [] => 0
  | cur :: _ => cur.numElements

def CloseObject (w : JsonWriter) : Result :=
  if w.NumElements % 2 = 1 then .abort w.os
  else CloseItem w .objectMemberType (Char.ofNat 125)

def AddMemberKey (w : JsonWriter) (s : String) : Result :=
  (WritePreitemPunctuation w .itemKey).andThen
    (fun w1 => .ok (w1.put (JsonString s.toList ++ [':'])))

def End (w : JsonWriter) : Result :=
  let w1 := if w.indent > 0 then w.put [newlineChar] else w
  match w1.state with
  | [] => .abort w1.os
  | cur :: rest =>
    if rest ≠ [] then .abort w1.os
    else if cur.type ≠ .anyType then .abort w1.os
    else if cur.numElements = 0 then .abort w1.os
    else .ok w1

def Reset (w : JsonWriter) : JsonWriter :=
  { w with state := [{ type := .anyType, numElements := 0, level := 0 }] }

/-- A call of a public member function of the writer. -/
inductive Op where
  | AddScalarInt (i : Int)
  | AddScalarString (s : String)
  | AddScalarBool (b : Bool)
  | AddNull
  | OpenArray
  | CloseArray
  | OpenObject
  | CloseObject
  | AddMemberKey (s : String)
  | End
  | Reset
  deriving DecidableEq, Repr

/-- The writer after one call. -/
def call (w : JsonWriter) : Op → Result
  | .AddScalarInt i => w.AddScalarInt i
  | .AddScalarString s => w.AddScalarString s
  | .AddScalarBool b => w.AddScalarBool b
  | .AddNull => w.AddNull
  | .OpenArray => w.OpenArray
  | .CloseArray => w.CloseArray
  | .OpenObject => w.OpenObject
  | .CloseObject => w.CloseObject
  | .AddMemberKey s => w.AddMemberKey s
  | .End => w.End
  | .Reset => .ok w.Reset

/-- The writer after a sequence of calls, which an abort ends. -/
def run (w : JsonWriter) : List Op → Result
  | [] => .ok w
  | op :: ops =>
    match w.call op with
    | .ok w1 => run w1 ops
    | .abort os => .abort os

end JsonWriter

/-! ## The calls the analyzer makes on the writer -/

/-- The calls of `WriteJsonAddressMember`. -/
def addressMemberOps (name : String) (a : JsonAddress) : List JsonWriter.Op :=
  [.AddMemberKey name,
   match a with
   | .num n => .AddScalarInt n
   | .null => .AddNull]

/-- The calls of `WriteJsonCall` for a record that is written. -/
def CallRecord.ops (r : CallRecord) : List JsonWriter.Op :=
  [.OpenObject] ++ addressMemberOps "callInstructionAddr" r.callInstructionAddr ++
    addressMemberOps "calledAddr" r.calledAddr ++
    [.AddMemberKey "callToPlt", .AddScalarBool r.callToPlt,
     .AddMemberKey "liveRegisters", .OpenArray] ++
    r.liveRegisters.map (fun name => .AddScalarString name) ++
    [.CloseArray, .AddMemberKey "funcNames", .OpenArray] ++
    r.funcNames.map (fun name => .AddScalarString name) ++
    [.CloseArray, .CloseObject]

/-- The calls of `FunctionSummary::WriteJson`. -/
def FunctionRecord.ops (r : FunctionRecord) : List JsonWriter.Op :=
  [.OpenObject, .AddMemberKey "funcName", .AddScalarString r.funcName] ++
    addressMemberOps "funcAddr" r.funcAddr ++
    [.AddMemberKey "sectionName", .AddScalarString r.sectionName,
     .AddMemberKey "isInPlt", .AddScalarBool r.isInPlt,
     .AddMemberKey "calls", .OpenArray] ++
    (r.calls.map CallRecord.ops).flatten ++
    [.CloseArray, .CloseObject]

/-- The calls of `main` on the writer, for the objects of the functions of the
binary in turn. -/
def mainOps (functions : List FunctionRecord) : List JsonWriter.Op :=
  [.OpenObject, .AddMemberKey "functions", .OpenArray] ++
    (functions.map FunctionRecord.ops).flatten ++
    [.CloseArray, .CloseObject, .End]

/-- The run of `main` on the writer it makes, `JsonWriter(*jsonFile, options.indent)`. -/
def mainOutput (options : Options) (functions : List FunctionRecord) : JsonWriter.Result :=
  (JsonWriter.new options.indent 0).run (mainOps functions)

/-! ## Predicates used in the statements -/

/-- Every bit of `a` is a bit of `b`. -/
def BitSubset (a b : bitArray) : Prop :=
  ∀ i, a.testBit i = true → b.testBit i = true

/-- The map with every `startRegs` cleared: what propagation never changes. -/
def skeleton : BlockSummaryMap → BlockSummaryMap
  | [] => []
  | (k, b) :: rest => (k, b.SetStartRegs 0) :: skeleton rest

/-- The state in which the constructor calls `PropagateStartRegs`: every
`startRegs` is still the empty array it was constructed with. -/
def StartsEmpty (blocks : BlockSummaryMap) : Prop :=
  ∀ e ∈ blocks, e.2.startRegs = 0

/-- The states of the work-list loop that can be reached from the map `blocks0`
when each pass takes out of the work set any one of its members. The loop of
the program takes the least member, `(addr :: rest).erase addr = rest`. -/
inductive Reach (s : Statics) (blocks0 : BlockSummaryMap) :
    BlockAddressSet → BlockSummaryMap → Prop where
  | init : Reach s blocks0 (blockKeys blocks0) blocks0
  | step {toProcess toProcess1 : BlockAddressSet} {blocks blocks1 : BlockSummaryMap}
      {addr : BlockAddress} :
      Reach s blocks0 toProcess blocks → addr ∈ toProcess →
      PropagateBody s addr (toProcess.erase addr) blocks = some (toProcess1, blocks1) →
      Reach s blocks0 toProcess1 blocks1

/-- Every bit of every `startRegs` is a bit of `OutRegs` of a predecessor. -/
def Supported (s : Statics) (blocks : BlockSummaryMap) : Prop :=
  ∀ a B, GetBlock blocks a = some B → ∀ i, B.startRegs.testBit i = true →
    ∃ p ∈ B.Predecessors, ∃ P, GetBlock blocks p = some P ∧ (P.OutRegs s).testBit i = true

/-- The quantity that every pass of the loop makes smaller. -/
def potential (s : Statics) (toProcess : BlockAddressSet) (blocks : BlockSummaryMap) : Nat :=
  slack (regBound s blocks) blocks * ((workUniverse blocks).length + 1) + toProcess.length

/-- What holds of every state of the loop started on a map with empty
`startRegs`. -/
structure LoopInv (s : Statics) (blocks0 : BlockSummaryMap) (toProcess : BlockAddressSet)
    (blocks : BlockSummaryMap) : Prop where
  sorted : toProcess.Sorted (· < ·)
  inUniverse : ∀ a ∈ toProcess, a ∈ workUniverse blocks0
  shape : skeleton blocks = skeleton blocks0
  supported : Supported s blocks
  bounded : ∀ e ∈ blocks, BitSubset e.2.startRegs (regBound s blocks0)

/-- The predecessor and successor lists of the blocks name only blocks of the map. -/
def EdgesClosed (blocks : BlockSummaryMap) : Prop :=
  ∀ e ∈ blocks, (∀ p ∈ e.2.Predecessors, (GetBlock blocks p).isSome = true) ∧
    (∀ q ∈ e.2.Successors, (GetBlock blocks q).isSome = true)

/-- The predecessor and successor lists are mutually consistent: `b` is a successor
of `a` exactly when `a` is a predecessor of `b`. -/
def EdgesConsistent (blocks : BlockSummaryMap) : Prop :=
  ∀ e1 ∈ blocks, ∀ e2 ∈ blocks, (e2.1 ∈ e1.2.Successors ↔ e1.1 ∈ e2.2.Predecessors)

/-- The map solves `startRegs(B) = union of OutRegs(P) over the predecessors P of B`,
the union being the one the loop of `PropagateStartRegs` computes from the empty array. -/
def IsFixedPoint (s : Statics) (blocks : BlockSummaryMap) : Prop :=
  ∀ a B, GetBlock blocks a = some B →
    unionOutRegs s blocks B.Predecessors 0 = some B.startRegs

/-- The map solves `startRegs(B) = union of OutRegs(P) over the predecessors P of B`,
register by register, with no reference to the loop that forms the union: a
register is in `startRegs(B)` exactly when it is in `OutRegs(P)` for a block `P`
of the map whose address is in `Predecessors()` of `B`. -/
def SolvesUnion (s : Statics) (blocks : BlockSummaryMap) : Prop :=
  ∀ a B, GetBlock blocks a = some B → ∀ i, (B.startRegs.testBit i = true ↔
    ∃ p ∈ B.Predecessors, ∃ P, GetBlock blocks p = some P ∧ (P.OutRegs s).testBit i = true)

/-- What holds in addition when the edges are closed and consistent: a block
outside the work set is at its equation, and the work set holds keys only. -/
structure FixInv (s : Statics) (toProcess : BlockAddressSet) (blocks : BlockSummaryMap) :
    Prop where
  stable : ∀ a B, GetBlock blocks a = some B → a ∉ toProcess →
    unionOutRegs s blocks B.Predecessors 0 = some B.startRegs
  keys : ∀ a ∈ toProcess, ∃ B, GetBlock blocks a = some B

/-- Block by block, the `startRegs` of the first map are contained in those of the
second. -/
def StartsBelow (blocks blocks2 : BlockSummaryMap) : Prop :=
  ∀ a B B2, GetBlock blocks a = some B → GetBlock blocks2 a = some B2 →
    BitSubset B.startRegs B2.startRegs

/-! ## Paths of the control-flow graph -/

/-- Both addresses are blocks of the map and the first is in the `Predecessors()`
of the second. -/
def isEdge (blocks : BlockSummaryMap) (a b : BlockAddress) : Bool :=
  match GetBlock blocks a, GetBlock blocks b with
  | some _, some B => decide (a ∈ B.Predecessors)
  | _, _ => false

/-- Each address of the list is joined to the next by an intraprocedural edge. -/
def isPath (blocks : BlockSummaryMap) : List BlockAddress → Bool
  | [] => true
  | [_] => true
  | a :: b :: rest => isEdge blocks a b && isPath blocks (b :: rest)

/-- Register `i` is in `OutRegs` of the block whatever its `startRegs` are. -/
def BlockSummary.generates (s : Statics) (B : BlockSummary) (i : Nat) : Bool :=
  ((B.SetStartRegs 0).OutRegs s).testBit i

/-- Register `i` gets from `startRegs` of the block to its `OutRegs`. -/
def BlockSummary.passes (s : Statics) (B : BlockSummary) (i : Nat) : Bool :=
  !B.isCallBlock || s.callNotKilledRegisters.testBit i

def generatesAt (s : Statics) (blocks : BlockSummaryMap) (i : Nat) (a : BlockAddress) : Bool :=
  match GetBlock blocks a with
  | some B => B.generates s i
  | none => false

def passesAt (s : Statics) (blocks : BlockSummaryMap) (i : Nat) (a : BlockAddress) : Bool :=
  match GetBlock blocks a with
  | some B => B.passes s i
  | none => false

/-- The block at `a` uses register `i`, or is a call block and `i` is a return
register. -/
def usesOrReturnsAt (s : Statics) (blocks : BlockSummaryMap) (i : Nat) (a : BlockAddress) :
    Bool :=
  match GetBlock blocks a with
  | some B => B.usedRegs.testBit i || (B.isCallBlock && s.callReturnRegisters.testBit i)
  | none => false

/-- The block at `a` is a call block and register `i` is outside
`NotKilledRegs ∪ ReturnRegs`. -/
def killsAt (s : Statics) (blocks : BlockSummaryMap) (i : Nat) (a : BlockAddress) : Bool :=
  match GetBlock blocks a with
  | some B => B.isCallBlock &&
      !(s.callNotKilledRegisters.testBit i || s.callReturnRegisters.testBit i)
  | none => false

/-- Register `i` flows to the start of block `b`: some block generates it and a path
of blocks that pass it leads from there to a predecessor of `b`. -/
def FlowsTo (s : Statics) (blocks : BlockSummaryMap) (i : Nat) (b : BlockAddress) : Prop :=
  ∃ q post, isPath blocks (q :: post ++ [b]) = true ∧ generatesAt s blocks i q = true ∧
    ∀ y ∈ post, passesAt s blocks i y = true

/-- Every bit of every `startRegs` of the second map flows there in the first. -/
def Justified (s : Statics) (blocks0 blocks : BlockSummaryMap) : Prop :=
  ∀ a B, GetBlock blocks a = some B → ∀ i, B.startRegs.testBit i = true →
    FlowsTo s blocks0 i a

/-- The path characterisation of `startRegs` that starts every path at the entry
block and lets a call only kill what an earlier block of the path used: for the
function `f` and the map `blocks1` propagation leaves, register `i` is in
`startRegs` of the block at `a` exactly when a path from the entry block to a
predecessor of that block has a block that uses `i` or is a call block returning
`i`, and no call block later on the path kills `i`. -/
def EntryPathCharacterisation (s : Statics) (f : FunctionSummary)
    (blocks1 : BlockSummaryMap) : Prop :=
  ∀ a B, GetBlock blocks1 a = some B → ∀ i, (B.startRegs.testBit i = true ↔
    ∃ pre x post, isPath f.blocks (pre ++ (x :: post) ++ [a]) = true ∧
      (pre ++ [x]).head? = some f.function.entry ∧
      usesOrReturnsAt s f.blocks i x = true ∧ ∀ y ∈ post, killsAt s f.blocks i y = false)

instance (blocks : BlockSummaryMap) : Decidable (StartsEmpty blocks) := by
  unfold StartsEmpty
  infer_instance

instance (blocks : BlockSummaryMap) : Decidable (EdgesClosed blocks) := by
  unfold EdgesClosed
  infer_instance

instance (blocks : BlockSummaryMap) : Decidable (EdgesConsistent blocks) := by
  unfold EdgesConsistent
  infer_instance

/-! ## A function to try the statements on

Register ids: 0 and 1 are parameter registers that a call kills, 2 is the return
register, 3 is a register a call preserves. Block 0 is the entry and carries the
two seeded parameters; block 16 ends in a call to a PLT stub and falls through
to block 32; block 32 jumps back to 16 and to itself. -/

def exStatics : Statics where
  bitArraySize := 4
  regIdToReg := fun id =>
    if id = 0 then "x86_64::rdi" else if id = 1 then "x86_64::rsi"
    else if id = 2 then "x86_64::rax" else "x86_64::rbx"
  callParamRegisters := 3
  callReturnRegisters := 4
  callNotKilledRegisters := 12

def exEdge (src trg : BlockAddress) (type : EdgeTypeEnum) : Edge :=
  { src := src, trg := trg, interproc := false, type := type }

def exCallEdge : Edge :=
  { src := 16, trg := 4096, interproc := true, type := .CALL,
    trgFuncs := [{ name := "strcmp", regionName := ".plt" }] }

def exBlock0 : BlockSummary where
  block := { start := 0, sources := [],
             targets := [exEdge 0 16 .COND_TAKEN, exEdge 0 32 .COND_NOT_TAKEN] }
  startRegs := 0
  usedRegs := 3

def exBlock16 : BlockSummary where
  block := { start := 16, sources := [exEdge 0 16 .COND_TAKEN, exEdge 32 16 .DIRECT],
             targets := [exCallEdge, exEdge 16 32 .CALL_FT] }
  startRegs := 0
  usedRegs := 8
  callInsnAddr := 20
  isCallBlock := true

def exBlock32 : BlockSummary where
  block := { start := 32,
             sources := [exEdge 0 32 .COND_NOT_TAKEN, exEdge 16 32 .CALL_FT,
                         exEdge 32 32 .COND_TAKEN],
             targets := [exEdge 32 16 .DIRECT, exEdge 32 32 .COND_TAKEN] }
  startRegs := 0
  usedRegs := 0

def exBlocks : BlockSummaryMap := [(0, exBlock0), (16, exBlock16), (32, exBlock32)]

def exFunction : FunctionSummary where
  function := { name := "cmp2", regionName := ".text", regionLow := 0 }
  blocks := exBlocks
  callBlocks := [16]

def islandJump : Edge :=
  { src := 0, trg := 16, interproc := true, type := .DIRECT }

def killBlock0 : BlockSummary where
  block := { start := 0, sources := [], targets := [exEdge 0 16 .CALL_FT] }
  startRegs := 0
  usedRegs := 1
  callInsnAddr := 4
  isCallBlock := true

def killBlock16 : BlockSummary where
  block := { start := 16, sources := [exEdge 0 16 .CALL_FT], targets := [] }
  startRegs := 0
  usedRegs := 0

def killFunction : FunctionSummary where
  function := { name := "caller", regionName := ".text", entry := 0 }
  blocks := [(0, killBlock0), (16, killBlock16)]
  callBlocks := [0]

def islandBlock0 : BlockSummary where
  block := { start := 0, sources := [], targets := [islandJump] }
  startRegs := 0
  usedRegs := 0

def islandBlock16 : BlockSummary where
  block := { start := 16, sources := [islandJump], targets := [exEdge 16 32 .FALLTHROUGH] }
  startRegs := 0
  usedRegs := 8

def islandBlock32 : BlockSummary where
  block := { start := 32, sources := [exEdge 16 32 .FALLTHROUGH], targets := [] }
  startRegs := 0
  usedRegs := 0

def islandFunction : FunctionSummary where
  function := { name := "island", regionName := ".text", entry := 0 }
  blocks := [(0, islandBlock0), (16, islandBlock16), (32, islandBlock32)]
  callBlocks := []

/-! ## Call records, edge by edge -/

/-- The CALL edges among the targets of the block, in the order of the targets. -/
def callEdges (b : BlockSummary) : List Edge :=
  b.block.targets.filter (fun e => decide (e.type = .CALL))

/-- The names of the registers of `usedRegs ∩ ParamRegs`. -/
def liveParamNames (s : Statics) (b : BlockSummary) : List String :=
  FunctionSummary.RegBitmapToNames s (b.usedRegs &&& s.callParamRegisters)

/-- The record of the call along one CALL edge. -/
def callRecordOf (s : Statics) (b : BlockSummary) (e : Edge) : CallRecord where
  callInstructionAddr := FunctionSummary.WriteJsonAddressMember b.callInsnAddr
  calledAddr := FunctionSummary.WriteJsonAddressMember e.trg
  callToPlt := e.trgFuncs.any FunctionSummary.IsPltRegion
  liveRegisters := liveParamNames s b
  funcNames := e.trgFuncs.map (fun f => f.name)

/-- The record of a call with no known target. -/
def nullRecord (s : Statics) (b : BlockSummary) : CallRecord where
  callInstructionAddr := FunctionSummary.WriteJsonAddressMember b.callInsnAddr
  calledAddr := .null
  callToPlt := false
  liveRegisters := liveParamNames s b
  funcNames := []

/-- The records of a call block before the PLT filter: one for each CALL edge, or
the null record when there is no CALL edge. -/
def unfilteredRecords (s : Statics) (b : BlockSummary) : List CallRecord :=
  if callEdges b = [] then [nullRecord s b] else (callEdges b).map (callRecordOf s b)

/-- The options with `--all-calls` given. -/
def allCalls (options : Options) : Options := { options with onlyToPltCalls := false }

/-- The options with `--all-calls` not given. -/
def pltOnly (options : Options) : Options := { options with onlyToPltCalls := true }

/-- A call block whose one CALL edge leads to the sink block of the parser, which
starts at the no-address value and belongs to no function: an indirect call. -/
def sinkCallBlock : BlockSummary where
  block := { start := 64, sources := [],
             targets := [{ src := 64, trg := noAddress, interproc := true, type := .CALL },
                         exEdge 64 80 .CALL_FT] }
  startRegs := 0
  usedRegs := 1
  callInsnAddr := 70
  isCallBlock := true

def exAbi : ABI where
  bitArraySize := 4
  getIndex := fun r => if r < 4 then r else if r = 101 then 1 else -1
  promote := fun r => if r = 100 then 0 else if r = 101 then 201 else r

def seedBlock0 : Block where
  start := 0
  end_ := 10
  sources := []
  targets := [{ src := 0, trg := 4096, interproc := true, type := .CALL,
                trgFuncs := [{ name := "puts", regionName := ".plt" }] },
              exEdge 0 16 .CALL_FT]
  insns := [(0, { readSet := [3] }), (5, { writeSet := [2], category := .c_CallInsn })]

def seedBlock16 : Block where
  start := 16
  end_ := 20
  sources := [exEdge 0 16 .CALL_FT]
  targets := [exEdge 16 32 .FALLTHROUGH]
  insns := [(16, { readSet := [3], writeSet := [3] })]

def seedBlock32 : Block where
  start := 32
  end_ := 40
  sources := [exEdge 16 32 .FALLTHROUGH]
  targets := [{ src := 32, trg := noAddress, interproc := true, type := .CALL }]
  insns := [(32, { readSet := [101], category := .c_CallInsn })]

def seedFunctionBlocks : List Block := [seedBlock32, seedBlock0, seedBlock16]

def seedParam : localVar where
  name := "s"
  locationLists :=
    [{ stClass := .storageReg, mr_reg := 100, lowPC := 0, hiPC := 8 },
     { stClass := .storageReg, mr_reg := 1, lowPC := 5, hiPC := 5 },
     { stClass := .storageAddr, mr_reg := 2, lowPC := 0, hiPC := 40 }]

def seedSymtab : Symtab where
  findFuncByEntryOffset := fun a => if a = 0 then some { params := [seedParam] } else none

def seedParseFunction : ParseFunction :=
  { name := "show", regionName := ".text", regionLow := 0, entry := 0 }

/-- The block `AddParamRegs` seeds, with the symbol-table function it takes the
parameters from: the entry block when the symbol table has a function at its
start, else the first block when the symbol table has a function there. -/
def seedTarget (symtab : Symtab) (fblocks : List Block) (entry : Block) :
    Option (Block × SymtabFunction) :=
  match fblocks with
  | [] => none
  | first :: _ =>
    match symtab.findFuncByEntryOffset entry.start with
    | some symtabFunc => some (entry, symtabFunc)
    | none =>
      match symtab.findFuncByEntryOffset first.start with
      | some symtabFunc => some (first, symtabFunc)
      | none => none

/-- A symbol table whose one parameter has one location record, in register 1 over
the empty range from 5 to 5. -/
def emptyRangeSymtab : Symtab where
  findFuncByEntryOffset := fun a =>
    if a = 0 then
      some { params := [{ name := "s", locationLists :=
        [{ stClass := .storageReg, mr_reg := 1, lowPC := 5, hiPC := 5 }] }] }
    else none

/-- The function summary before any block is added. -/
def seedEmpty : FunctionSummary :=
  { function := seedParseFunction, blocks := [], callBlocks := [] }

/-- The block holds an instruction of the call category. -/
def hasCallInsn (b : Block) : Bool :=
  b.insns.any (fun i => decide (i.2.category = .c_CallInsn))

/-- The records the call block at `a` contributes to the `calls` array. -/
def callGroup (s : Statics) (options : Options) (f : FunctionSummary) (a : BlockAddress) :
    List CallRecord :=
  match f.GetBlock a with
  | some B => B.WriteJson s options
  | none => []

/-- The function summary the constructor builds for `seedFunctionBlocks`. -/
def seedConstructed : FunctionSummary :=
  match FunctionSummary.construct exStatics exAbi seedSymtab seedParseFunction
      seedFunctionBlocks seedBlock0 with
  | .done f => f
  | _ => seedEmpty

/-! ## Reading back what JsonString writes -/

/-- The inverse of the three rules of `JsonString`, on the characters between the
quotes: after a backslash, `n` is read as a newline and any other character as
itself. `escaped` tells that the character before was an escaping backslash. -/
def unescapeFrom : Bool → List Char → List Char
  | _, [] => []
  | true, c :: cs => (if c = 'n' then newlineChar else c) :: unescapeFrom false cs
  | false, c :: cs =>
    if c = backslashChar then unescapeFrom true cs else c :: unescapeFrom false cs

/-- No double quote stands in the characters without an escaping backslash before
it, and no escaping backslash is left without the character it escapes. -/
def quotesEscapedFrom : Bool → List Char → Bool
  | escaped, [] => !escaped
  | true, _ :: cs => quotesEscapedFrom false cs
  | false, c :: cs =>
    if c = backslashChar then quotesEscapedFrom true cs
    else decide (c ≠ quoteChar) && quotesEscapedFrom false cs

/-! ## Outputs of the writer to compare with -/

/-- The member function returned. -/
def JsonWriter.Result.isOk : JsonWriter.Result → Bool
  | .ok _ => true
  | .abort _ => false

/-- The characters of the compact document of a binary without functions: the
object with the one member `functions`, an empty array, and no white space. -/
def emptyBinaryCompact : List Char :=
  [Char.ofNat 123, quoteChar] ++ "functions".toList ++ [quoteChar, ':', '[', ']', Char.ofNat 125]

/-- The characters of the indented document of a binary without functions: a
newline and two spaces before the key, a space after the colon, a newline
before the closing brace and one after it. -/
def emptyBinaryPretty : List Char :=
  [Char.ofNat 123, newlineChar, ' ', ' ', quoteChar] ++ "functions".toList ++
    [quoteChar, ':', ' ', '[', ']', newlineChar, Char.ofNat 125, newlineChar]

/-- A piece of output: a string literal `JsonString` writes for a string, or other
characters. -/
inductive Chunk where
  | literal (s : List Char)
  | plain (t : List Char)

/-- The characters of a piece. -/
def Chunk.text : Chunk → List Char
  | .literal s => JsonWriter.JsonString s
  | .plain t => t

/-- The strings the calls pass to `AddMemberKey` and to `AddScalar`. -/
def opStrings : List JsonWriter.Op → List (List Char)
  | [] => []
  | .AddScalarString s :: ops => s.toList :: opStrings ops
  | .AddMemberKey s :: ops => s.toList :: opStrings ops
  | .AddScalarInt _ :: ops => opStrings ops
  | .AddScalarBool _ :: ops => opStrings ops
  | .AddNull :: ops => opStrings ops
  | .OpenArray :: ops => opStrings ops
  | .CloseArray :: ops => opStrings ops
  | .OpenObject :: ops => opStrings ops
  | .CloseObject :: ops => opStrings ops
  | .End :: ops => opStrings ops
  | .Reset :: ops => opStrings ops

/-- The piece is the literal of one of the strings, or has neither a space nor a
newline. -/
def Chunk.compact (strings : List (List Char)) : Chunk → Prop
  | .literal s => s ∈ strings
  | .plain t => ' ' ∉ t ∧ newlineChar ∉ t

/-- The text is made of literals of the strings and of characters that are neither
spaces nor newlines: every space of it is inside the literal of a string. -/
def CompactText (strings : List (List Char)) (text : List Char) : Prop :=
  ∃ chunks : List Chunk, text = (chunks.map Chunk.text).flatten ∧
    ∀ c ∈ chunks, c.compact strings

/-- A member function that ends in `r` from the writer `w` has added compact text
to the stream and left the indent 0. -/
def CompactStep (strings : List (List Char)) (w : JsonWriter) (r : JsonWriter.Result) : Prop :=
  ∃ added, r.output = w.os ++ added ∧ CompactText strings added ∧
    ∀ w1, r = .ok w1 → w1.indent = 0

/-! ## The command line as the user sees it -/

/-- The options `ProcessOptions` knows, and the end of the options. -/
def knownOptions : List String :=
  ["--help", "-h", "--version", "-v", "--debug", "--compact-json", "--all-calls", "--"]

/-- The arguments that start with a dash and stand before the first positional
argument and before the end of the options. -/
def optionArgs : List String → List String
  | [] => []
  | arg :: rest =>
    if Options.startsWithDash arg = true ∧ arg ≠ "--" then arg :: optionArgs rest else []

/-- The positional arguments: the arguments from the first that does not start
with a dash on, or those after the end of the options if it comes first. -/
def positionalArgs : List String → List String
  | [] => []
  | arg :: rest =>
    if Options.startsWithDash arg = true then
      (if arg = "--" then rest else positionalArgs rest)
    else arg :: rest

/-- An option among the arguments is not one `ProcessOptions` knows. -/
def hasUnknownOption (arguments : List String) : Bool :=
  (optionArgs arguments).any (fun arg => decide (arg ∉ knownOptions))

/-- The arguments ask for the usage message. -/
def asksHelp (arguments : List String) : Bool :=
  (optionArgs arguments).any (fun arg => decide (arg = "--help" ∨ arg = "-h"))

/-- The arguments ask for the version. -/
def asksVersion (arguments : List String) : Bool :=
  (optionArgs arguments).any (fun arg => decide (arg = "--version" ∨ arg = "-v"))

/-- The status the process ends with, if `ProcessOptions` ends it. -/
def OptionsResult.status : OptionsResult → Option Nat
  | .returned _ => none
  | .exited status _ => some status

/-! ## The state stack of the writer -/

/-- The state `child` was pushed on the state `parent` after a token had been
counted there. -/
def Nested (child parent : JsonWriter.ItemState) : Prop :=
  child.level = wrap32 (parent.level + 1) ∧ 0 < parent.numElements

/-- The stack of the writer is `d` open arrays and objects on the top-level state,
which has counted `n` tokens; a state that has counted a token has a level
whose indentation is not negative; and each state but the lowest was pushed on
the one below it. -/
structure Stacked (w : JsonWriter) (d n : Nat) : Prop where
  stack : ∃ items root, w.state = items ++ [root] ∧ items.length = d ∧
    root.type = .anyType ∧ root.numElements = n
  levels : ∀ it ∈ w.state, 0 < it.numElements → 0 ≤ wrap32 (it.level * w.indent)
  chain : List.Chain' Nested w.state

def twinPlain : Block where
  start := 0
  end_ := 10
  sources := []
  targets := []
  insns := [(0, { readSet := [3] })]

def twinCall : Block where
  start := 0
  end_ := 10
  sources := []
  targets := [{ src := 0, trg := 4096, interproc := true, type := .CALL,
                trgFuncs := [{ name := "puts", regionName := ".plt" }] }]
  insns := [(0, { readSet := [3] }), (5, { writeSet := [2], category := .c_CallInsn })]

/-- The call-block set of the function summary the constructor ends with, and the
`calls` array `WriteJson` writes for it. -/
def callsOf (s : Statics) (options : Options) :
    Outcome FunctionSummary → Option (BlockAddressSet × List CallRecord)
  | .done f => (f.WriteJson s options).map (fun r => (f.callBlocks, r.calls))
  | .nullDeref => none
  | .outOfFuel => none
  | .outOfRange => none

/-! ## Theorems -/

section BitSets

theorem BitSubset.refl (a : bitArray) : BitSubset a a := fun _ h => h

theorem BitSubset.trans {a b c : bitArray} (h1 : BitSubset a b) (h2 : BitSubset b c) :
    BitSubset a c := fun i h => h2 i (h1 i h)

theorem BitSubset.le {a b : bitArray} (h : BitSubset a b) : a ≤ b :=
  Nat.le_of_testBit h

theorem BitSubset.antisymm {a b : bitArray} (h1 : BitSubset a b) (h2 : BitSubset b a) :
    a = b :=
  Nat.le_antisymm h1.le h2.le

theorem BitSubset.zero (a : bitArray) : BitSubset 0 a := by
  intro i h
  simp at h

theorem BitSubset.lt_of_ne {a b : bitArray} (h : BitSubset a b) (hne : b ≠ a) : a < b :=
  lt_of_le_of_ne h.le (fun e => hne e.symm)

end BitSets

section OutRegsLemmas

theorem testBit_OutRegs (s : Statics) (b : BlockSummary) (i : Nat) :
    (b.OutRegs s).testBit i =
      if b.isCallBlock then
        (((b.usedRegs.testBit i || b.startRegs.testBit i) &&
          s.callNotKilledRegisters.testBit i) || s.callReturnRegisters.testBit i)
      else (b.usedRegs.testBit i || b.startRegs.testBit i) := by
  unfold BlockSummary.OutRegs BlockSummary.IsCallBlock
  cases b.isCallBlock <;> simp

theorem OutRegs_mono (s : Statics) (b : BlockSummary) (r : bitArray)
    (h : BitSubset b.startRegs r) :
    BitSubset (b.OutRegs s) ((b.SetStartRegs r).OutRegs s) := by
  intro i hi
  rw [testBit_OutRegs] at hi ⊢
  simp only [BlockSummary.SetStartRegs]
  cases hc : b.isCallBlock <;> simp only [hc, Bool.false_eq_true, if_false, if_true,
    Bool.or_eq_true, Bool.and_eq_true] at hi ⊢
  · rcases hi with hi | hi
    · exact Or.inl hi
    · exact Or.inr (h i hi)
  · rcases hi with ⟨hi | hi, hk⟩ | hi
    · exact Or.inl ⟨Or.inl hi, hk⟩
    · exact Or.inl ⟨Or.inr (h i hi), hk⟩
    · exact Or.inr hi

end OutRegsLemmas

section MapLemmas

theorem GetBlock_SetStartRegsAt (bs : BlockSummaryMap) (addr : BlockAddress) (r : bitArray)
    (a : BlockAddress) :
    GetBlock (SetStartRegsAt bs addr r) a =
      if a = addr then (GetBlock bs a).map (fun b => b.SetStartRegs r) else GetBlock bs a := by
  induction bs with
  | nil => simp [SetStartRegsAt, GetBlock]
  | cons e rest ih =>
    obtain ⟨k, b⟩ := e
    by_cases hk : k = addr
    · subst hk
      by_cases ha : k = a
      · subst ha
        simp [SetStartRegsAt, GetBlock]
      · have ha2 : ¬ a = k := fun e => ha e.symm
        simp [SetStartRegsAt, GetBlock, ha, ha2]
    · by_cases ha : k = a
      · subst ha
        simp [SetStartRegsAt, GetBlock, hk]
      · simp only [SetStartRegsAt, GetBlock, hk, ha, if_false]
        exact ih

theorem GetBlock_SetStartRegsAt_ne (bs : BlockSummaryMap) (addr : BlockAddress) (r : bitArray)
    (a : BlockAddress) (h : a ≠ addr) :
    GetBlock (SetStartRegsAt bs addr r) a = GetBlock bs a := by
  rw [GetBlock_SetStartRegsAt, if_neg h]

theorem GetBlock_SetStartRegsAt_self (bs : BlockSummaryMap) (addr : BlockAddress)
    (r : bitArray) (b : BlockSummary) (h : GetBlock bs addr = some b) :
    GetBlock (SetStartRegsAt bs addr r) addr = some (b.SetStartRegs r) := by
  rw [GetBlock_SetStartRegsAt, if_pos rfl, h]
  rfl

theorem GetBlock_mem {bs : BlockSummaryMap} {a : BlockAddress} {b : BlockSummary}
    (h : GetBlock bs a = some b) : (a, b) ∈ bs := by
  induction bs with
  | nil => simp [GetBlock] at h
  | cons e rest ih =>
    obtain ⟨k, c⟩ := e
    by_cases hk : k = a
    · subst hk
      simp [GetBlock] at h
      subst h
      exact List.mem_cons_self _ _
    · simp only [GetBlock, hk, if_false] at h
      exact List.mem_cons_of_mem _ (ih h)

theorem unionOutRegs_congr (s : Statics) (bs1 bs2 : BlockSummaryMap) (ps : AddressVector)
    (acc : bitArray) (h : ∀ p ∈ ps, GetBlock bs1 p = GetBlock bs2 p) :
    unionOutRegs s bs1 ps acc = unionOutRegs s bs2 ps acc := by
  induction ps generalizing acc with
  | nil => rfl
  | cons p ps ih =>
    have hp := h p (List.mem_cons_self _ _)
    simp only [unionOutRegs, hp]
    cases GetBlock bs2 p with
    | none => rfl
    | some P => exact ih _ (fun q hq => h q (List.mem_cons_of_mem _ hq))

theorem unionOutRegs_testBit (s : Statics) (bs : BlockSummaryMap) (ps : AddressVector)
    (acc v : bitArray) (h : unionOutRegs s bs ps acc = some v) (i : Nat) :
    v.testBit i = true ↔
      (acc.testBit i = true ∨
        ∃ p ∈ ps, ∃ P, GetBlock bs p = some P ∧ (P.OutRegs s).testBit i = true) := by
  induction ps generalizing acc with
  | nil =>
    simp only [unionOutRegs, Option.some.injEq] at h
    subst h
    simp
  | cons p ps ih =>
    simp only [unionOutRegs] at h
    cases hp : GetBlock bs p with
    | none => simp [hp] at h
    | some P =>
      simp only [hp] at h
      rw [ih _ h, Nat.testBit_or, Bool.or_eq_true]
      constructor
      · rintro ((h1 | h1) | ⟨q, hq, Q, hQ, hb⟩)
        · exact Or.inl h1
        · exact Or.inr ⟨p, List.mem_cons_self _ _, P, hp, h1⟩
        · exact Or.inr ⟨q, List.mem_cons_of_mem _ hq, Q, hQ, hb⟩
      · rintro (h1 | ⟨q, hq, Q, hQ, hb⟩)
        · exact Or.inl (Or.inl h1)
        · rcases List.mem_cons.1 hq with e | hq
          · subst e
            rw [hp] at hQ
            cases hQ
            exact Or.inl (Or.inr hb)
          · exact Or.inr ⟨q, hq, Q, hQ, hb⟩

theorem unionOutRegs_found (s : Statics) (bs : BlockSummaryMap) (ps : AddressVector)
    (acc v : bitArray) (h : unionOutRegs s bs ps acc = some v) :
    ∀ p ∈ ps, ∃ P, GetBlock bs p = some P := by
  induction ps generalizing acc with
  | nil => intro p hp; cases hp
  | cons q ps ih =>
    simp only [unionOutRegs] at h
    cases hq : GetBlock bs q with
    | none => simp [hq] at h
    | some Q =>
      simp only [hq] at h
      intro p hp
      rcases List.mem_cons.1 hp with e | hp
      · subst e; exact ⟨Q, hq⟩
      · exact ih _ h p hp

theorem unionOutRegs_isSome (s : Statics) (bs : BlockSummaryMap) (ps : AddressVector)
    (acc : bitArray) (h : ∀ p ∈ ps, ∃ P, GetBlock bs p = some P) :
    ∃ v, unionOutRegs s bs ps acc = some v := by
  induction ps generalizing acc with
  | nil => exact ⟨acc, rfl⟩
  | cons q ps ih =>
    obtain ⟨Q, hQ⟩ := h q (List.mem_cons_self _ _)
    simp only [unionOutRegs, hQ]
    exact ih _ (fun p hp => h p (List.mem_cons_of_mem _ hp))

end MapLemmas

section WorkSet

theorem mem_setInsert (a x : BlockAddress) (l : BlockAddressSet) :
    x ∈ setInsert a l ↔ x = a ∨ x ∈ l := by
  induction l with
  | nil => simp [setInsert]
  | cons b l ih =>
    unfold setInsert
    split
    · simp
    · split
      · rename_i h1 h2
        subst h2
        simp
      · simp only [List.mem_cons, ih]
        tauto

theorem setInsert_sorted (a : BlockAddress) (l : BlockAddressSet)
    (h : l.Sorted (· < ·)) : (setInsert a l).Sorted (· < ·) := by
  induction l with
  | nil => simp [setInsert]
  | cons b l ih =>
    have hb := List.rel_of_sorted_cons h
    have hl := List.Sorted.of_cons h
    unfold setInsert
    split
    · rename_i h1
      refine List.pairwise_cons.2 ⟨?_, h⟩
      intro x hx
      rcases List.mem_cons.1 hx with e | hx
      · rw [e]; exact h1
      · exact lt_trans h1 (hb x hx)
    · split
      · exact h
      · rename_i h1 h2
        refine List.pairwise_cons.2 ⟨?_, ih hl⟩
        intro x hx
        rcases (mem_setInsert a x l).1 hx with e | hx
        · rw [e]
          exact lt_of_le_of_ne (Nat.le_of_not_lt h1) (fun e2 => h2 e2.symm)
        · exact hb x hx

theorem mem_setInsertAll (as : AddressVector) (l : BlockAddressSet) (x : BlockAddress) :
    x ∈ setInsertAll as l ↔ x ∈ as ∨ x ∈ l := by
  induction as generalizing l with
  | nil => simp [setInsertAll]
  | cons a as ih =>
    simp only [setInsertAll, ih, mem_setInsert, List.mem_cons]
    tauto

theorem setInsertAll_sorted (as : AddressVector) (l : BlockAddressSet)
    (h : l.Sorted (· < ·)) : (setInsertAll as l).Sorted (· < ·) := by
  induction as generalizing l with
  | nil => exact h
  | cons a as ih => exact ih _ (setInsert_sorted a l h)

theorem mem_blockKeys (bs : BlockSummaryMap) (a : BlockAddress) :
    a ∈ blockKeys bs ↔ ∃ B, GetBlock bs a = some B := by
  induction bs with
  | nil => simp [blockKeys, GetBlock]
  | cons e rest ih =>
    obtain ⟨k, b⟩ := e
    simp only [blockKeys, mem_setInsert, ih, GetBlock]
    by_cases hk : k = a
    · subst hk; simp
    · have hk2 : ¬ a = k := fun e => hk e.symm
      simp [hk, hk2]

theorem blockKeys_sorted (bs : BlockSummaryMap) : (blockKeys bs).Sorted (· < ·) := by
  induction bs with
  | nil => simp [blockKeys]
  | cons e rest ih =>
    obtain ⟨k, b⟩ := e
    exact setInsert_sorted k _ ih

theorem sorted_erase (l : BlockAddressSet) (a : BlockAddress) (h : l.Sorted (· < ·)) :
    (l.erase a).Sorted (· < ·) :=
  List.Pairwise.sublist (List.erase_sublist a l) h

theorem mem_of_not_mem_erase {l : BlockAddressSet} {a x : BlockAddress}
    (h : x ∉ l.erase a) : x = a ∨ x ∉ l := by
  by_cases hx : x = a
  · exact Or.inl hx
  · exact Or.inr (fun hm => h ((List.mem_erase_of_ne hx).2 hm))

end WorkSet

section Shape

theorem skeleton_SetStartRegsAt (bs : BlockSummaryMap) (addr : BlockAddress) (r : bitArray) :
    skeleton (SetStartRegsAt bs addr r) = skeleton bs := by
  induction bs with
  | nil => rfl
  | cons e rest ih =>
    obtain ⟨k, b⟩ := e
    by_cases hk : k = addr
    · simp [SetStartRegsAt, hk, skeleton, BlockSummary.SetStartRegs]
    · simp [SetStartRegsAt, hk, skeleton, ih]

theorem GetBlock_skeleton (bs : BlockSummaryMap) (a : BlockAddress) :
    GetBlock (skeleton bs) a = (GetBlock bs a).map (fun b => b.SetStartRegs 0) := by
  induction bs with
  | nil => rfl
  | cons e rest ih =>
    obtain ⟨k, b⟩ := e
    by_cases hk : k = a
    · simp [skeleton, GetBlock, hk]
    · simp [skeleton, GetBlock, hk, ih]

theorem workUniverse_skeleton (bs : BlockSummaryMap) :
    workUniverse (skeleton bs) = workUniverse bs := by
  induction bs with
  | nil => rfl
  | cons e rest ih =>
    obtain ⟨k, b⟩ := e
    simp [skeleton, workUniverse, ih, BlockSummary.SetStartRegs, BlockSummary.Successors]

theorem regBound_skeleton (s : Statics) (bs : BlockSummaryMap) :
    regBound s (skeleton bs) = regBound s bs := by
  induction bs with
  | nil => rfl
  | cons e rest ih =>
    obtain ⟨k, b⟩ := e
    simp [skeleton, regBound, ih, BlockSummary.SetStartRegs]

/-- Two maps with one skeleton hold, at each address, blocks that differ in
`startRegs` at most. -/
theorem shape_get {bs bs0 : BlockSummaryMap} (h : skeleton bs = skeleton bs0)
    {a : BlockAddress} {B : BlockSummary} (hB : GetBlock bs a = some B) :
    ∃ B0, GetBlock bs0 a = some B0 ∧ B0.SetStartRegs 0 = B.SetStartRegs 0 := by
  have h1 := GetBlock_skeleton bs a
  have h2 := GetBlock_skeleton bs0 a
  rw [h, h2, hB] at h1
  cases h0 : GetBlock bs0 a with
  | none => simp [h0] at h1
  | some B0 =>
    refine ⟨B0, rfl, ?_⟩
    simpa [h0] using h1

theorem shape_fields {B B0 : BlockSummary} (h : B0.SetStartRegs 0 = B.SetStartRegs 0) :
    B0.block = B.block ∧ B0.usedRegs = B.usedRegs ∧ B0.isCallBlock = B.isCallBlock ∧
      B0.Predecessors = B.Predecessors ∧ B0.Successors = B.Successors := by
  have h1 : (B0.SetStartRegs 0).block = (B.SetStartRegs 0).block := by rw [h]
  have h2 : (B0.SetStartRegs 0).usedRegs = (B.SetStartRegs 0).usedRegs := by rw [h]
  have h3 : (B0.SetStartRegs 0).isCallBlock = (B.SetStartRegs 0).isCallBlock := by rw [h]
  simp only [BlockSummary.SetStartRegs] at h1 h2 h3
  refine ⟨h1, h2, h3, ?_, ?_⟩
  · simp [BlockSummary.Predecessors, h1]
  · simp [BlockSummary.Successors, h1]

theorem shape_eq_of_start {B B0 : BlockSummary} (h : B0.SetStartRegs 0 = B.SetStartRegs 0)
    (hs : B0.startRegs = B.startRegs) : B0 = B := by
  cases B0
  cases B
  simp only [BlockSummary.SetStartRegs, BlockSummary.mk.injEq] at h ⊢
  simp only at hs
  tauto

end Shape

section Body

/-- What one pass of the loop body does, case by case. -/
theorem PropagateBody_cases {s : Statics} {addr : BlockAddress} {rest tp1 : BlockAddressSet}
    {bs bs1 : BlockSummaryMap} (h : PropagateBody s addr rest bs = some (tp1, bs1)) :
    ∃ B v, GetBlock bs addr = some B ∧ unionOutRegs s bs B.Predecessors 0 = some v ∧
      ((v = B.startRegs ∧ tp1 = rest ∧ bs1 = bs) ∨
       (v ≠ B.startRegs ∧ tp1 = setInsertAll B.Successors rest ∧
          bs1 = SetStartRegsAt bs addr v)) := by
  unfold PropagateBody at h
  cases hB : GetBlock bs addr with
  | none => simp [hB] at h
  | some B =>
    simp only [hB, BlockSummary.EnptyRegs] at h
    cases hv : unionOutRegs s bs B.Predecessors 0 with
    | none => simp [hv] at h
    | some v =>
      simp only [hv, BlockSummary.StartRegs] at h
      refine ⟨B, v, rfl, hv, ?_⟩
      by_cases hne : v = B.startRegs
      · left
        simp only [hne, ne_eq, not_true_eq_false, if_false, Option.some.injEq,
          Prod.mk.injEq] at h
        exact ⟨hne, h.1.symm, h.2.symm⟩
      · right
        simp only [ne_eq, hne, not_false_eq_true, if_true, Option.some.injEq,
          Prod.mk.injEq] at h
        exact ⟨hne, h.1.symm, h.2.symm⟩

/-- The recomputed value holds every bit of the value it replaces. -/
theorem Supported.subset_union {s : Statics} {bs : BlockSummaryMap} (hS : Supported s bs)
    {a : BlockAddress} {B : BlockSummary} (hB : GetBlock bs a = some B) {v : bitArray}
    (hv : unionOutRegs s bs B.Predecessors 0 = some v) : BitSubset B.startRegs v := by
  intro i hi
  rw [unionOutRegs_testBit s bs _ 0 v hv i]
  exact Or.inr (hS a B hB i hi)

/-- A bit of `OutRegs` stays one when the block at `addr` gets a larger `startRegs`. -/
theorem OutRegs_bit_update {s : Statics} {bs : BlockSummaryMap} {addr : BlockAddress}
    {B : BlockSummary} (hB : GetBlock bs addr = some B) {v : bitArray}
    (hsub : BitSubset B.startRegs v) {p : BlockAddress} {P : BlockSummary}
    (hP : GetBlock bs p = some P) {i : Nat} (hi : (P.OutRegs s).testBit i = true) :
    ∃ P1, GetBlock (SetStartRegsAt bs addr v) p = some P1 ∧
      (P1.OutRegs s).testBit i = true := by
  by_cases hp : p = addr
  · subst hp
    rw [hB] at hP
    cases hP
    exact ⟨_, GetBlock_SetStartRegsAt_self bs p v B hB, OutRegs_mono s B v hsub i hi⟩
  · exact ⟨P, by rw [GetBlock_SetStartRegsAt_ne bs addr v p hp]; exact hP, hi⟩

theorem Supported.afterUpdate {s : Statics} {bs : BlockSummaryMap} (hS : Supported s bs)
    {addr : BlockAddress} {B : BlockSummary} (hB : GetBlock bs addr = some B) {v : bitArray}
    (hv : unionOutRegs s bs B.Predecessors 0 = some v) :
    Supported s (SetStartRegsAt bs addr v) := by
  have hsub := hS.subset_union hB hv
  intro a B1 hB1 i hi
  rw [GetBlock_SetStartRegsAt] at hB1
  by_cases ha : a = addr
  · subst ha
    simp only [if_true, hB, Option.map_some', Option.some.injEq] at hB1
    subst hB1
    simp only [BlockSummary.SetStartRegs] at hi
    rcases (unionOutRegs_testBit s bs _ 0 v hv i).1 hi with h0 | ⟨p, hp, P, hP, hb⟩
    · simp at h0
    · obtain ⟨P1, hP1, hb1⟩ := OutRegs_bit_update hB hsub hP hb
      exact ⟨p, hp, P1, hP1, hb1⟩
  · simp only [ha, if_false] at hB1
    obtain ⟨p, hp, P, hP, hb⟩ := hS a B1 hB1 i hi
    obtain ⟨P1, hP1, hb1⟩ := OutRegs_bit_update hB hsub hP hb
    exact ⟨p, hp, P1, hP1, hb1⟩

theorem StartsEmpty.supported {bs : BlockSummaryMap} (h : StartsEmpty bs) (s : Statics) :
    Supported s bs := by
  intro a B hB i hi
  have := h (a, B) (GetBlock_mem hB)
  simp only at this
  rw [this] at hi
  simp at hi

end Body

section Invariant

theorem mem_workUniverse_key {bs : BlockSummaryMap} {a : BlockAddress} {B : BlockSummary}
    (h : (a, B) ∈ bs) : a ∈ workUniverse bs := by
  induction bs with
  | nil => cases h
  | cons e rest ih =>
    obtain ⟨k, b⟩ := e
    rcases List.mem_cons.1 h with e | h
    · cases e
      simp [workUniverse]
    · simp only [workUniverse, List.mem_cons, List.mem_append]
      exact Or.inr (Or.inr (ih h))

theorem mem_workUniverse_succ {bs : BlockSummaryMap} {a : BlockAddress} {B : BlockSummary}
    (h : (a, B) ∈ bs) {q : BlockAddress} (hq : q ∈ B.Successors) : q ∈ workUniverse bs := by
  induction bs with
  | nil => cases h
  | cons e rest ih =>
    obtain ⟨k, b⟩ := e
    rcases List.mem_cons.1 h with e | h
    · cases e
      simp only [workUniverse, List.mem_cons, List.mem_append]
      exact Or.inr (Or.inl hq)
    · simp only [workUniverse, List.mem_cons, List.mem_append]
      exact Or.inr (Or.inr (ih h))

theorem regBound_return (s : Statics) (bs : BlockSummaryMap) :
    BitSubset s.callReturnRegisters (regBound s bs) := by
  induction bs with
  | nil => exact BitSubset.refl _
  | cons e rest ih =>
    obtain ⟨k, b⟩ := e
    intro i hi
    simp only [regBound, Nat.testBit_or, Bool.or_eq_true]
    exact Or.inr (ih i hi)

theorem regBound_used (s : Statics) {bs : BlockSummaryMap} {a : BlockAddress}
    {B : BlockSummary} (h : (a, B) ∈ bs) : BitSubset B.usedRegs (regBound s bs) := by
  induction bs with
  | nil => cases h
  | cons e rest ih =>
    obtain ⟨k, b⟩ := e
    intro i hi
    simp only [regBound, Nat.testBit_or, Bool.or_eq_true]
    rcases List.mem_cons.1 h with e | h
    · cases e
      exact Or.inl hi
    · exact Or.inr (ih h i hi)

theorem OutRegs_subset_bound (s : Statics) (B : BlockSummary) (M : bitArray)
    (h1 : BitSubset B.startRegs M) (h2 : BitSubset B.usedRegs M)
    (h3 : BitSubset s.callReturnRegisters M) : BitSubset (B.OutRegs s) M := by
  intro i hi
  rw [testBit_OutRegs] at hi
  cases hc : B.isCallBlock <;> simp only [hc, Bool.false_eq_true, if_false, if_true,
    Bool.or_eq_true, Bool.and_eq_true] at hi
  · rcases hi with hi | hi
    · exact h2 i hi
    · exact h1 i hi
  · rcases hi with ⟨hi | hi, _⟩ | hi
    · exact h2 i hi
    · exact h1 i hi
    · exact h3 i hi

theorem mem_SetStartRegsAt {bs : BlockSummaryMap} {addr : BlockAddress} {r : bitArray}
    {e : BlockAddress × BlockSummary} (h : e ∈ SetStartRegsAt bs addr r) :
    e ∈ bs ∨ e.2.startRegs = r := by
  induction bs with
  | nil => cases h
  | cons x rest ih =>
    obtain ⟨k, b⟩ := x
    by_cases hk : k = addr
    · simp only [SetStartRegsAt, hk, if_true, List.mem_cons] at h
      rcases h with h | h
      · right
        rw [h]
        rfl
      · left
        exact List.mem_cons_of_mem _ h
    · simp only [SetStartRegsAt, hk, if_false, List.mem_cons] at h
      rcases h with h | h
      · left
        rw [h]
        exact List.mem_cons_self _ _
      · rcases ih h with h | h
        · exact Or.inl (List.mem_cons_of_mem _ h)
        · exact Or.inr h

/-- The recomputed value lies inside the register bound of the map. -/
theorem union_subset_bound {s : Statics} {bs bs0 : BlockSummaryMap}
    (hshape : skeleton bs = skeleton bs0)
    (hb : ∀ e ∈ bs, BitSubset e.2.startRegs (regBound s bs0))
    {ps : AddressVector} {v : bitArray} (hv : unionOutRegs s bs ps 0 = some v) :
    BitSubset v (regBound s bs0) := by
  have hM : regBound s bs0 = regBound s bs := by
    rw [← regBound_skeleton, ← hshape, regBound_skeleton]
  intro i hi
  rcases (unionOutRegs_testBit s bs ps 0 v hv i).1 hi with h0 | ⟨p, _, P, hP, hbit⟩
  · simp at h0
  · have hmem := GetBlock_mem hP
    refine OutRegs_subset_bound s P _ (hb _ hmem) ?_ (regBound_return s bs0) i hbit
    rw [hM]
    exact regBound_used s hmem

theorem LoopInv.atStart (s : Statics) {bs0 : BlockSummaryMap} (h0 : StartsEmpty bs0) :
    LoopInv s bs0 (blockKeys bs0) bs0 where
  sorted := blockKeys_sorted bs0
  inUniverse := by
    intro a ha
    obtain ⟨B, hB⟩ := (mem_blockKeys bs0 a).1 ha
    exact mem_workUniverse_key (GetBlock_mem hB)
  shape := rfl
  supported := h0.supported s
  bounded := by
    intro e he
    rw [h0 e he]
    exact BitSubset.zero _

/-- One pass of the loop body keeps the invariant, whichever member `addr` of
the work set it is run for. -/
theorem LoopInv.afterBody {s : Statics} {bs0 bs bs1 : BlockSummaryMap}
    {tp rest tp1 : BlockAddressSet} {addr : BlockAddress} (inv : LoopInv s bs0 tp bs)
    (hrest : rest.Sorted (· < ·)) (hsub : ∀ a ∈ rest, a ∈ tp)
    (h : PropagateBody s addr rest bs = some (tp1, bs1)) : LoopInv s bs0 tp1 bs1 := by
  obtain ⟨B, v, hB, hv, hcase⟩ := PropagateBody_cases h
  rcases hcase with ⟨_, h1, h2⟩ | ⟨_, h1, h2⟩
  · subst h1
    subst h2
    exact ⟨hrest, fun a ha => inv.inUniverse a (hsub a ha), inv.shape, inv.supported,
      inv.bounded⟩
  · subst h1
    subst h2
    refine ⟨setInsertAll_sorted _ _ hrest, ?_, ?_, inv.supported.afterUpdate hB hv, ?_⟩
    · intro a ha
      rcases (mem_setInsertAll _ _ a).1 ha with ha | ha
      · obtain ⟨B0, hB0, hsk⟩ := shape_get inv.shape hB
        have hf := shape_fields hsk
        rw [← hf.2.2.2.2] at ha
        exact mem_workUniverse_succ (GetBlock_mem hB0) ha
      · exact inv.inUniverse a (hsub a ha)
    · rw [skeleton_SetStartRegsAt]
      exact inv.shape
    · intro e he
      rcases mem_SetStartRegsAt he with he | he
      · exact inv.bounded e he
      · rw [he]
        exact union_subset_bound inv.shape inv.bounded hv

theorem Reach.inv {s : Statics} {bs0 bs : BlockSummaryMap} {tp : BlockAddressSet}
    (h0 : StartsEmpty bs0) (h : Reach s bs0 tp bs) : LoopInv s bs0 tp bs := by
  induction h with
  | init => exact LoopInv.atStart s h0
  | step _ hmem hbody ih =>
    exact ih.afterBody (sorted_erase _ _ ih.sorted) (fun a ha => List.mem_of_mem_erase ha) hbody

end Invariant

section Termination

theorem slack_update_lt (M : bitArray) {bs : BlockSummaryMap} {addr : BlockAddress}
    {B : BlockSummary} {v : bitArray} (hB : GetBlock bs addr = some B)
    (hlt : B.startRegs < v) (hle : v ≤ M) :
    slack M (SetStartRegsAt bs addr v) < slack M bs := by
  have hlt1 : @LT.lt Nat _ B.startRegs v := hlt
  have hle1 : @LE.le Nat _ v M := hle
  induction bs with
  | nil => simp [GetBlock] at hB
  | cons e rest ih =>
    obtain ⟨k, b⟩ := e
    by_cases hk : k = addr
    · simp only [GetBlock, hk, if_true, Option.some.injEq] at hB
      subst hB
      simp only [SetStartRegsAt, hk, if_true, slack, BlockSummary.SetStartRegs]
      omega
    · simp only [GetBlock, hk, if_false] at hB
      simp only [SetStartRegsAt, hk, if_false, slack]
      have := ih hB
      omega

theorem length_le_universe {tp : BlockAddressSet} {U : List BlockAddress}
    (hs : tp.Sorted (· < ·)) (hsub : ∀ a ∈ tp, a ∈ U) : tp.length ≤ U.length :=
  (List.Nodup.subperm hs.nodup hsub).length_le

theorem potential_body_lt {s : Statics} {bs0 bs bs1 : BlockSummaryMap}
    {tp rest tp1 : BlockAddressSet} {addr : BlockAddress}
    (inv : LoopInv s bs0 tp bs) (hrest : rest.Sorted (· < ·))
    (hsubset : ∀ a ∈ rest, a ∈ tp) (hlen : rest.length < tp.length)
    (h : PropagateBody s addr rest bs = some (tp1, bs1)) :
    potential s tp1 bs1 < potential s tp bs := by
  have inv1 : LoopInv s bs0 tp1 bs1 := inv.afterBody hrest hsubset h
  have hM : regBound s bs = regBound s bs0 := by
    rw [← regBound_skeleton, inv.shape, regBound_skeleton]
  have hM1 : regBound s bs1 = regBound s bs0 := by
    rw [← regBound_skeleton, inv1.shape, regBound_skeleton]
  have hK : workUniverse bs = workUniverse bs0 := by
    rw [← workUniverse_skeleton, inv.shape, workUniverse_skeleton]
  have hK1 : workUniverse bs1 = workUniverse bs0 := by
    rw [← workUniverse_skeleton, inv1.shape, workUniverse_skeleton]
  obtain ⟨B, v, hB, hv, hcase⟩ := PropagateBody_cases h
  unfold potential
  rw [hM, hM1, hK, hK1]
  rcases hcase with ⟨_, h1, h2⟩ | ⟨hne, _, h2⟩
  · subst h1
    subst h2
    omega
  · have hlen1 := length_le_universe inv1.sorted inv1.inUniverse
    have hsub := inv.supported.subset_union hB hv
    have hle : v ≤ regBound s bs0 := (union_subset_bound inv.shape inv.bounded hv).le
    have hlt := slack_update_lt (regBound s bs0) hB (hsub.lt_of_ne hne) hle
    rw [← h2] at hlt
    have hmul : (slack (regBound s bs0) bs1 + 1) * ((workUniverse bs0).length + 1) ≤
        slack (regBound s bs0) bs * ((workUniverse bs0).length + 1) :=
      Nat.mul_le_mul_right _ hlt
    rw [Nat.add_mul, Nat.one_mul] at hmul
    omega

theorem potential_head_lt {s : Statics} {bs0 bs bs1 : BlockSummaryMap}
    {rest tp1 : BlockAddressSet} {addr : BlockAddress}
    (inv : LoopInv s bs0 (addr :: rest) bs)
    (h : PropagateBody s addr rest bs = some (tp1, bs1)) :
    potential s tp1 bs1 < potential s (addr :: rest) bs :=
  potential_body_lt inv (List.Sorted.of_cons inv.sorted)
    (fun a ha => List.mem_cons_of_mem _ ha) (by simp) h

/-- With at least `potential` passes allowed, the loop does not use them up. -/
theorem PropagateLoop_fuel (s : Statics) (bs0 : BlockSummaryMap) :
    ∀ (fuel : Nat) (tp : BlockAddressSet) (bs : BlockSummaryMap),
      LoopInv s bs0 tp bs → potential s tp bs ≤ fuel →
      PropagateLoop s fuel tp bs ≠ .outOfFuel := by
  intro fuel
  induction fuel with
  | zero =>
    intro tp bs _ hp
    cases tp with
    | nil => simp [PropagateLoop]
    | cons a r => simp [potential] at hp
  | succ n ih =>
    intro tp bs inv hp
    cases tp with
    | nil => simp [PropagateLoop]
    | cons a r =>
      simp only [PropagateLoop]
      cases hb : PropagateBody s a r bs with
      | none => simp
      | some st =>
        obtain ⟨tp1, bs1⟩ := st
        simp only
        have hlt := potential_head_lt inv hb
        exact ih tp1 bs1
          (inv.afterBody (List.Sorted.of_cons inv.sorted) (fun x hx => List.mem_cons_of_mem _ hx) hb)
          (by omega)

/-- More passes allowed do not change a run that ended. -/
theorem PropagateLoop_more_fuel (s : Statics) :
    ∀ (fuel k : Nat) (tp : BlockAddressSet) (bs : BlockSummaryMap),
      PropagateLoop s fuel tp bs ≠ .outOfFuel →
      PropagateLoop s (fuel + k) tp bs = PropagateLoop s fuel tp bs := by
  intro fuel
  induction fuel with
  | zero =>
    intro k tp bs h
    cases tp with
    | nil => cases k <;> simp [PropagateLoop]
    | cons a r => simp [PropagateLoop] at h
  | succ n ih =>
    intro k tp bs h
    cases tp with
    | nil => simp [PropagateLoop]
    | cons a r =>
      have e : n + 1 + k = (n + k) + 1 := by omega
      rw [e]
      simp only [PropagateLoop] at h ⊢
      cases hb : PropagateBody s a r bs with
      | none => rfl
      | some st =>
        obtain ⟨tp1, bs1⟩ := st
        simp only [hb] at h ⊢
        exact ih k tp1 bs1 h

theorem potential_init_le (s : Statics) (bs : BlockSummaryMap) :
    potential s (blockKeys bs) bs ≤ propagateFuel s bs := by
  unfold potential propagateFuel
  have : (blockKeys bs).length ≤ (workUniverse bs).length :=
    length_le_universe (blockKeys_sorted bs) (by
      intro a ha
      obtain ⟨B, hB⟩ := (mem_blockKeys bs a).1 ha
      exact mem_workUniverse_key (GetBlock_mem hB))
  omega

/-- The states the loop of the program passes through are reachable ones, and
so is the state it ends in. -/
theorem PropagateLoop_reach (s : Statics) (bs0 : BlockSummaryMap) :
    ∀ (fuel : Nat) (tp : BlockAddressSet) (bs final : BlockSummaryMap),
      Reach s bs0 tp bs → PropagateLoop s fuel tp bs = .done final →
      Reach s bs0 [] final := by
  intro fuel
  induction fuel with
  | zero =>
    intro tp bs final hr h
    cases tp with
    | nil =>
      simp only [PropagateLoop, Outcome.done.injEq] at h
      subst h
      exact hr
    | cons a r => simp [PropagateLoop] at h
  | succ n ih =>
    intro tp bs final hr h
    cases tp with
    | nil =>
      simp only [PropagateLoop, Outcome.done.injEq] at h
      subst h
      exact hr
    | cons a r =>
      simp only [PropagateLoop] at h
      cases hb : PropagateBody s a r bs with
      | none => simp [hb] at h
      | some st =>
        obtain ⟨tp1, bs1⟩ := st
        simp only [hb] at h
        refine ih tp1 bs1 final (Reach.step hr (List.mem_cons_self a r) ?_) h
        rw [List.erase_cons_head]
        exact hb

end Termination

section FixedPoint

theorem shape_entry {bs bs0 : BlockSummaryMap} (h : skeleton bs = skeleton bs0)
    {a : BlockAddress} {B : BlockSummary} (hB : GetBlock bs a = some B) :
    ∃ B0, (a, B0) ∈ bs0 ∧ B0.Predecessors = B.Predecessors ∧
      B0.Successors = B.Successors := by
  obtain ⟨B0, hB0, hsk⟩ := shape_get h hB
  have hf := shape_fields hsk
  exact ⟨B0, GetBlock_mem hB0, hf.2.2.2.1, hf.2.2.2.2⟩

theorem GetBlock_update_some {bs : BlockSummaryMap} {a : BlockAddress} {X : BlockSummary}
    (h : GetBlock bs a = some X) (addr : BlockAddress) (v : bitArray) :
    ∃ X1, GetBlock (SetStartRegsAt bs addr v) a = some X1 := by
  rw [GetBlock_SetStartRegsAt, h]
  by_cases ha : a = addr
  · exact ⟨X.SetStartRegs v, by simp [ha]⟩
  · exact ⟨X, by simp [ha]⟩

theorem shape_some {bs bs0 : BlockSummaryMap} (h : skeleton bs = skeleton bs0)
    {a : BlockAddress} (h0 : (GetBlock bs0 a).isSome = true) :
    ∃ B, GetBlock bs a = some B := by
  have h1 := GetBlock_skeleton bs a
  have h2 := GetBlock_skeleton bs0 a
  rw [h, h2] at h1
  cases hB : GetBlock bs a with
  | none =>
    rw [hB] at h1
    cases hB0 : GetBlock bs0 a with
    | none => simp [hB0] at h0
    | some B0 => simp [hB0] at h1
  | some B => exact ⟨B, rfl⟩

theorem FixInv.fixAtStart (s : Statics) (bs0 : BlockSummaryMap) : FixInv s (blockKeys bs0) bs0 where
  stable := by
    intro a B hB ha
    exact absurd ((mem_blockKeys bs0 a).2 ⟨B, hB⟩) ha
  keys := fun a ha => (mem_blockKeys bs0 a).1 ha

theorem FixInv.fixAfterBody {s : Statics} {bs0 bs bs1 : BlockSummaryMap}
    {tp tp1 : BlockAddressSet} {addr : BlockAddress}
    (hclosed : EdgesClosed bs0) (hcons : EdgesConsistent bs0)
    (hshape : skeleton bs = skeleton bs0) (fix : FixInv s tp bs)
    (h : PropagateBody s addr (tp.erase addr) bs = some (tp1, bs1)) : FixInv s tp1 bs1 := by
  obtain ⟨B, v, hB, hv, hcase⟩ := PropagateBody_cases h
  obtain ⟨B0, hB0, hpred0, hsucc0⟩ := shape_entry hshape hB
  rcases hcase with ⟨hveq, h1, h2⟩ | ⟨_, h1, h2⟩
  · subst h1
    subst h2
    constructor
    · intro a Ba hBa ha
      rcases mem_of_not_mem_erase ha with e | hnot
      · subst e
        rw [hB] at hBa
        cases hBa
        rw [hv, hveq]
      · exact fix.stable a Ba hBa hnot
    · intro a ha
      exact fix.keys a (List.mem_of_mem_erase ha)
  · subst h1
    subst h2
    constructor
    · intro a B1 hB1 ha
      have hnot : a ∉ B.Successors ∧ a ∉ tp.erase addr := by
        constructor
        · exact fun hm => ha ((mem_setInsertAll _ _ a).2 (Or.inl hm))
        · exact fun hm => ha ((mem_setInsertAll _ _ a).2 (Or.inr hm))
      by_cases hadr : a = addr
      · subst hadr
        rw [GetBlock_SetStartRegsAt_self bs a v B hB] at hB1
        cases hB1
        have hself : a ∉ B.Predecessors := by
          intro hm
          apply hnot.1
          rw [← hsucc0]
          rw [← hpred0] at hm
          exact (hcons (a, B0) hB0 (a, B0) hB0).2 hm
        have hcongr := unionOutRegs_congr s (SetStartRegsAt bs a v) bs B.Predecessors 0
          (fun p hp => GetBlock_SetStartRegsAt_ne bs a v p (fun e => hself (e ▸ hp)))
        show unionOutRegs s (SetStartRegsAt bs a v) B.Predecessors 0 = some v
        rw [hcongr]
        exact hv
      · rw [GetBlock_SetStartRegsAt_ne bs addr v a hadr] at hB1
        have hntp : a ∉ tp := by
          rcases mem_of_not_mem_erase hnot.2 with e | hn
          · exact absurd e hadr
          · exact hn
        obtain ⟨B10, hB10, hpred10, _⟩ := shape_entry hshape hB1
        have hself : addr ∉ B1.Predecessors := by
          intro hm
          apply hnot.1
          rw [← hsucc0]
          rw [← hpred10] at hm
          exact (hcons (addr, B0) hB0 (a, B10) hB10).2 hm
        have hcongr := unionOutRegs_congr s (SetStartRegsAt bs addr v) bs B1.Predecessors 0
          (fun p hp => GetBlock_SetStartRegsAt_ne bs addr v p (fun e => hself (e ▸ hp)))
        rw [hcongr]
        exact fix.stable a B1 hB1 hntp
    · intro a ha
      rcases (mem_setInsertAll _ _ a).1 ha with ha | ha
      · rw [← hsucc0] at ha
        obtain ⟨X, hX⟩ := shape_some hshape ((hclosed (addr, B0) hB0).2 a ha)
        exact GetBlock_update_some hX addr v
      · obtain ⟨X, hX⟩ := fix.keys a (List.mem_of_mem_erase ha)
        exact GetBlock_update_some hX addr v

theorem Reach.fixInv {s : Statics} {bs0 bs : BlockSummaryMap} {tp : BlockAddressSet}
    (h0 : StartsEmpty bs0) (hclosed : EdgesClosed bs0) (hcons : EdgesConsistent bs0)
    (h : Reach s bs0 tp bs) : FixInv s tp bs := by
  induction h with
  | init => exact FixInv.fixAtStart s bs0
  | step hr _ hbody ih => exact ih.fixAfterBody hclosed hcons (hr.inv h0).shape hbody

/-- With closed edges the loop body dereferences no null pointer. -/
theorem PropagateBody_some {s : Statics} {bs0 bs : BlockSummaryMap}
    (hclosed : EdgesClosed bs0) (hshape : skeleton bs = skeleton bs0)
    {addr : BlockAddress} {B : BlockSummary} (hB : GetBlock bs addr = some B)
    (rest : BlockAddressSet) : ∃ st, PropagateBody s addr rest bs = some st := by
  obtain ⟨B0, hB0, hpred0, _⟩ := shape_entry hshape hB
  have hall : ∀ p ∈ B.Predecessors, ∃ P, GetBlock bs p = some P := by
    intro p hp
    rw [← hpred0] at hp
    exact shape_some hshape ((hclosed (addr, B0) hB0).1 p hp)
  obtain ⟨v, hv⟩ := unionOutRegs_isSome s bs B.Predecessors 0 hall
  unfold PropagateBody
  simp only [hB, BlockSummary.EnptyRegs, hv]
  split
  · exact ⟨_, rfl⟩
  · exact ⟨_, rfl⟩

/-- With closed and consistent edges the loop of the program ends in a map. -/
theorem PropagateLoop_done (s : Statics) (bs0 : BlockSummaryMap) (h0 : StartsEmpty bs0)
    (hclosed : EdgesClosed bs0) (hcons : EdgesConsistent bs0) :
    ∀ (fuel : Nat) (tp : BlockAddressSet) (bs : BlockSummaryMap),
      Reach s bs0 tp bs → potential s tp bs ≤ fuel →
      ∃ final, PropagateLoop s fuel tp bs = .done final := by
  intro fuel
  induction fuel with
  | zero =>
    intro tp bs _ hp
    cases tp with
    | nil => exact ⟨bs, by simp [PropagateLoop]⟩
    | cons a r => simp [potential] at hp
  | succ n ih =>
    intro tp bs hr hp
    cases tp with
    | nil => exact ⟨bs, by simp [PropagateLoop]⟩
    | cons a r =>
      have inv := hr.inv h0
      obtain ⟨B, hB⟩ := (hr.fixInv h0 hclosed hcons).keys a (List.mem_cons_self a r)
      obtain ⟨st, hst⟩ := PropagateBody_some (s := s) hclosed inv.shape hB r
      obtain ⟨tp1, bs1⟩ := st
      have hlt := potential_head_lt inv hst
      have hr1 : Reach s bs0 tp1 bs1 :=
        Reach.step hr (List.mem_cons_self a r) (by rw [List.erase_cons_head]; exact hst)
      obtain ⟨final, hfinal⟩ := ih tp1 bs1 hr1 (by omega)
      exact ⟨final, by simp only [PropagateLoop, hst]; exact hfinal⟩

theorem FixInv.fixedPoint {s : Statics} {bs : BlockSummaryMap} (h : FixInv s [] bs) :
    IsFixedPoint s bs :=
  fun a B hB => h.stable a B hB (List.not_mem_nil a)

end FixedPoint

section Least

theorem OutRegs_mono_shape {s : Statics} {P P2 : BlockSummary}
    (hsk : P2.SetStartRegs 0 = P.SetStartRegs 0)
    (hsub : BitSubset P.startRegs P2.startRegs) :
    BitSubset (P.OutRegs s) (P2.OutRegs s) := by
  have e : P.SetStartRegs P2.startRegs = P2 :=
    @shape_eq_of_start P2 (P.SetStartRegs P2.startRegs) hsk.symm rfl
  have h := OutRegs_mono s P P2.startRegs hsub
  rw [e] at h
  exact h

theorem StartsBelow.belowAfterUpdate {s : Statics} {bs sol : BlockSummaryMap} {addr : BlockAddress}
    {B : BlockSummary} {v : bitArray} (hshape : skeleton bs = skeleton sol)
    (hsol : IsFixedPoint s sol) (hb : StartsBelow bs sol) (hB : GetBlock bs addr = some B)
    (hv : unionOutRegs s bs B.Predecessors 0 = some v) :
    StartsBelow (SetStartRegsAt bs addr v) sol := by
  intro a B1 B2 hB1 hB2 i hi
  by_cases ha : a = addr
  · subst ha
    rw [GetBlock_SetStartRegsAt_self bs a v B hB] at hB1
    cases hB1
    simp only [BlockSummary.SetStartRegs] at hi
    rcases (unionOutRegs_testBit s bs _ 0 v hv i).1 hi with h0 | ⟨p, hp, P, hP, hbit⟩
    · simp at h0
    · obtain ⟨B2a, hB2a, hska⟩ := shape_get hshape hB
      rw [hB2] at hB2a
      cases hB2a
      obtain ⟨P2, hP2, hskp⟩ := shape_get hshape hP
      have hpreds := (shape_fields hska).2.2.2.1
      rw [unionOutRegs_testBit s sol _ 0 _ (hsol a B2 hB2) i]
      refine Or.inr ⟨p, by rw [hpreds]; exact hp, P2, hP2, ?_⟩
      exact OutRegs_mono_shape hskp (hb p P P2 hP hP2) i hbit
  · rw [GetBlock_SetStartRegsAt_ne bs addr v a ha] at hB1
    exact hb a B1 B2 hB1 hB2 i hi

theorem Reach.startsBelow {s : Statics} {bs0 bs sol : BlockSummaryMap} {tp : BlockAddressSet}
    (h0 : StartsEmpty bs0) (hshape : skeleton sol = skeleton bs0) (hsol : IsFixedPoint s sol)
    (h : Reach s bs0 tp bs) : StartsBelow bs sol := by
  induction h with
  | init =>
    intro a B B2 hB _
    rw [h0 (a, B) (GetBlock_mem hB)]
    exact BitSubset.zero _
  | step hr _ hbody ih =>
    obtain ⟨B, v, hB, hv, hcase⟩ := PropagateBody_cases hbody
    rcases hcase with ⟨_, _, h2⟩ | ⟨_, _, h2⟩
    · subst h2
      exact ih
    · subst h2
      exact ih.belowAfterUpdate ((hr.inv h0).shape.trans hshape.symm) hsol hB hv

theorem GetBlock_ext_of_below {b1 b2 : BlockSummaryMap} (hshape : skeleton b1 = skeleton b2)
    (h12 : StartsBelow b1 b2) (h21 : StartsBelow b2 b1) (a : BlockAddress) :
    GetBlock b1 a = GetBlock b2 a := by
  cases h1 : GetBlock b1 a with
  | none =>
    cases h2 : GetBlock b2 a with
    | none => rfl
    | some B2 =>
      obtain ⟨B1, hB1, _⟩ := shape_get hshape.symm h2
      rw [h1] at hB1
      cases hB1
  | some B1 =>
    obtain ⟨B2, hB2, hsk⟩ := shape_get hshape h1
    rw [hB2]
    have hs : B2.startRegs = B1.startRegs :=
      BitSubset.antisymm (h21 a B2 B1 hB2 h1) (h12 a B1 B2 h1 hB2)
    rw [shape_eq_of_start hsk hs]

/-- The loop that forms the union yields the `startRegs` of each block of a map that
solves the equations register by register. -/
theorem SolvesUnion.isFixedPoint {s : Statics} {bs0 sol : BlockSummaryMap}
    (hclosed : EdgesClosed bs0) (hshape : skeleton sol = skeleton bs0)
    (h : SolvesUnion s sol) : IsFixedPoint s sol := by
  intro a B hB
  obtain ⟨B0, hB0, hpred0, _⟩ := shape_entry hshape hB
  have hall : ∀ p ∈ B.Predecessors, ∃ P, GetBlock sol p = some P := by
    intro p hp
    rw [← hpred0] at hp
    exact shape_some hshape ((hclosed (a, B0) hB0).1 p hp)
  obtain ⟨v, hv⟩ := unionOutRegs_isSome s sol B.Predecessors 0 hall
  rw [hv]
  congr 1
  apply Nat.eq_of_testBit_eq
  intro i
  have h1 := unionOutRegs_testBit s sol B.Predecessors 0 v hv i
  have h2 := h a B hB i
  simp only [Nat.zero_testBit, Bool.false_eq_true, false_or] at h1
  have h3 : v.testBit i = true ↔ B.startRegs.testBit i = true := h1.trans h2.symm
  cases hvb : v.testBit i with
  | true => exact (h3.1 hvb).symm
  | false =>
    cases hsb : B.startRegs.testBit i with
    | false => rfl
    | true =>
      rw [h3.2 hsb] at hvb
      cases hvb

/-- A map at which the loop that forms the union yields each `startRegs` solves the
equations register by register. -/
theorem IsFixedPoint.solvesUnion {s : Statics} {bs : BlockSummaryMap}
    (h : IsFixedPoint s bs) : SolvesUnion s bs := by
  intro a B hB i
  have h1 := unionOutRegs_testBit s bs B.Predecessors 0 B.startRegs (h a B hB) i
  simpa using h1

end Least

section Paths

theorem testBit_OutRegs_split (s : Statics) (B : BlockSummary) (i : Nat) :
    (B.OutRegs s).testBit i =
      (B.generates s i || (B.passes s i && B.startRegs.testBit i)) := by
  unfold BlockSummary.generates BlockSummary.passes
  rw [testBit_OutRegs, testBit_OutRegs]
  simp only [BlockSummary.SetStartRegs, Nat.zero_testBit, Bool.or_false]
  cases B.isCallBlock <;> cases B.usedRegs.testBit i <;> cases B.startRegs.testBit i <;>
    cases s.callNotKilledRegisters.testBit i <;> cases s.callReturnRegisters.testBit i <;> rfl

theorem generates_shape {s : Statics} {B B0 : BlockSummary}
    (h : B0.SetStartRegs 0 = B.SetStartRegs 0) (i : Nat) :
    B0.generates s i = B.generates s i := by
  unfold BlockSummary.generates
  rw [h]

theorem passes_shape {s : Statics} {B B0 : BlockSummary}
    (h : B0.SetStartRegs 0 = B.SetStartRegs 0) (i : Nat) :
    B0.passes s i = B.passes s i := by
  unfold BlockSummary.passes
  rw [(shape_fields h).2.2.1]

theorem isEdge_iff {bs : BlockSummaryMap} {a b : BlockAddress} :
    isEdge bs a b = true ↔
      ∃ A B, GetBlock bs a = some A ∧ GetBlock bs b = some B ∧ a ∈ B.Predecessors := by
  unfold isEdge
  cases hA : GetBlock bs a with
  | none => simp
  | some A =>
    cases hB : GetBlock bs b with
    | none => simp
    | some B => simp

theorem isPath_tail {bs : BlockSummaryMap} {a : BlockAddress} {l : List BlockAddress}
    (h : isPath bs (a :: l) = true) : isPath bs l = true := by
  cases l with
  | nil => rfl
  | cons b rest =>
    simp only [isPath, Bool.and_eq_true] at h
    exact h.2

theorem isPath_suffix {bs : BlockSummaryMap} (l1 l2 : List BlockAddress)
    (h : isPath bs (l1 ++ l2) = true) : isPath bs l2 = true := by
  induction l1 with
  | nil => exact h
  | cons a l1 ih => exact ih (isPath_tail h)

theorem isPath_snoc {bs : BlockSummaryMap} {p b : BlockAddress} (he : isEdge bs p b = true) :
    ∀ l : List BlockAddress, isPath bs (l ++ [p]) = true → isPath bs (l ++ [p] ++ [b]) = true
  | [], _ => by simp [isPath, he]
  | [a], h => by
    simp only [List.cons_append, List.nil_append, isPath, Bool.and_eq_true, and_true] at h ⊢
    exact ⟨h, he⟩
  | a :: c :: l, h => by
    simp only [List.cons_append, isPath, Bool.and_eq_true] at h ⊢
    exact ⟨h.1, isPath_snoc he (c :: l) h.2⟩

/-- A bit of `startRegs` gets to `OutRegs` unless the block is a call block that
kills it. -/
theorem OutRegs_of_start {s : Statics} {B : BlockSummary} {i : Nat}
    (hs : B.startRegs.testBit i = true)
    (hk : (B.isCallBlock &&
      !(s.callNotKilledRegisters.testBit i || s.callReturnRegisters.testBit i)) = false) :
    (B.OutRegs s).testBit i = true := by
  rw [testBit_OutRegs, hs]
  revert hk
  cases B.isCallBlock <;> cases s.callNotKilledRegisters.testBit i <;>
    cases s.callReturnRegisters.testBit i <;> simp

/-- A block that uses a register or returns it, and does not kill it, has it in
`OutRegs`. -/
theorem OutRegs_of_use {s : Statics} {B : BlockSummary} {i : Nat}
    (hu : (B.usedRegs.testBit i || (B.isCallBlock && s.callReturnRegisters.testBit i)) = true)
    (hk : (B.isCallBlock &&
      !(s.callNotKilledRegisters.testBit i || s.callReturnRegisters.testBit i)) = false) :
    (B.OutRegs s).testBit i = true := by
  rw [testBit_OutRegs]
  revert hu hk
  cases B.isCallBlock <;> cases B.usedRegs.testBit i <;>
    cases s.callNotKilledRegisters.testBit i <;>
    cases s.callReturnRegisters.testBit i <;> simp

theorem uses_of_generates {s : Statics} {B : BlockSummary} {i : Nat}
    (hg : B.generates s i = true) :
    (B.usedRegs.testBit i || (B.isCallBlock && s.callReturnRegisters.testBit i)) = true ∧
    (B.isCallBlock &&
      !(s.callNotKilledRegisters.testBit i || s.callReturnRegisters.testBit i)) = false := by
  unfold BlockSummary.generates at hg
  rw [testBit_OutRegs] at hg
  simp only [BlockSummary.SetStartRegs, Nat.zero_testBit, Bool.or_false] at hg
  revert hg
  cases B.isCallBlock <;> cases B.usedRegs.testBit i <;>
    cases s.callNotKilledRegisters.testBit i <;>
    cases s.callReturnRegisters.testBit i <;> simp

theorem not_kills_of_passes {s : Statics} {B : BlockSummary} {i : Nat}
    (hp : B.passes s i = true) :
    (B.isCallBlock &&
      !(s.callNotKilledRegisters.testBit i || s.callReturnRegisters.testBit i)) = false := by
  unfold BlockSummary.passes at hp
  revert hp
  cases B.isCallBlock <;> cases s.callNotKilledRegisters.testBit i <;>
    cases s.callReturnRegisters.testBit i <;> simp

theorem Justified.justifiedAfterUpdate {s : Statics} {bs0 bs : BlockSummaryMap} {addr : BlockAddress}
    {B : BlockSummary} {v : bitArray} (hshape : skeleton bs = skeleton bs0)
    (hj : Justified s bs0 bs) (hB : GetBlock bs addr = some B)
    (hv : unionOutRegs s bs B.Predecessors 0 = some v) :
    Justified s bs0 (SetStartRegsAt bs addr v) := by
  intro a B1 hB1 i hi
  by_cases ha : a = addr
  · subst ha
    rw [GetBlock_SetStartRegsAt_self bs a v B hB] at hB1
    cases hB1
    simp only [BlockSummary.SetStartRegs] at hi
    rcases (unionOutRegs_testBit s bs _ 0 v hv i).1 hi with h0 | ⟨p, hp, P, hP, hbit⟩
    · simp at h0
    · obtain ⟨B0, hB0, hskB⟩ := shape_get hshape hB
      obtain ⟨P0, hP0, hskP⟩ := shape_get hshape hP
      have hedge : isEdge bs0 p a = true :=
        isEdge_iff.2 ⟨P0, B0, hP0, hB0, by rw [(shape_fields hskB).2.2.2.1]; exact hp⟩
      rw [testBit_OutRegs_split, Bool.or_eq_true, Bool.and_eq_true] at hbit
      rcases hbit with hg | ⟨hpass, hst⟩
      · refine ⟨p, [], ?_, ?_, ?_⟩
        · simp [isPath, hedge]
        · simp only [generatesAt, hP0]
          rw [generates_shape hskP]
          exact hg
        · intro y hy
          cases hy
      · obtain ⟨q, post, hpath, hgen, hall⟩ := hj p P hP i hst
        refine ⟨q, post ++ [p], ?_, hgen, ?_⟩
        · have := isPath_snoc hedge (q :: post) hpath
          simpa using this
        · intro y hy
          rcases List.mem_append.1 hy with hy | hy
          · exact hall y hy
          · simp only [List.mem_singleton] at hy
            subst hy
            simp only [passesAt, hP0]
            rw [passes_shape hskP]
            exact hpass
  · rw [GetBlock_SetStartRegsAt_ne bs addr v a ha] at hB1
    exact hj a B1 hB1 i hi

theorem Reach.justified {s : Statics} {bs0 bs : BlockSummaryMap} {tp : BlockAddressSet}
    (h0 : StartsEmpty bs0) (h : Reach s bs0 tp bs) : Justified s bs0 bs := by
  induction h with
  | init =>
    intro a B hB i hi
    rw [h0 (a, B) (GetBlock_mem hB)] at hi
    simp at hi
  | step hr _ hbody ih =>
    obtain ⟨B, v, hB, hv, hcase⟩ := PropagateBody_cases hbody
    rcases hcase with ⟨_, _, h2⟩ | ⟨_, _, h2⟩
    · subst h2
      exact ih
    · subst h2
      exact ih.justifiedAfterUpdate (hr.inv h0).shape hB hv

/-- At a fixed point a bit of `OutRegs` of a block is a bit of `startRegs` of each of
its successors. -/
theorem fixedPoint_edge {s : Statics} {bs0 fin : BlockSummaryMap}
    (hshape : skeleton fin = skeleton bs0) (hfix : IsFixedPoint s fin) {i : Nat}
    {x y : BlockAddress} {X : BlockSummary} (hX : GetBlock fin x = some X)
    (hbit : (X.OutRegs s).testBit i = true) (he : isEdge bs0 x y = true) :
    ∃ Y Y0, GetBlock fin y = some Y ∧ GetBlock bs0 y = some Y0 ∧
      Y.SetStartRegs 0 = Y0.SetStartRegs 0 ∧ Y.startRegs.testBit i = true := by
  obtain ⟨_, Y0, _, hY0, hmem⟩ := isEdge_iff.1 he
  obtain ⟨Y, hY, hsk⟩ := shape_get hshape.symm hY0
  refine ⟨Y, Y0, hY, hY0, hsk, ?_⟩
  rw [unionOutRegs_testBit s fin _ 0 _ (hfix y Y hY) i]
  refine Or.inr ⟨x, ?_, X, hX, hbit⟩
  rw [(shape_fields hsk).2.2.2.1]
  exact hmem

/-- At a fixed point a bit of `OutRegs` travels along a path of blocks none of which
kills it. -/
theorem fixedPoint_walk {s : Statics} {bs0 fin : BlockSummaryMap}
    (hshape : skeleton fin = skeleton bs0) (hfix : IsFixedPoint s fin) (i : Nat) :
    ∀ (post : List BlockAddress) (x b : BlockAddress) (X : BlockSummary),
      GetBlock fin x = some X → (X.OutRegs s).testBit i = true →
      isPath bs0 (x :: post ++ [b]) = true → (∀ y ∈ post, killsAt s bs0 i y = false) →
      ∃ B, GetBlock fin b = some B ∧ B.startRegs.testBit i = true := by
  intro post
  induction post with
  | nil =>
    intro x b X hX hbit hpath _
    simp only [List.nil_append, isPath, Bool.and_true] at hpath
    obtain ⟨B, _, hB, _, _, hst⟩ := fixedPoint_edge hshape hfix hX hbit hpath
    exact ⟨B, hB, hst⟩
  | cons y post ih =>
    intro x b X hX hbit hpath hall
    simp only [List.cons_append, isPath, Bool.and_eq_true] at hpath
    obtain ⟨Y, Y0, hY, hY0, hsk, hst⟩ := fixedPoint_edge hshape hfix hX hbit hpath.1
    have hk := hall y (List.mem_cons_self _ _)
    simp only [killsAt, hY0] at hk
    rw [← (shape_fields hsk).2.2.1] at hk
    exact ih y b Y hY (OutRegs_of_start hst hk) hpath.2
      (fun z hz => hall z (List.mem_cons_of_mem _ hz))

end Paths

section Records

theorem setBitsFrom_eq (regs : bitArray) :
    ∀ n i, setBitsFrom regs n i = (List.range' i n).filter (fun j => regs.testBit j) := by
  intro n
  induction n with
  | zero => intro i; rfl
  | succ n ih =>
    intro i
    rw [List.range'_succ, List.filter_cons, setBitsFrom, ih]

theorem foldl_or_eq_any {α : Type} (p : α → Bool) (l : List α) (init : Bool) :
    l.foldl (fun acc f => acc || p f) init = (init || l.any p) := by
  induction l generalizing init with
  | nil => simp
  | cons a l ih => simp [List.foldl_cons, ih, Bool.or_assoc]

theorem WriteJsonCall_eq (s : Statics) (options : Options) (b : BlockSummary) (e : Edge) :
    b.WriteJsonCall options e.trg (liveParamNames s b) (e.trgFuncs.map (fun f => f.name))
        (e.trgFuncs.foldl (fun acc f => acc || FunctionSummary.IsPltRegion f) false) =
      [callRecordOf s b e].filter (fun r => !options.onlyToPltCalls || r.callToPlt) := by
  rw [foldl_or_eq_any]
  unfold BlockSummary.WriteJsonCall callRecordOf
  cases options.onlyToPltCalls <;> cases e.trgFuncs.any FunctionSummary.IsPltRegion <;> simp

theorem WriteJsonEdges_eq (s : Statics) (options : Options) (b : BlockSummary) :
    ∀ (es : List Edge) (n : Nat) (out : List CallRecord),
      b.WriteJsonEdges options (liveParamNames s b) es n out =
        (n + (es.filter (fun e => decide (e.type = .CALL))).length,
          out ++ ((es.filter (fun e => decide (e.type = .CALL))).map (callRecordOf s b)).filter
            (fun r => !options.onlyToPltCalls || r.callToPlt)) := by
  intro es
  induction es with
  | nil => intro n out; simp [BlockSummary.WriteJsonEdges]
  | cons e es ih =>
    intro n out
    by_cases hc : e.type = .CALL
    · simp only [BlockSummary.WriteJsonEdges, hc, if_true, decide_True, List.filter_cons_of_pos,
        List.length_cons, List.map_cons]
      rw [WriteJsonCall_eq, ih]
      congr 1
      · omega
      · rw [List.append_assoc, ← List.filter_append]
        rfl
    · simp only [BlockSummary.WriteJsonEdges, hc, if_false, decide_False, Bool.false_eq_true,
        not_false_eq_true, List.filter_cons_of_neg]
      exact ih n out

/-- The records of a block are its unfiltered records with, unless `--all-calls` is
given, those not to the PLT dropped. -/
theorem WriteJson_eq_filter (s : Statics) (options : Options) (b : BlockSummary) :
    b.WriteJson s options =
      (unfilteredRecords s b).filter (fun r => !options.onlyToPltCalls || r.callToPlt) := by
  unfold BlockSummary.WriteJson unfilteredRecords
  simp only [BlockSummary.UsedRegs]
  have h := WriteJsonEdges_eq s options b b.block.targets 0 []
  unfold liveParamNames at h
  rw [h]
  simp only [Nat.zero_add, List.nil_append, List.length_eq_zero]
  by_cases hz : callEdges b = []
  · have hz2 := hz
    unfold callEdges at hz2
    simp only [hz, hz2, if_true, List.map_nil, List.filter_nil, List.nil_append]
    unfold BlockSummary.WriteJsonCall nullRecord liveParamNames
    cases options.onlyToPltCalls <;> simp [FunctionSummary.WriteJsonAddressMember]
  · have hz2 := hz
    unfold callEdges at hz2
    simp only [hz, hz2, if_false]
    rfl

theorem WriteJson_allCalls (s : Statics) (options : Options) (b : BlockSummary) :
    b.WriteJson s (allCalls options) = unfilteredRecords s b := by
  rw [WriteJson_eq_filter]
  simp [allCalls]

theorem WriteJson_pltOnly (s : Statics) (options : Options) (b : BlockSummary) :
    b.WriteJson s (pltOnly options) =
      (b.WriteJson s (allCalls options)).filter (fun r => r.callToPlt) := by
  rw [WriteJson_allCalls, WriteJson_eq_filter]
  simp [pltOnly]

theorem WriteJsonCalls_pltOnly (s : Statics) (options : Options) (f : FunctionSummary) :
    ∀ bs : List BlockAddress, f.WriteJsonCalls s (pltOnly options) bs =
      (f.WriteJsonCalls s (allCalls options) bs).map (List.filter (fun r => r.callToPlt)) := by
  intro bs
  induction bs with
  | nil => rfl
  | cons b rest ih =>
    simp only [FunctionSummary.WriteJsonCalls]
    cases hB : f.GetBlock b with
    | none => rfl
    | some block =>
      simp only [ih]
      cases hr : f.WriteJsonCalls s (allCalls options) rest with
      | none => rfl
      | some out => simp [WriteJson_pltOnly s options block]

end Records

section Seeding

theorem setBit_some {size : Nat} {bitmap bitmap1 : bitArray} {regId : Int}
    (h : setBit size bitmap regId = some bitmap1) :
    0 ≤ regId ∧ regId < size ∧ bitmap1 = bitmap ||| (1 <<< regId.toNat) := by
  unfold setBit at h
  split at h
  · rename_i hc
    simp only [Option.some.injEq] at h
    exact ⟨hc.1, hc.2, h.symm⟩
  · cases h

theorem testBit_setBit {size : Nat} {bitmap bitmap1 : bitArray} {regId : Int}
    (h : setBit size bitmap regId = some bitmap1) (i : Nat) :
    bitmap1.testBit i = true ↔ (bitmap.testBit i = true ∨ regId = (i : Int)) := by
  obtain ⟨h0, _, he⟩ := setBit_some h
  rw [he, Nat.testBit_or, Bool.or_eq_true, Nat.one_shiftLeft, Nat.testBit_two_pow]
  simp only [decide_eq_true_eq]
  constructor
  · rintro (h1 | h1)
    · exact Or.inl h1
    · right
      rw [← h1]
      exact (Int.toNat_of_nonneg h0).symm
  · rintro (h1 | h1)
    · exact Or.inl h1
    · right
      rw [h1]
      exact Int.toNat_natCast i

theorem setBit_isSome {size : Nat} (bitmap : bitArray) {regId : Int} (h0 : 0 ≤ regId)
    (h1 : regId < size) : ∃ bitmap1, setBit size bitmap regId = some bitmap1 := by
  unfold setBit
  exact ⟨_, if_pos ⟨h0, h1⟩⟩

theorem GetBlock_SetBlockAt (bs : BlockSummaryMap) (a : BlockAddress) (b1 : BlockSummary)
    (x : BlockAddress) :
    GetBlock (SetBlockAt bs a b1) x =
      if x = a then (GetBlock bs a).map (fun _ => b1) else GetBlock bs x := by
  induction bs with
  | nil => simp [SetBlockAt, GetBlock]
  | cons e rest ih =>
    obtain ⟨k, b⟩ := e
    by_cases hk : k = a
    · subst hk
      by_cases hx : k = x
      · subst hx
        simp [SetBlockAt, GetBlock]
      · have hx2 : ¬ x = k := fun e => hx e.symm
        simp [SetBlockAt, GetBlock, hx, hx2]
    · by_cases hx : k = x
      · subst hx
        simp [SetBlockAt, GetBlock, hk]
      · simp only [SetBlockAt, GetBlock, hk, hx, if_false]
        exact ih

theorem SetBlockAt_SetBlockAt (bs : BlockSummaryMap) (a : BlockAddress)
    (b1 b2 : BlockSummary) : SetBlockAt (SetBlockAt bs a b1) a b2 = SetBlockAt bs a b2 := by
  induction bs with
  | nil => rfl
  | cons e rest ih =>
    obtain ⟨k, b⟩ := e
    by_cases hk : k = a
    · simp [SetBlockAt, hk]
    · simp [SetBlockAt, hk, ih]

theorem SetBlockAt_same {bs : BlockSummaryMap} {a : BlockAddress} {B : BlockSummary}
    (h : GetBlock bs a = some B) : SetBlockAt bs a B = bs := by
  induction bs with
  | nil => rfl
  | cons e rest ih =>
    obtain ⟨k, b⟩ := e
    by_cases hk : k = a
    · simp only [GetBlock, hk, if_true, Option.some.injEq] at h
      simp [SetBlockAt, hk, h]
    · simp only [GetBlock, hk, if_false] at h
      simp [SetBlockAt, hk, ih h]

theorem blockKeys_SetBlockAt (bs : BlockSummaryMap) (a : BlockAddress) {B : BlockSummary}
    (h : GetBlock bs a = some B) (U : bitArray) :
    blockKeys (SetBlockAt bs a { B with usedRegs := U }) = blockKeys bs := by
  induction bs with
  | nil => rfl
  | cons e rest ih =>
    obtain ⟨k, b⟩ := e
    by_cases hk : k = a
    · simp [SetBlockAt, hk, blockKeys]
    · simp only [GetBlock, hk, if_false] at h
      simp [SetBlockAt, hk, blockKeys, ih h]

/-- What one location record does to a function summary whose map has a block at
the entry address. -/
theorem seedLocation_spec (abi : ABI) (a e : Address) (f f1 : FunctionSummary)
    (B : BlockSummary) (loc : VariableLocation) (hB : GetBlock f.blocks a = some B)
    (h : f.seedLocation abi a e loc = some f1) :
    ∃ U, f1 = { f with blocks := SetBlockAt f.blocks a { B with usedRegs := U } } ∧
      ∀ i : Nat, (U.testBit i = true ↔ (B.usedRegs.testBit i = true ∨
        ((loc.stClass = .storageReg ∨ loc.stClass = .storageRegOffset) ∧ e > loc.lowPC ∧
          a < loc.hiPC ∧ BlockSummary.PromotedRegisterId abi loc.mr_reg = (i : Int)))) := by
  have hsame : f = { f with blocks := SetBlockAt f.blocks a { B with usedRegs := B.usedRegs } } := by
    have : SetBlockAt f.blocks a { B with usedRegs := B.usedRegs } = f.blocks :=
      SetBlockAt_same hB
    rw [this]
  unfold FunctionSummary.seedLocation at h
  by_cases hc : loc.stClass = .storageReg ∨ loc.stClass = .storageRegOffset
  · by_cases hr : e > loc.lowPC ∧ a < loc.hiPC
    · simp only [hc, hr, and_self, if_true, FunctionSummary.GetBlock, hB] at h
      unfold BlockSummary.AddParamReg at h
      cases hs : setBit abi.bitArraySize B.usedRegs
          (BlockSummary.PromotedRegisterId abi loc.mr_reg) with
      | none => simp [hs] at h
      | some U =>
        simp only [hs, Option.some.injEq] at h
        refine ⟨U, h.symm, ?_⟩
        intro i
        rw [testBit_setBit hs i]
        constructor
        · rintro (h1 | h1)
          · exact Or.inl h1
          · exact Or.inr ⟨hc, hr.1, hr.2, h1⟩
        · rintro (h1 | ⟨_, _, _, h1⟩)
          · exact Or.inl h1
          · exact Or.inr h1
    · simp only [hc, hr, if_true, if_false, Option.some.injEq] at h
      refine ⟨B.usedRegs, by rw [← h]; exact hsame, ?_⟩
      intro i
      constructor
      · exact Or.inl
      · rintro (h1 | ⟨_, h2, h3, _⟩)
        · exact h1
        · exact absurd ⟨h2, h3⟩ hr
  · simp only [hc, if_false, Option.some.injEq] at h
    refine ⟨B.usedRegs, by rw [← h]; exact hsame, ?_⟩
    intro i
    constructor
    · exact Or.inl
    · rintro (h1 | ⟨h2, _⟩)
      · exact h1
      · exact absurd h2 hc

theorem seedLocations_spec (abi : ABI) (a e : Address) :
    ∀ (locs : List VariableLocation) (f f1 : FunctionSummary) (B : BlockSummary),
      GetBlock f.blocks a = some B → f.seedLocations abi a e locs = some f1 →
      ∃ U, f1 = { f with blocks := SetBlockAt f.blocks a { B with usedRegs := U } } ∧
        ∀ i : Nat, (U.testBit i = true ↔ (B.usedRegs.testBit i = true ∨
          ∃ loc ∈ locs, (loc.stClass = .storageReg ∨ loc.stClass = .storageRegOffset) ∧
            e > loc.lowPC ∧ a < loc.hiPC ∧
            BlockSummary.PromotedRegisterId abi loc.mr_reg = (i : Int))) := by
  intro locs
  induction locs with
  | nil =>
    intro f f1 B hB h
    simp only [FunctionSummary.seedLocations, Option.some.injEq] at h
    refine ⟨B.usedRegs, ?_, by simp⟩
    rw [← h]
    have : SetBlockAt f.blocks a { B with usedRegs := B.usedRegs } = f.blocks :=
      SetBlockAt_same hB
    rw [this]
  | cons loc rest ih =>
    intro f f1 B hB h
    simp only [FunctionSummary.seedLocations] at h
    cases h1 : f.seedLocation abi a e loc with
    | none => simp [h1] at h
    | some fm =>
      simp only [h1] at h
      obtain ⟨U1, hfm, hU1⟩ := seedLocation_spec abi a e f fm B loc hB h1
      have hBm : GetBlock fm.blocks a = some { B with usedRegs := U1 } := by
        rw [hfm]
        simp [GetBlock_SetBlockAt, hB]
      obtain ⟨U, hf1, hU⟩ := ih fm f1 _ hBm h
      refine ⟨U, ?_, ?_⟩
      · rw [hf1, hfm]
        simp only [SetBlockAt_SetBlockAt]
      · intro i
        rw [hU i]
        constructor
        · rintro (h2 | ⟨l, hl, hc⟩)
          · rcases (hU1 i).1 h2 with h3 | h3
            · exact Or.inl h3
            · exact Or.inr ⟨loc, List.mem_cons_self _ _, h3⟩
          · exact Or.inr ⟨l, List.mem_cons_of_mem _ hl, hc⟩
        · rintro (h2 | ⟨l, hl, hc⟩)
          · exact Or.inl ((hU1 i).2 (Or.inl h2))
          · rcases List.mem_cons.1 hl with e1 | hl
            · subst e1
              exact Or.inl ((hU1 i).2 (Or.inr hc))
            · exact Or.inr ⟨l, hl, hc⟩

theorem seedParams_spec (abi : ABI) (a e : Address) :
    ∀ (params : List localVar) (f f1 : FunctionSummary) (B : BlockSummary),
      GetBlock f.blocks a = some B → f.seedParams abi a e params = some f1 →
      ∃ U, f1 = { f with blocks := SetBlockAt f.blocks a { B with usedRegs := U } } ∧
        ∀ i : Nat, (U.testBit i = true ↔ (B.usedRegs.testBit i = true ∨
          ∃ p ∈ params, ∃ loc ∈ p.locationLists,
            (loc.stClass = .storageReg ∨ loc.stClass = .storageRegOffset) ∧
            e > loc.lowPC ∧ a < loc.hiPC ∧
            BlockSummary.PromotedRegisterId abi loc.mr_reg = (i : Int))) := by
  intro params
  induction params with
  | nil =>
    intro f f1 B hB h
    simp only [FunctionSummary.seedParams, Option.some.injEq] at h
    refine ⟨B.usedRegs, ?_, by simp⟩
    rw [← h]
    have : SetBlockAt f.blocks a { B with usedRegs := B.usedRegs } = f.blocks :=
      SetBlockAt_same hB
    rw [this]
  | cons p rest ih =>
    intro f f1 B hB h
    simp only [FunctionSummary.seedParams] at h
    cases h1 : f.seedLocations abi a e p.locationLists with
    | none => simp [h1] at h
    | some fm =>
      simp only [h1] at h
      obtain ⟨U1, hfm, hU1⟩ := seedLocations_spec abi a e p.locationLists f fm B hB h1
      have hBm : GetBlock fm.blocks a = some { B with usedRegs := U1 } := by
        rw [hfm]
        simp [GetBlock_SetBlockAt, hB]
      obtain ⟨U, hf1, hU⟩ := ih fm f1 _ hBm h
      refine ⟨U, ?_, ?_⟩
      · rw [hf1, hfm]
        simp only [SetBlockAt_SetBlockAt]
      · intro i
        rw [hU i]
        constructor
        · rintro (h2 | ⟨q, hq, hc⟩)
          · rcases (hU1 i).1 h2 with h3 | h3
            · exact Or.inl h3
            · exact Or.inr ⟨p, List.mem_cons_self _ _, h3⟩
          · exact Or.inr ⟨q, List.mem_cons_of_mem _ hq, hc⟩
        · rintro (h2 | ⟨q, hq, hc⟩)
          · exact Or.inl ((hU1 i).2 (Or.inl h2))
          · rcases List.mem_cons.1 hq with e1 | hq
            · subst e1
              exact Or.inl ((hU1 i).2 (Or.inr hc))
            · exact Or.inr ⟨q, hq, hc⟩

/-- Without a block at the entry address, seeding changes nothing. -/
theorem seedParams_absent (abi : ABI) (a e : Address) :
    ∀ (params : List localVar) (f : FunctionSummary), GetBlock f.blocks a = none →
      f.seedParams abi a e params = some f := by
  have hloc : ∀ (f : FunctionSummary) (loc : VariableLocation), GetBlock f.blocks a = none →
      f.seedLocation abi a e loc = some f := by
    intro f loc h
    unfold FunctionSummary.seedLocation
    simp only [FunctionSummary.GetBlock, h]
    split
    · split <;> rfl
    · rfl
  have hlocs : ∀ (locs : List VariableLocation) (f : FunctionSummary),
      GetBlock f.blocks a = none → f.seedLocations abi a e locs = some f := by
    intro locs
    induction locs with
    | nil => intro f _; rfl
    | cons loc rest ih =>
      intro f h
      simp only [FunctionSummary.seedLocations, hloc f loc h]
      exact ih f h
  intro params
  induction params with
  | nil => intro f _; rfl
  | cons p rest ih =>
    intro f h
    simp only [FunctionSummary.seedParams, hlocs p.locationLists f h]
    exact ih f h

end Seeding

section SeedingTarget

theorem AddParamRegs_eq (abi : ABI) (symtab : Symtab) (fblocks : List Block) (entry : Block)
    (f : FunctionSummary) :
    f.AddParamRegs abi symtab fblocks entry =
      match seedTarget symtab fblocks entry with
      | none => some f
      | some (target, symtabFunc) =>
        f.seedParams abi target.start target.end_ symtabFunc.params := by
  unfold FunctionSummary.AddParamRegs seedTarget
  cases fblocks with
  | nil => rfl
  | cons first rest =>
    simp only
    cases symtab.findFuncByEntryOffset entry.start with
    | some sf => rfl
    | none =>
      simp only
      cases symtab.findFuncByEntryOffset first.start with
      | some sf => rfl
      | none => rfl

theorem seedParams_isSome (abi : ABI) (a e : Address) :
    ∀ (params : List localVar) (f : FunctionSummary),
      (∀ p ∈ params, ∀ loc ∈ p.locationLists,
        0 ≤ BlockSummary.PromotedRegisterId abi loc.mr_reg ∧
        BlockSummary.PromotedRegisterId abi loc.mr_reg < abi.bitArraySize) →
      ∃ f1, f.seedParams abi a e params = some f1 := by
  have hloc : ∀ (f : FunctionSummary) (loc : VariableLocation),
      (0 ≤ BlockSummary.PromotedRegisterId abi loc.mr_reg ∧
        BlockSummary.PromotedRegisterId abi loc.mr_reg < abi.bitArraySize) →
      ∃ f1, f.seedLocation abi a e loc = some f1 := by
    intro f loc h
    unfold FunctionSummary.seedLocation
    split
    · split
      · cases hB : f.GetBlock a with
        | none => exact ⟨f, rfl⟩
        | some B =>
          obtain ⟨U, hU⟩ := setBit_isSome B.usedRegs h.1 h.2
          simp only [BlockSummary.AddParamReg, hU]
          exact ⟨_, rfl⟩
      · exact ⟨f, rfl⟩
    · exact ⟨f, rfl⟩
  have hlocs : ∀ (locs : List VariableLocation) (f : FunctionSummary),
      (∀ loc ∈ locs, 0 ≤ BlockSummary.PromotedRegisterId abi loc.mr_reg ∧
        BlockSummary.PromotedRegisterId abi loc.mr_reg < abi.bitArraySize) →
      ∃ f1, f.seedLocations abi a e locs = some f1 := by
    intro locs
    induction locs with
    | nil => intro f _; exact ⟨f, rfl⟩
    | cons loc rest ih =>
      intro f h
      obtain ⟨fm, hfm⟩ := hloc f loc (h loc (List.mem_cons_self _ _))
      simp only [FunctionSummary.seedLocations, hfm]
      exact ih fm (fun l hl => h l (List.mem_cons_of_mem _ hl))
  intro params
  induction params with
  | nil => intro f _; exact ⟨f, rfl⟩
  | cons p rest ih =>
    intro f h
    obtain ⟨fm, hfm⟩ := hlocs p.locationLists f (h p (List.mem_cons_self _ _))
    simp only [FunctionSummary.seedParams, hfm]
    exact ih fm (fun q hq => h q (List.mem_cons_of_mem _ hq))

end SeedingTarget

section Construction

theorem PropagateLoop_skeleton (s : Statics) :
    ∀ (fuel : Nat) (tp : BlockAddressSet) (bs final : BlockSummaryMap),
      PropagateLoop s fuel tp bs = .done final → skeleton final = skeleton bs := by
  intro fuel
  induction fuel with
  | zero =>
    intro tp bs final h
    cases tp with
    | nil =>
      simp only [PropagateLoop, Outcome.done.injEq] at h
      rw [h]
    | cons a r => simp [PropagateLoop] at h
  | succ n ih =>
    intro tp bs final h
    cases tp with
    | nil =>
      simp only [PropagateLoop, Outcome.done.injEq] at h
      rw [h]
    | cons a r =>
      simp only [PropagateLoop] at h
      cases hb : PropagateBody s a r bs with
      | none => simp [hb] at h
      | some st =>
        obtain ⟨tp1, bs1⟩ := st
        simp only [hb] at h
        rw [ih tp1 bs1 final h]
        obtain ⟨B, v, _, _, hcase⟩ := PropagateBody_cases hb
        rcases hcase with ⟨_, _, h2⟩ | ⟨_, _, h2⟩
        · rw [h2]
        · rw [h2, skeleton_SetStartRegsAt]

/-- Propagation changes `startRegs` only. -/
theorem PropagateStartRegs_frame {s : Statics} {f f1 : FunctionSummary}
    (h : f.PropagateStartRegs s = .done f1) :
    f1.function = f.function ∧ f1.callBlocks = f.callBlocks ∧
      skeleton f1.blocks = skeleton f.blocks := by
  unfold FunctionSummary.PropagateStartRegs at h
  cases hl : PropagateLoop s (propagateFuel s f.blocks) (blockKeys f.blocks) f.blocks with
  | done final =>
    simp only [hl, Outcome.done.injEq] at h
    subst h
    exact ⟨rfl, rfl, PropagateLoop_skeleton s _ _ _ _ hl⟩
  | nullDeref => simp [hl] at h
  | outOfFuel => simp [hl] at h
  | outOfRange => simp [hl] at h

theorem SummarizeInstruction_some {abi : ABI} {b b1 : BlockSummary} {i : Instruction}
    (h : b.SummarizeInstruction abi i = some b1) :
    ∃ bitmap, BlockSummary.RegisterSetToBitmap abi (i.readSet ++ i.writeSet) = some bitmap ∧
      b1 = { b with usedRegs := b.usedRegs ||| bitmap } := by
  unfold BlockSummary.SummarizeInstruction at h
  cases hb : BlockSummary.RegisterSetToBitmap abi (i.readSet ++ i.writeSet) with
  | none => simp [hb] at h
  | some bitmap =>
    simp only [hb, Option.some.injEq] at h
    exact ⟨bitmap, rfl, h.symm⟩

theorem noteCategory_fields (b : BlockSummary) (addr : Address) (c : InsnCategory) :
    (b.noteCategory addr c).block = b.block ∧
    (b.noteCategory addr c).startRegs = b.startRegs ∧
    (b.noteCategory addr c).usedRegs = b.usedRegs ∧
    (b.noteCategory addr c).isCallBlock = (b.isCallBlock || decide (c = .c_CallInsn)) := by
  cases c <;> simp [BlockSummary.noteCategory]

/-- What the loop over the instructions leaves of the block summary it starts from. -/
theorem SummarizeInsns_fields (abi : ABI) :
    ∀ (insns : List (Address × Instruction)) (b b1 : BlockSummary),
      BlockSummary.SummarizeInsns abi insns b = some b1 →
      b1.block = b.block ∧ b1.startRegs = b.startRegs ∧
      BitSubset b.usedRegs b1.usedRegs ∧
      b1.isCallBlock =
        (b.isCallBlock || insns.any (fun i => decide (i.2.category = .c_CallInsn))) := by
  intro insns
  induction insns with
  | nil =>
    intro b b1 h
    simp only [BlockSummary.SummarizeInsns, Option.some.injEq] at h
    subst h
    simp [BitSubset.refl]
  | cons i rest ih =>
    intro b b1 h
    simp only [BlockSummary.SummarizeInsns] at h
    cases hs : b.SummarizeInstruction abi i.2 with
    | none => simp [hs] at h
    | some bm =>
      simp only [hs] at h
      obtain ⟨bitmap, _, hbm⟩ := SummarizeInstruction_some hs
      obtain ⟨h1, h2, h3, h4⟩ := ih _ b1 h
      obtain ⟨n1, n2, n3, n4⟩ := noteCategory_fields bm i.1 i.2.category
      refine ⟨?_, ?_, ?_, ?_⟩
      · rw [h1, n1, hbm]
      · rw [h2, n2, hbm]
      · intro k hk
        apply h3
        rw [n3, hbm]
        simp only [Nat.testBit_or, Bool.or_eq_true]
        exact Or.inl hk
      · rw [h4, n4, hbm]
        simp [Bool.or_assoc]

/-- The `usedRegs` the loop over the instructions ends with depend on the
instructions and on the `usedRegs` it starts from only. -/
theorem SummarizeInsns_usedRegs (abi : ABI) :
    ∀ (insns : List (Address × Instruction)) (b c : BlockSummary),
      b.usedRegs = c.usedRegs →
      (BlockSummary.SummarizeInsns abi insns b).map (fun x => x.usedRegs) =
        (BlockSummary.SummarizeInsns abi insns c).map (fun x => x.usedRegs) := by
  intro insns
  induction insns with
  | nil =>
    intro b c h
    simp [BlockSummary.SummarizeInsns, h]
  | cons i rest ih =>
    intro b c h
    simp only [BlockSummary.SummarizeInsns, BlockSummary.SummarizeInstruction]
    cases BlockSummary.RegisterSetToBitmap abi (i.2.readSet ++ i.2.writeSet) with
    | none => rfl
    | some bitmap =>
      simp only
      apply ih
      rw [(noteCategory_fields _ _ _).2.2.1, (noteCategory_fields _ _ _).2.2.1, h]

theorem construct_fields {abi : ABI} {b : Block} {B : BlockSummary}
    (h : BlockSummary.construct abi b = some B) :
    B.block = b ∧ B.startRegs = 0 ∧ B.isCallBlock = hasCallInsn b := by
  unfold BlockSummary.construct BlockSummary.SummarizeBlock at h
  obtain ⟨h1, h2, _, h4⟩ := SummarizeInsns_fields abi _ _ _ h
  refine ⟨h1, h2, ?_⟩
  rw [h4]
  simp [hasCallInsn]

theorem GetBlock_mapInsert {bs : BlockSummaryMap} {k : BlockAddress} (v : BlockSummary)
    (h : GetBlock bs k = none) (a : BlockAddress) :
    GetBlock (mapInsert k v bs) a = if a = k then some v else GetBlock bs a := by
  induction bs with
  | nil =>
    by_cases ha : k = a
    · simp [mapInsert, GetBlock, ha]
    · have ha2 : ¬ a = k := fun e => ha e.symm
      simp [mapInsert, GetBlock, ha, ha2]
  | cons e rest ih =>
    obtain ⟨k1, v1⟩ := e
    have hne : ¬ k1 = k := by
      intro e
      simp [GetBlock, e] at h
    simp only [GetBlock, hne, if_false] at h
    unfold mapInsert
    split
    · by_cases ha : k = a
      · simp [GetBlock, ha]
      · have ha2 : ¬ a = k := fun e => ha e.symm
        simp [GetBlock, ha, ha2]
    · by_cases ha1 : k1 = a
      · have ha2 : ¬ a = k := fun e => hne (ha1.trans e)
        simp [GetBlock, ha1, ha2]
      · simp only [GetBlock, ha1, if_false]
        exact ih h

end Construction

section ConstructionLoop

theorem AddBlock_fresh {abi : ABI} {f f1 : FunctionSummary} {b : Block}
    {blockSummary : BlockSummary} (hfresh : f.GetBlock b.start = none)
    (h : f.AddBlock abi b = some (f1, blockSummary)) :
    BlockSummary.construct abi b = some blockSummary ∧
      f1 = { f with blocks := mapInsert b.start blockSummary f.blocks } := by
  unfold FunctionSummary.AddBlock at h
  cases hc : BlockSummary.construct abi b with
  | none => simp [hc] at h
  | some summary =>
    simp only [hc, hfresh, Option.some.injEq, Prod.mk.injEq] at h
    obtain ⟨h1, h2⟩ := h
    subst h2
    exact ⟨rfl, h1.symm⟩

/-- What the loop of the constructor builds from blocks with distinct start
addresses, none of them in the map yet. -/
theorem addBlocks_spec (abi : ABI) :
    ∀ (bl : List Block) (f f1 : FunctionSummary),
      (bl.map (fun b => b.start)).Nodup → (∀ b ∈ bl, f.GetBlock b.start = none) →
      f.callBlocks.Sorted (· < ·) → FunctionSummary.addBlocks abi bl f = some f1 →
      f1.function = f.function ∧ f1.callBlocks.Sorted (· < ·) ∧
      (∀ a, a ∈ f1.callBlocks ↔
        (a ∈ f.callBlocks ∨ ∃ b ∈ bl, b.start = a ∧ hasCallInsn b = true)) ∧
      (∀ b ∈ bl, ∃ B, f1.GetBlock b.start = some B ∧ BlockSummary.construct abi b = some B) ∧
      (∀ a, (∀ b ∈ bl, b.start ≠ a) → f1.GetBlock a = f.GetBlock a) := by
  intro bl
  induction bl with
  | nil =>
    intro f f1 _ _ hs h
    simp only [FunctionSummary.addBlocks, Option.some.injEq] at h
    subst h
    refine ⟨rfl, hs, ?_, ?_, fun _ _ => rfl⟩
    · intro a
      simp
    · intro b hb
      cases hb
  | cons b rest ih =>
    intro f f1 hnd hfresh hs h
    simp only [List.map_cons, List.nodup_cons, List.mem_map, not_exists, not_and] at hnd
    obtain ⟨hnotin, hnd1⟩ := hnd
    simp only [FunctionSummary.addBlocks] at h
    cases hab : f.AddBlock abi b with
    | none => simp [hab] at h
    | some r =>
      obtain ⟨fm, blockSummary⟩ := r
      simp only [hab] at h
      obtain ⟨hcon, hfm⟩ := AddBlock_fresh (hfresh b (List.mem_cons_self _ _)) hab
      have hfb : GetBlock f.blocks b.start = none := hfresh b (List.mem_cons_self _ _)
      have hget : ∀ a, fm.GetBlock a = if a = b.start then some blockSummary else f.GetBlock a := by
        intro a
        rw [hfm]
        exact GetBlock_mapInsert blockSummary hfb a
      have hcall : blockSummary.IsCallBlock = hasCallInsn b := (construct_fields hcon).2.2
      have hfreshm : ∀ c ∈ rest, fm.GetBlock c.start = none := by
        intro c hc
        rw [hget, if_neg (fun e => hnotin c hc e)]
        exact hfresh c (List.mem_cons_of_mem _ hc)
      by_cases hcb : blockSummary.IsCallBlock = true
      · simp only [hcb, if_true] at h
        obtain ⟨h1, h2, h3, h4, h5⟩ := ih { fm with callBlocks := setInsert b.start fm.callBlocks }
          f1 hnd1 hfreshm (setInsert_sorted _ _ (by rw [hfm]; exact hs)) h
        refine ⟨by rw [h1, hfm], h2, ?_, ?_, ?_⟩
        · intro a
          rw [h3 a]
          simp only [mem_setInsert, List.mem_cons, exists_eq_or_imp]
          rw [hfm]
          rw [hcall] at hcb
          constructor
          · rintro ((h6 | h6) | h6)
            · exact Or.inr (Or.inl ⟨h6.symm, hcb⟩)
            · exact Or.inl h6
            · exact Or.inr (Or.inr h6)
          · rintro (h6 | ⟨h6, _⟩ | h6)
            · exact Or.inl (Or.inr h6)
            · exact Or.inl (Or.inl h6.symm)
            · exact Or.inr h6
        · intro c hc
          rcases List.mem_cons.1 hc with e | hc
          · subst e
            refine ⟨blockSummary, ?_, hcon⟩
            rw [h5 c.start (fun d hd e => hnotin d hd e)]
            show fm.GetBlock c.start = some blockSummary
            rw [hget, if_pos rfl]
          · exact h4 c hc
        · intro a ha
          rw [h5 a (fun d hd => ha d (List.mem_cons_of_mem _ hd))]
          show fm.GetBlock a = f.GetBlock a
          rw [hget, if_neg (fun e => ha b (List.mem_cons_self _ _) e.symm)]
      · simp only [hcb, if_false] at h
        obtain ⟨h1, h2, h3, h4, h5⟩ := ih fm f1 hnd1 hfreshm (by rw [hfm]; exact hs) h
        refine ⟨by rw [h1, hfm], h2, ?_, ?_, ?_⟩
        · intro a
          rw [h3 a]
          simp only [List.mem_cons, exists_eq_or_imp]
          rw [hfm]
          rw [hcall] at hcb
          constructor
          · rintro (h6 | h6)
            · exact Or.inl h6
            · exact Or.inr (Or.inr h6)
          · rintro (h6 | ⟨_, h6⟩ | h6)
            · exact Or.inl h6
            · exact absurd h6 hcb
            · exact Or.inr h6
        · intro c hc
          rcases List.mem_cons.1 hc with e | hc
          · subst e
            refine ⟨blockSummary, ?_, hcon⟩
            rw [h5 c.start (fun d hd e => hnotin d hd e)]
            rw [hget, if_pos rfl]
          · exact h4 c hc
        · intro a ha
          rw [h5 a (fun d hd => ha d (List.mem_cons_of_mem _ hd))]
          rw [hget, if_neg (fun e => ha b (List.mem_cons_self _ _) e.symm)]

/-- Seeding changes `usedRegs` only, and only by adding bits. -/
theorem AddParamRegs_frame {abi : ABI} {symtab : Symtab} {fblocks : List Block}
    {entry : Block} {f f1 : FunctionSummary}
    (h : f.AddParamRegs abi symtab fblocks entry = some f1) :
    f1.function = f.function ∧ f1.callBlocks = f.callBlocks ∧
      (∀ a, f.GetBlock a = none → f1.GetBlock a = none) ∧
      ∀ a B, f.GetBlock a = some B →
        ∃ U, f1.GetBlock a = some { B with usedRegs := U } ∧ BitSubset B.usedRegs U := by
  rw [AddParamRegs_eq] at h
  have hself : ∀ a B, f.GetBlock a = some B →
      ∃ U, f.GetBlock a = some { B with usedRegs := U } ∧ BitSubset B.usedRegs U :=
    fun a B hB => ⟨B.usedRegs, hB, BitSubset.refl _⟩
  cases ht : seedTarget symtab fblocks entry with
  | none =>
    simp only [ht, Option.some.injEq] at h
    subst h
    exact ⟨rfl, rfl, fun _ hn => hn, hself⟩
  | some ts =>
    obtain ⟨target, sf⟩ := ts
    simp only [ht] at h
    cases hB : GetBlock f.blocks target.start with
    | none =>
      rw [seedParams_absent abi _ _ sf.params f hB] at h
      simp only [Option.some.injEq] at h
      subst h
      exact ⟨rfl, rfl, fun _ hn => hn, hself⟩
    | some T =>
      obtain ⟨U, hf1, hU⟩ := seedParams_spec abi _ _ sf.params f f1 T hB h
      refine ⟨by rw [hf1], by rw [hf1], ?_, ?_⟩
      · intro a ha
        rw [hf1]
        have ha2 : GetBlock f.blocks a = none := ha
        have hne : ¬ a = target.start := by
          intro e
          rw [e, hB] at ha2
          cases ha2
        simp only [FunctionSummary.GetBlock, GetBlock_SetBlockAt, hne, if_false]
        exact ha2
      · intro a B hBa
        have hBa2 : GetBlock f.blocks a = some B := hBa
        by_cases hat : a = target.start
        · subst hat
          rw [hB] at hBa2
          cases hBa2
          refine ⟨U, ?_, fun i hi => (hU i).2 (Or.inl hi)⟩
          rw [hf1]
          simp only [FunctionSummary.GetBlock, GetBlock_SetBlockAt, if_true, hB, Option.map_some']
        · refine ⟨B.usedRegs, ?_, BitSubset.refl _⟩
          rw [hf1]
          simp only [FunctionSummary.GetBlock, GetBlock_SetBlockAt, hat, if_false]
          exact hBa2

theorem WriteJsonCalls_eq (s : Statics) (options : Options) (f : FunctionSummary) :
    ∀ l : List BlockAddress, (∀ a ∈ l, ∃ B, f.GetBlock a = some B) →
      f.WriteJsonCalls s options l = some (l.map (callGroup s options f)).flatten := by
  intro l
  induction l with
  | nil => intro _; rfl
  | cons a rest ih =>
    intro h
    obtain ⟨B, hB⟩ := h a (List.mem_cons_self _ _)
    simp only [FunctionSummary.WriteJsonCalls, hB,
      ih (fun x hx => h x (List.mem_cons_of_mem _ hx)), List.map_cons, List.flatten_cons,
      callGroup]

theorem sorted_ext {l1 l2 : List BlockAddress} (h1 : l1.Sorted (· < ·))
    (h2 : l2.Sorted (· < ·)) (h : ∀ a, a ∈ l1 ↔ a ∈ l2) : l1 = l2 :=
  List.eq_of_perm_of_sorted ((List.perm_ext_iff_of_nodup h1.nodup h2.nodup).2 h) h1 h2

end ConstructionLoop

section Constructed

/-- The call-block set and the blocks of a constructed function summary. -/
theorem construct_callBlocks {s : Statics} {abi : ABI} {symtab : Symtab}
    {function : ParseFunction} {fblocks : List Block} {entry : Block} {fsum : FunctionSummary}
    (hdistinct : (fblocks.map (fun b => b.start)).Nodup)
    (hdone : FunctionSummary.construct s abi symtab function fblocks entry = .done fsum) :
    fsum.callBlocks.Sorted (· < ·) ∧
    (∀ a, a ∈ fsum.callBlocks ↔ ∃ b ∈ fblocks, b.start = a ∧ hasCallInsn b = true) ∧
    (∀ b ∈ fblocks, ∃ B, fsum.GetBlock b.start = some B ∧ B.block = b) := by
  unfold FunctionSummary.construct at hdone
  cases h1 : FunctionSummary.addBlocks abi fblocks
      { function := function, blocks := [], callBlocks := [] } with
  | none => simp [h1] at hdone
  | some f1 =>
    simp only [h1] at hdone
    cases h2 : f1.AddParamRegs abi symtab fblocks entry with
    | none => simp [h2] at hdone
    | some f2 =>
      simp only [h2] at hdone
      obtain ⟨_, a2, a3, a4, _⟩ := addBlocks_spec abi fblocks
        { function := function, blocks := [], callBlocks := [] } f1 hdistinct
        (fun _ _ => rfl) List.sorted_nil h1
      obtain ⟨_, b2, _, b4⟩ := AddParamRegs_frame h2
      obtain ⟨_, c2, c3⟩ := PropagateStartRegs_frame hdone
      refine ⟨by rw [c2, b2]; exact a2, ?_, ?_⟩
      · intro a
        rw [c2, b2, a3 a]
        simp
      · intro b hb
        obtain ⟨B1, hB1, hcon⟩ := a4 b hb
        obtain ⟨U, hB2⟩ := b4 b.start B1 hB1
        obtain ⟨B3, hB3, hsk⟩ := shape_get c3.symm hB2.1
        refine ⟨B3, hB3, ?_⟩
        rw [(shape_fields hsk).1]
        exact (construct_fields hcon).1

theorem AddParamRegs_other_blocks {abi : ABI} {symtab : Symtab} {fblocks : List Block}
    {entry : Block} {f f1 : FunctionSummary}
    (h : f.AddParamRegs abi symtab fblocks entry = some f1) :
    (seedTarget symtab fblocks entry = none → f1 = f) ∧
    ∀ target symtabFunc, seedTarget symtab fblocks entry = some (target, symtabFunc) →
      ∀ a, a ≠ target.start → f1.GetBlock a = f.GetBlock a := by
  rw [AddParamRegs_eq] at h
  cases ht : seedTarget symtab fblocks entry with
  | none =>
    simp only [ht, Option.some.injEq] at h
    exact ⟨fun _ => h.symm, fun _ _ hts => by cases hts⟩
  | some ts =>
    obtain ⟨target, sf⟩ := ts
    simp only [ht] at h
    refine ⟨(fun hn => by cases hn), ?_⟩
    intro target1 sf1 hts a ha
    simp only [Option.some.injEq, Prod.mk.injEq] at hts
    obtain ⟨e1, e2⟩ := hts
    subst e1
    subst e2
    cases hB : GetBlock f.blocks target.start with
    | none =>
      rw [seedParams_absent abi _ _ sf.params f hB] at h
      simp only [Option.some.injEq] at h
      rw [h]
    | some T =>
      obtain ⟨U, hf1, _⟩ := seedParams_spec abi _ _ sf.params f f1 T hB h
      rw [hf1]
      simp only [FunctionSummary.GetBlock, GetBlock_SetBlockAt, ha, if_false]

end Constructed

section Escaping

open JsonWriter

theorem escapeChars_cons (c : Char) (cs : List Char) :
    escapeChars (c :: cs) =
      (if c = newlineChar then [backslashChar, 'n']
       else if c = backslashChar ∨ c = quoteChar then [backslashChar, c]
       else [c]) ++ escapeChars cs := by
  by_cases h1 : c = newlineChar
  · rw [escapeChars, if_pos h1, if_pos h1]
    rfl
  · by_cases h2 : c = backslashChar ∨ c = quoteChar
    · rw [escapeChars, if_neg h1, if_neg h1, if_pos h2, if_pos h2]
      rfl
    · rw [escapeChars, if_neg h1, if_neg h1, if_neg h2, if_neg h2]
      rfl

theorem unescape_escapeChars (s : List Char) : unescapeFrom false (escapeChars s) = s := by
  induction s with
  | nil => rfl
  | cons c cs ih =>
    rw [escapeChars_cons]
    by_cases h1 : c = newlineChar
    · rw [if_pos h1]
      simp only [List.cons_append, List.nil_append, List.append_eq, unescapeFrom, if_true, ih, h1]
    · by_cases h2 : c = backslashChar ∨ c = quoteChar
      · have hn : ¬ c = 'n' := by
          rcases h2 with h2 | h2 <;> rw [h2] <;> decide
        rw [if_neg h1, if_pos h2]
        simp only [List.cons_append, List.nil_append, List.append_eq, unescapeFrom, if_true, if_false, hn, ih]
      · have hb : ¬ c = backslashChar := fun e => h2 (Or.inl e)
        rw [if_neg h1, if_neg h2]
        simp only [List.cons_append, List.nil_append, List.append_eq, unescapeFrom, hb, if_false, ih]

theorem newline_not_mem_escapeChars (s : List Char) : newlineChar ∉ escapeChars s := by
  induction s with
  | nil => simp [escapeChars]
  | cons c cs ih =>
    rw [escapeChars_cons]
    have hb : ¬ newlineChar = backslashChar := by decide
    have hn : ¬ newlineChar = 'n' := by decide
    by_cases h1 : c = newlineChar
    · rw [if_pos h1]
      simp [hb, hn, ih]
    · have hc : ¬ newlineChar = c := fun e => h1 e.symm
      by_cases h2 : c = backslashChar ∨ c = quoteChar
      · rw [if_neg h1, if_pos h2]
        simp [hb, hc, ih]
      · rw [if_neg h1, if_neg h2]
        simp [hc, ih]

theorem quotesEscaped_escapeChars (s : List Char) :
    quotesEscapedFrom false (escapeChars s) = true := by
  induction s with
  | nil => rfl
  | cons c cs ih =>
    rw [escapeChars_cons]
    by_cases h1 : c = newlineChar
    · rw [if_pos h1]
      simp only [List.cons_append, List.nil_append, List.append_eq, quotesEscapedFrom, if_true, ih]
    · by_cases h2 : c = backslashChar ∨ c = quoteChar
      · rw [if_neg h1, if_pos h2]
        simp only [List.cons_append, List.nil_append, List.append_eq, quotesEscapedFrom, if_true, ih]
      · have hb : ¬ c = backslashChar := fun e => h2 (Or.inl e)
        have hq : ¬ c = quoteChar := fun e => h2 (Or.inr e)
        rw [if_neg h1, if_neg h2]
        simp [quotesEscapedFrom, hb, hq, ih]

end Escaping

section Wrap

theorem wrap32_zero : wrap32 0 = 0 := by decide

theorem wrap32_range (x : Int) : -2147483648 ≤ wrap32 x ∧ wrap32 x < 2147483648 := by
  unfold wrap32
  omega

/-- An integer a 32-bit `int` can hold is the value held for it. -/
theorem wrap32_of_range {x : Int} (h1 : -2147483648 ≤ x) (h2 : x < 2147483648) :
    wrap32 x = x := by
  unfold wrap32
  omega

end Wrap

section Writer

open JsonWriter

theorem put_indent (w : JsonWriter) (t : List Char) : (w.put t).indent = w.indent := rfl

theorem put_state (w : JsonWriter) (t : List Char) : (w.put t).state = w.state := rfl

theorem put_os (w : JsonWriter) (t : List Char) : (w.put t).os = w.os ++ t := rfl

end Writer

section Compact

open JsonWriter

theorem CompactText.empty (strs : List (List Char)) : CompactText strs [] :=
  ⟨[], rfl, fun _ h => by cases h⟩

theorem CompactText.append {strs : List (List Char)} {a b : List Char}
    (ha : CompactText strs a) (hb : CompactText strs b) : CompactText strs (a ++ b) := by
  obtain ⟨ca, ea, ga⟩ := ha
  obtain ⟨cb, eb, gb⟩ := hb
  refine ⟨ca ++ cb, ?_, ?_⟩
  · rw [ea, eb, List.map_append, List.flatten_append]
  · intro c hc
    rcases List.mem_append.1 hc with h | h
    · exact ga c h
    · exact gb c h

theorem CompactText.weaken {strs strs2 : List (List Char)} {a : List Char}
    (hsub : ∀ x ∈ strs, x ∈ strs2) (ha : CompactText strs a) : CompactText strs2 a := by
  obtain ⟨ca, ea, ga⟩ := ha
  refine ⟨ca, ea, ?_⟩
  intro c hc
  have := ga c hc
  cases c with
  | literal x => exact hsub x this
  | plain t => exact this

theorem CompactText.ofPlain (strs : List (List Char)) {t : List Char} (h1 : ' ' ∉ t)
    (h2 : newlineChar ∉ t) : CompactText strs t :=
  ⟨[.plain t], by simp [Chunk.text], by
    intro c hc
    simp only [List.mem_singleton] at hc
    subst hc
    exact ⟨h1, h2⟩⟩

theorem CompactText.ofLiteral {strs : List (List Char)} {x : List Char} (h : x ∈ strs) :
    CompactText strs (JsonString x) :=
  ⟨[.literal x], by simp [Chunk.text], by
    intro c hc
    simp only [List.mem_singleton] at hc
    subst hc
    exact h⟩

theorem CompactText.no_newline {strs : List (List Char)} {a : List Char}
    (ha : CompactText strs a) : newlineChar ∉ a := by
  obtain ⟨ca, ea, ga⟩ := ha
  subst ea
  intro hmem
  simp only [List.mem_flatten, List.mem_map] at hmem
  obtain ⟨l, ⟨c, hc, hl⟩, hin⟩ := hmem
  subst hl
  have hg := ga c hc
  cases c with
  | literal x =>
    simp only [Chunk.text, JsonString, List.mem_cons, List.mem_append, List.mem_singleton,
      List.not_mem_nil, or_false] at hin
    have hq : ¬ newlineChar = quoteChar := by decide
    rcases hin with h | h | h
    · exact hq h
    · exact newline_not_mem_escapeChars x h
    · exact hq h
  | plain t => exact hg.2 hin

theorem opStrings_cons (op : Op) (ops : List Op) :
    opStrings (op :: ops) = opStrings [op] ++ opStrings ops := by
  cases op <;> simp [opStrings]

theorem digitChar_plain_below :
    ∀ n : Fin 10, Nat.digitChar n.val ≠ ' ' ∧ Nat.digitChar n.val ≠ newlineChar := by
  decide

theorem digitChar_plain (n : Nat) :
    Nat.digitChar (n % 10) ≠ ' ' ∧ Nat.digitChar (n % 10) ≠ newlineChar :=
  digitChar_plain_below ⟨n % 10, Nat.mod_lt n (by decide)⟩

theorem toDigitsCore_plain :
    ∀ (fuel n : Nat) (ds : List Char), (' ' ∉ ds ∧ newlineChar ∉ ds) →
      (' ' ∉ Nat.toDigitsCore 10 fuel n ds ∧ newlineChar ∉ Nat.toDigitsCore 10 fuel n ds) := by
  intro fuel
  induction fuel with
  | zero =>
    intro n ds h
    exact h
  | succ f ih =>
    intro n ds h
    have hd := digitChar_plain n
    have hcons : ' ' ∉ Nat.digitChar (n % 10) :: ds ∧
        newlineChar ∉ Nat.digitChar (n % 10) :: ds := by
      constructor
      · intro hm
        rcases List.mem_cons.1 hm with e | hm
        · exact hd.1 e.symm
        · exact h.1 hm
      · intro hm
        rcases List.mem_cons.1 hm with e | hm
        · exact hd.2 e.symm
        · exact h.2 hm
    unfold Nat.toDigitsCore
    simp only
    split
    · exact hcons
    · exact ih _ _ hcons

theorem decimal_plain (i : Int) : ' ' ∉ decimal i ∧ newlineChar ∉ decimal i := by
  have hnil : ' ' ∉ ([] : List Char) ∧ newlineChar ∉ ([] : List Char) := by simp
  unfold decimal Nat.toDigits
  split
  · have h := toDigitsCore_plain (i.natAbs + 1) i.natAbs [] hnil
    constructor
    · intro hm
      rcases List.mem_cons.1 hm with e | hm
      · revert e; decide
      · exact h.1 hm
    · intro hm
      rcases List.mem_cons.1 hm with e | hm
      · revert e; decide
      · exact h.2 hm
  · exact toDigitsCore_plain (i.toNat + 1) i.toNat [] hnil

theorem IncElements_os (w : JsonWriter) : (IncElements w).os = w.os := by
  unfold IncElements
  split <;> rfl

theorem IncElements_indent (w : JsonWriter) : (IncElements w).indent = w.indent := by
  unfold IncElements
  split <;> rfl

/-- With the indent 0 the punctuation is nothing or one comma. -/
theorem punctuate_compact (w : JsonWriter) (type : ItemType) (n : Nat) (isClosing : Bool)
    (h : w.indent = 0) :
    ∃ p, (p = [] ∨ p = [',']) ∧ (punctuate w type n isClosing).output = w.os ++ p ∧
      ∀ w1, punctuate w type n isClosing = .ok w1 → w1.indent = 0 := by
  unfold punctuate
  split
  · exact ⟨[], Or.inl rfl, by simp [Result.output], fun w1 hw => by cases hw; exact h⟩
  · split
    · simp only [h, ne_eq, not_true_eq_false, if_false]
      exact ⟨[], Or.inl rfl, by simp [Result.output], fun w1 hw => by cases hw; exact h⟩
    · by_cases hc : (type = .arrayElemType ∨ type = .objectMemberType) ∧ n > 0 ∧
          isClosing = false
      · simp only [hc, and_self, if_true, put_indent, h, ne_eq, not_true_eq_false, false_and,
          if_false, put_state, mul_zero, wrap32_zero, lt_self_iff_false, Int.toNat_zero,
          List.replicate_zero]
        cases hs : w.state with
        | nil =>
          exact ⟨[','], Or.inr rfl, by simp [Result.output, put_os],
            fun w1 hw => by cases hw⟩
        | cons cur rest =>
          exact ⟨[','], Or.inr rfl, by simp [Result.output, put_os],
            fun w1 hw => by cases hw; exact h⟩
      · simp only [hc, if_false, h, ne_eq, not_true_eq_false, false_and, mul_zero, wrap32_zero,
          lt_self_iff_false, Int.toNat_zero, List.replicate_zero]
        cases hs : w.state with
        | nil =>
          exact ⟨[], Or.inl rfl, by simp [Result.output], fun w1 hw => by cases hw⟩
        | cons cur rest =>
          exact ⟨[], Or.inl rfl, by simp [Result.output, put_os],
            fun w1 hw => by cases hw; exact h⟩

/-- With the indent 0 `WritePreitemPunctuation` writes nothing or one comma. -/
theorem WritePreitemPunctuation_compact (w : JsonWriter) (speciality : ItemSpeciality)
    (h : w.indent = 0) :
    ∃ p, (p = [] ∨ p = [',']) ∧ (w.WritePreitemPunctuation speciality).output = w.os ++ p ∧
      ∀ w1, w.WritePreitemPunctuation speciality = .ok w1 → w1.indent = 0 := by
  unfold WritePreitemPunctuation
  cases hs : w.state with
  | nil =>
    exact ⟨[], Or.inl rfl, by simp [Result.output], fun w1 hw => by cases hw⟩
  | cons cur rest =>
    simp only
    split
    · split
      · unfold RequiresAllowsAnyType
        simp only [hs]
        split
        · exact ⟨[], Or.inl rfl, by simp [Result.output, Result.andThen],
            fun w1 hw => by cases hw⟩
        · split
          · exact ⟨[], Or.inl rfl, by simp [Result.output, Result.andThen],
              fun w1 hw => by cases hw⟩
          · simp only [Result.andThen]
            have hp := punctuate_compact (IncElements w) cur.type cur.numElements
              (decide (speciality = .itemClosing)) (by rw [IncElements_indent]; exact h)
            rw [IncElements_os] at hp
            exact hp
      · have hp := punctuate_compact (IncElements w) cur.type cur.numElements
          (decide (speciality = .itemClosing)) (by rw [IncElements_indent]; exact h)
        rw [IncElements_os] at hp
        exact hp
    · exact punctuate_compact w cur.type cur.numElements
        (decide (speciality = .itemClosing)) h

theorem CompactStep.abortSame (strs : List (List Char)) (w : JsonWriter) :
    CompactStep strs w (.abort w.os) :=
  ⟨[], by simp [Result.output], CompactText.empty strs, fun w1 hw => by cases hw⟩

theorem CompactStep.okSame (strs : List (List Char)) {w w1 : JsonWriter}
    (hos : w1.os = w.os) (hi : w1.indent = 0) : CompactStep strs w (.ok w1) :=
  ⟨[], by simp [Result.output, hos], CompactText.empty strs,
    fun w2 hw => by cases hw; exact hi⟩

theorem CompactStep.okPut (strs : List (List Char)) {w : JsonWriter} {t : List Char}
    (hi : w.indent = 0) (ht : CompactText strs t) : CompactStep strs w (.ok (w.put t)) :=
  ⟨t, rfl, ht, fun w2 hw => by cases hw; exact hi⟩

theorem CompactStep.bind {strs : List (List Char)} {w : JsonWriter} {r : Result}
    {next : JsonWriter → Result} (hr : CompactStep strs w r)
    (hnext : ∀ w1, r = .ok w1 → CompactStep strs w1 (next w1)) :
    CompactStep strs w (r.andThen next) := by
  obtain ⟨a, ha, hta, hia⟩ := hr
  cases r with
  | abort os => exact ⟨a, ha, hta, fun w1 hw => by cases hw⟩
  | ok w1 =>
    obtain ⟨b, hb, htb, hib⟩ := hnext w1 rfl
    refine ⟨a ++ b, ?_, hta.append htb, hib⟩
    have ha1 : w1.os = w.os ++ a := ha
    show (next w1).output = w.os ++ (a ++ b)
    rw [hb, ha1, List.append_assoc]

theorem CompactStep.widen {strs strs2 : List (List Char)} {w : JsonWriter} {r : Result}
    (hsub : ∀ x ∈ strs, x ∈ strs2) (hr : CompactStep strs w r) : CompactStep strs2 w r := by
  obtain ⟨a, ha, hta, hia⟩ := hr
  exact ⟨a, ha, hta.weaken hsub, hia⟩

theorem comma_plain (strs : List (List Char)) : CompactText strs [','] :=
  CompactText.ofPlain strs (by decide) (by decide)

theorem CompactStep.punctuation (strs : List (List Char)) (w : JsonWriter)
    (speciality : ItemSpeciality) (h : w.indent = 0) :
    CompactStep strs w (w.WritePreitemPunctuation speciality) := by
  obtain ⟨p, hp, hout, hind⟩ := WritePreitemPunctuation_compact w speciality h
  refine ⟨p, hout, ?_, hind⟩
  rcases hp with e | e
  · rw [e]; exact CompactText.empty strs
  · rw [e]; exact comma_plain strs

/-- A value or a key: the punctuation, then the text. -/
theorem CompactStep.item (strs : List (List Char)) (w : JsonWriter)
    (speciality : ItemSpeciality) (t : List Char) (h : w.indent = 0)
    (ht : CompactText strs t) :
    CompactStep strs w
      ((w.WritePreitemPunctuation speciality).andThen (fun w1 => .ok (w1.put t))) :=
  (CompactStep.punctuation strs w speciality h).bind
    (fun w1 hw => CompactStep.okPut strs
      ((WritePreitemPunctuation_compact w speciality h).choose_spec.2.2 w1 hw) ht)

theorem PushItem_os (w : JsonWriter) (t : ItemType) : (PushItem w t).os = w.os := rfl

theorem PushItem_indent (w : JsonWriter) (t : ItemType) : (PushItem w t).indent = w.indent :=
  rfl

theorem CompactStep.popItem (strs : List (List Char)) (w : JsonWriter) (t : ItemType)
    (h : w.indent = 0) : CompactStep strs w (PopItem w t) := by
  unfold PopItem
  split
  · exact CompactStep.abortSame strs w
  · split
    · exact CompactStep.abortSame strs w
    · split
      · exact CompactStep.okSame strs rfl h
      · exact CompactStep.okSame strs rfl h

theorem CompactStep.delim (strs : List (List Char)) (w : JsonWriter) (delim : Char)
    (speciality : ItemSpeciality) (h : w.indent = 0) (h1 : delim ≠ ' ')
    (h2 : delim ≠ newlineChar) : CompactStep strs w (WriteDelim w delim speciality) :=
  CompactStep.item strs w speciality [delim] h
    (CompactText.ofPlain strs (by simpa using h1.symm) (by simpa using h2.symm))

theorem CompactStep.openItem (strs : List (List Char)) (w : JsonWriter) (t : ItemType)
    (delim : Char) (h : w.indent = 0) (h1 : delim ≠ ' ') (h2 : delim ≠ newlineChar) :
    CompactStep strs w (OpenItem w t delim) := by
  have hd := CompactStep.delim strs w delim .itemOrdinary h h1 h2
  refine hd.bind (fun w1 hw => ?_)
  obtain ⟨_, _, _, hi⟩ := hd
  exact CompactStep.okSame strs (PushItem_os w1 t) (by rw [PushItem_indent]; exact hi w1 hw)

theorem CompactStep.closeItem (strs : List (List Char)) (w : JsonWriter) (t : ItemType)
    (delim : Char) (h : w.indent = 0) (h1 : delim ≠ ' ') (h2 : delim ≠ newlineChar) :
    CompactStep strs w (CloseItem w t delim) := by
  have hd := CompactStep.delim strs w delim .itemClosing h h1 h2
  refine hd.bind (fun w1 hw => ?_)
  obtain ⟨_, _, _, hi⟩ := hd
  exact CompactStep.popItem strs w1 t (hi w1 hw)

/-- One call on a writer with the indent 0 adds compact text. -/
theorem CompactStep.ofCall (w : JsonWriter) (op : Op) (h : w.indent = 0) :
    CompactStep (opStrings [op]) w (w.call op) := by
  cases op with
  | AddScalarInt i =>
    exact CompactStep.item _ w .itemOrdinary (decimal i) h
      (CompactText.ofPlain _ (decimal_plain i).1 (decimal_plain i).2)
  | AddScalarString s =>
    exact CompactStep.item _ w .itemOrdinary (JsonString s.toList) h
      (CompactText.ofLiteral (by simp [opStrings]))
  | AddScalarBool b =>
    refine CompactStep.item _ w .itemOrdinary _ h ?_
    cases b
    · exact CompactText.ofPlain _ (by decide) (by decide)
    · exact CompactText.ofPlain _ (by decide) (by decide)
  | AddNull =>
    exact CompactStep.item _ w .itemOrdinary _ h
      (CompactText.ofPlain _ (by decide) (by decide))
  | OpenArray => exact CompactStep.openItem _ w _ _ h (by decide) (by decide)
  | CloseArray => exact CompactStep.closeItem _ w _ _ h (by decide) (by decide)
  | OpenObject => exact CompactStep.openItem _ w _ _ h (by decide) (by decide)
  | CloseObject =>
    show CompactStep _ w (CloseObject w)
    unfold CloseObject
    split
    · exact CompactStep.abortSame _ w
    · exact CompactStep.closeItem _ w _ _ h (by decide) (by decide)
  | AddMemberKey s =>
    exact CompactStep.item _ w .itemKey (JsonString s.toList ++ [':']) h
      ((CompactText.ofLiteral (by simp [opStrings])).append
        (CompactText.ofPlain _ (by decide) (by decide)))
  | End =>
    show CompactStep _ w (End w)
    unfold End
    have hn : ¬ w.indent > 0 := by rw [h]; decide
    simp only [hn, if_false]
    split
    · exact CompactStep.abortSame _ w
    · split
      · exact CompactStep.abortSame _ w
      · split
        · exact CompactStep.abortSame _ w
        · split
          · exact CompactStep.abortSame _ w
          · exact CompactStep.okSame _ rfl h
  | Reset => exact CompactStep.okSame _ rfl h

/-- A sequence of calls on a writer with the indent 0 adds compact text. -/
theorem CompactStep.ofRun (ops : List Op) :
    ∀ w : JsonWriter, w.indent = 0 → CompactStep (opStrings ops) w (w.run ops) := by
  induction ops with
  | nil =>
    intro w h
    exact CompactStep.okSame _ rfl h
  | cons op ops ih =>
    intro w h
    have hc : CompactStep (opStrings (op :: ops)) w (w.call op) :=
      (CompactStep.ofCall w op h).widen (fun x hx => by
        rw [opStrings_cons]; exact List.mem_append_left _ hx)
    have hrun : w.run (op :: ops) = (w.call op).andThen (fun w1 => w1.run ops) := by
      show (match w.call op with
        | .ok w1 => run w1 ops
        | .abort os => .abort os) = _
      cases w.call op <;> rfl
    rw [hrun]
    refine hc.bind (fun w1 hw => ?_)
    obtain ⟨_, _, _, hi⟩ := hc
    exact (ih w1 (hi w1 hw)).widen (fun x hx => by
      rw [opStrings_cons]; exact List.mem_append_right _ hx)

end Compact

section Flow

theorem OutRegs_of_generates {s : Statics} {B : BlockSummary} {i : Nat}
    (hg : B.generates s i = true) : (B.OutRegs s).testBit i = true := by
  rw [testBit_OutRegs_split, hg, Bool.true_or]

theorem killsAt_of_passesAt {s : Statics} {bs : BlockSummaryMap} {i : Nat} {y : BlockAddress}
    (hp : passesAt s bs i y = true) : killsAt s bs i y = false := by
  unfold passesAt at hp
  unfold killsAt
  cases hY : GetBlock bs y with
  | none => rfl
  | some Y =>
    simp only [hY] at hp ⊢
    exact not_kills_of_passes hp

/-- What `generates` and `passes` say in terms of the fields of the block. -/
theorem generates_passes_fields (s : Statics) (Q : BlockSummary) (i : Nat) :
    (Q.generates s i = true ↔
      ((Q.usedRegs.testBit i = true ∧ Q.isCallBlock = false) ∨
       (Q.isCallBlock = true ∧ s.callReturnRegisters.testBit i = true) ∨
       (Q.usedRegs.testBit i = true ∧ s.callNotKilledRegisters.testBit i = true))) ∧
    (Q.passes s i = true ↔
      (Q.isCallBlock = false ∨ s.callNotKilledRegisters.testBit i = true)) := by
  unfold BlockSummary.generates BlockSummary.passes
  rw [testBit_OutRegs]
  simp only [BlockSummary.SetStartRegs, Nat.zero_testBit, Bool.or_false]
  cases Q.isCallBlock <;> cases Q.usedRegs.testBit i <;>
    cases s.callNotKilledRegisters.testBit i <;>
    cases s.callReturnRegisters.testBit i <;> simp

end Flow

section CommandLine

open Options

theorem foldl_processArg_positional (arguments : List String) :
    ∀ o : Options, arguments.foldl processArg (o, false) =
      ({ o with args := o.args ++ arguments }, false) := by
  induction arguments with
  | nil =>
    intro o
    simp
  | cons arg rest ih =>
    intro o
    have hstep : processArg (o, false) arg = ({ o with args := o.args ++ [arg] }, false) := by
      simp [processArg]
    rw [List.foldl_cons, hstep, ih]
    simp

/-- One pass of the loop on an option that is not the end of the options. -/
theorem processArg_option (o : Options) (arg : String) (hd : startsWithDash arg = true)
    (hne : arg ≠ "--") :
    ∃ o1, processArg (o, true) arg = (o1, true) ∧
      o1.help = (o.help || decide (arg = "--help" ∨ arg = "-h")) ∧
      o1.version = (o.version || decide (arg = "--version" ∨ arg = "-v")) ∧
      o1.failed = (o.failed || decide (arg ∉ knownOptions)) ∧
      o1.args = o.args := by
  unfold processArg
  simp only [hd, and_self, if_true]
  by_cases h1 : arg = "--help" ∨ arg = "-h"
  · rw [if_pos h1]
    refine ⟨_, rfl, by simp [h1], ?_, ?_, rfl⟩
    · rcases h1 with e | e <;> subst e <;> simp
    · rcases h1 with e | e <;> subst e <;> simp [knownOptions]
  · rw [if_neg h1]
    by_cases h2 : arg = "--version" ∨ arg = "-v"
    · rw [if_pos h2]
      refine ⟨_, rfl, by simp [h1], by simp [h2], ?_, rfl⟩
      rcases h2 with e | e <;> subst e <;> simp [knownOptions]
    · rw [if_neg h2]
      by_cases h3 : arg = "--debug"
      · rw [if_pos h3]
        refine ⟨_, rfl, by simp [h1], by simp [h2], ?_, rfl⟩
        subst h3
        simp [knownOptions]
      · rw [if_neg h3, if_neg hne]
        by_cases h4 : arg = "--compact-json"
        · rw [if_pos h4]
          refine ⟨_, rfl, by simp [h1], by simp [h2], ?_, rfl⟩
          subst h4
          simp [knownOptions]
        · rw [if_neg h4]
          by_cases h5 : arg = "--all-calls"
          · rw [if_pos h5]
            refine ⟨_, rfl, by simp [h1], by simp [h2], ?_, rfl⟩
            subst h5
            simp [knownOptions]
          · rw [if_neg h5]
            refine ⟨_, rfl, by simp [h1], by simp [h2], ?_, rfl⟩
            have hk : arg ∉ knownOptions := by
              simp only [knownOptions, List.mem_cons, List.mem_singleton, List.not_mem_nil,
                or_false, not_or]
              push_neg at h1 h2
              exact ⟨h1.1, h1.2, h2.1, h2.2, h3, h4, h5, hne⟩
            simp [hk]

/-- What the loop over the arguments leaves in the options. -/
theorem foldl_processArg_looking (arguments : List String) :
    ∀ o : Options,
      (arguments.foldl processArg (o, true)).1.help = (o.help || asksHelp arguments) ∧
      (arguments.foldl processArg (o, true)).1.version = (o.version || asksVersion arguments) ∧
      (arguments.foldl processArg (o, true)).1.failed =
        (o.failed || hasUnknownOption arguments) ∧
      (arguments.foldl processArg (o, true)).1.args = o.args ++ positionalArgs arguments := by
  induction arguments with
  | nil =>
    intro o
    simp [asksHelp, asksVersion, hasUnknownOption, optionArgs, positionalArgs]
  | cons arg rest ih =>
    intro o
    rw [List.foldl_cons]
    by_cases hd : startsWithDash arg = true
    · by_cases hne : arg = "--"
      · subst hne
        have hstep : processArg (o, true) "--" = (o, false) := by
          simp [processArg, hd]
        rw [hstep, foldl_processArg_positional]
        simp [asksHelp, asksVersion, hasUnknownOption, optionArgs, positionalArgs, hd]
      · obtain ⟨o1, hstep, hh, hv, hf, ha⟩ := processArg_option o arg hd hne
        rw [hstep]
        obtain ⟨ih1, ih2, ih3, ih4⟩ := ih o1
        rw [ih1, ih2, ih3, ih4, hh, hv, hf, ha]
        simp [asksHelp, asksVersion, hasUnknownOption, optionArgs, positionalArgs, hd, hne,
          Bool.or_assoc]
    · have hstep : processArg (o, true) arg = ({ o with args := o.args ++ [arg] }, false) := by
        simp [processArg, hd]
      rw [hstep, foldl_processArg_positional]
      simp [asksHelp, asksVersion, hasUnknownOption, optionArgs, positionalArgs, hd]

/-- The end of `ProcessOptions` on options in which nothing is set yet. -/
theorem ProcessOptions_from (arguments : List String) (o1 : Options) (h1 : o1.help = false)
    (h2 : o1.version = false) (h3 : o1.failed = false) (h4 : o1.args = []) :
    (Options.ProcessOptions o1 none arguments).status =
      (if asksHelp arguments = true ∨ asksVersion arguments = true then some 0
       else if hasUnknownOption arguments = true ∨ (positionalArgs arguments).length < 1 ∨
         2 < (positionalArgs arguments).length then some 1
       else none) ∧
    (∀ o, Options.ProcessOptions o1 none arguments = .returned o →
      o.args = positionalArgs arguments) := by
  obtain ⟨gh, gv, gf, ga⟩ := foldl_processArg_looking arguments o1
  rw [h1, Bool.false_or] at gh
  rw [h2, Bool.false_or] at gv
  rw [h3, Bool.false_or] at gf
  rw [h4, List.nil_append] at ga
  unfold Options.ProcessOptions
  simp only [gh, gv, ga]
  by_cases hh : asksHelp arguments = true
  · simp [hh, OptionsResult.status]
  · by_cases hv : asksVersion arguments = true
    · simp [hh, hv, OptionsResult.status]
    · simp only [hh, hv, or_self, if_false, Bool.false_eq_true]
      by_cases hl1 : (positionalArgs arguments).length < 1
      · have hl2 : ¬ (positionalArgs arguments).length > 2 := by omega
        simp [hl1, hl2, ga, Options.Error, OptionsResult.status]
      · by_cases hl2 : (positionalArgs arguments).length > 2
        · simp [hl1, hl2, ga, Options.Error, OptionsResult.status]
        · by_cases hf : hasUnknownOption arguments = true
          · simp [hl1, hl2, ga, gf, hf, Options.Error, OptionsResult.status]
          · simp [hl1, hl2, ga, gf, hf, Options.Error, OptionsResult.status]

end CommandLine

section Stack

open JsonWriter

theorem Stacked.length {w : JsonWriter} {d n : Nat} (h : Stacked w d n) :
    w.state.length = d + 1 := by
  obtain ⟨items, root, hst, hlen, _, _⟩ := h.stack
  rw [hst, List.length_append, hlen]
  rfl

theorem Stacked.root {w : JsonWriter} {d n : Nat} (h : Stacked w d n) :
    ∃ root, w.state.getLast? = some root ∧ root.type = .anyType ∧ root.numElements = n := by
  obtain ⟨items, root, hst, _, hty, hnum⟩ := h.stack
  refine ⟨root, ?_, hty, hnum⟩
  rw [hst]
  simp

end Stack

section Claims

/-- C1. Fixed point. Run, as the constructor runs it, on blocks whose `startRegs`
are empty and whose predecessor and successor lists are mutually consistent and
name only blocks of the function, `PropagateStartRegs` returns, changes nothing
but `startRegs`, and leaves every block `B` with `startRegs(B)` equal to the union
of `OutRegs(P)` over the predecessors `P` of `B`: the loop that forms the union
yields `startRegs(B)`, and a register is in `startRegs(B)` exactly when it is in
`OutRegs` of some predecessor. -/
theorem PropagateStartRegs_fixed_point (s : Statics) (f : FunctionSummary)
    (hempty : StartsEmpty f.blocks) (hclosed : EdgesClosed f.blocks)
    (hcons : EdgesConsistent f.blocks) :
    ∃ f1, f.PropagateStartRegs s = .done f1 ∧ skeleton f1.blocks = skeleton f.blocks ∧
      IsFixedPoint s f1.blocks ∧
      ∀ a B, f1.GetBlock a = some B → ∀ i, (B.startRegs.testBit i = true ↔
        ∃ p ∈ B.Predecessors, ∃ P, f1.GetBlock p = some P ∧
          (P.OutRegs s).testBit i = true) := by
  obtain ⟨final, hfinal⟩ := PropagateLoop_done s f.blocks hempty hclosed hcons
    (propagateFuel s f.blocks) (blockKeys f.blocks) f.blocks Reach.init
    (potential_init_le s f.blocks)
  have hreach := PropagateLoop_reach s f.blocks _ _ _ final Reach.init hfinal
  have hfix := (hreach.fixInv hempty hclosed hcons).fixedPoint
  refine ⟨{ f with blocks := final }, ?_, (hreach.inv hempty).shape, hfix, ?_⟩
  · simp only [FunctionSummary.PropagateStartRegs, hfinal]
  · intro a B hB i
    have h := unionOutRegs_testBit s final B.Predecessors 0 B.startRegs (hfix a B hB) i
    simpa using h

theorem PropagateStartRegs_fixed_point_witness :
    StartsEmpty exFunction.blocks ∧ EdgesClosed exFunction.blocks ∧
      EdgesConsistent exFunction.blocks ∧
      ∃ f1, exFunction.PropagateStartRegs exStatics = .done f1 ∧
        skeleton f1.blocks = skeleton exFunction.blocks ∧
        IsFixedPoint exStatics f1.blocks ∧
        ∀ a B, f1.GetBlock a = some B → ∀ i, (B.startRegs.testBit i = true ↔
          ∃ p ∈ B.Predecessors, ∃ P, f1.GetBlock p = some P ∧
            (P.OutRegs exStatics).testBit i = true) :=
  ⟨by decide, by decide, by decide,
    PropagateStartRegs_fixed_point exStatics exFunction (by decide) (by decide) (by decide)⟩

/-- C3. Termination. Run, as the constructor runs it, on blocks whose `startRegs`
are empty, the work-list loop of `PropagateStartRegs` ends after at most
`propagateFuel` passes, whatever the edges are (cycles, self-loops, edges to
addresses outside the function) and whichever blocks are call blocks: the run
does not use the passes up, and allowing more passes gives the same outcome. -/
theorem PropagateStartRegs_terminates (s : Statics) (f : FunctionSummary)
    (hempty : StartsEmpty f.blocks) :
    f.PropagateStartRegs s ≠ .outOfFuel ∧
      ∀ k, PropagateLoop s (propagateFuel s f.blocks + k) (blockKeys f.blocks) f.blocks =
        PropagateLoop s (propagateFuel s f.blocks) (blockKeys f.blocks) f.blocks := by
  have h := PropagateLoop_fuel s f.blocks (propagateFuel s f.blocks) (blockKeys f.blocks)
    f.blocks (LoopInv.atStart s hempty) (potential_init_le s f.blocks)
  constructor
  · unfold FunctionSummary.PropagateStartRegs
    cases hl : PropagateLoop s (propagateFuel s f.blocks) (blockKeys f.blocks) f.blocks with
    | done final => simp
    | nullDeref => simp
    | outOfFuel => exact absurd hl h
    | outOfRange => simp
  · intro k
    exact PropagateLoop_more_fuel s _ k _ _ h

theorem PropagateStartRegs_terminates_witness :
    StartsEmpty exFunction.blocks ∧
      exFunction.PropagateStartRegs exStatics ≠ .outOfFuel ∧
      ∀ k, PropagateLoop exStatics (propagateFuel exStatics exFunction.blocks + k)
          (blockKeys exFunction.blocks) exFunction.blocks =
        PropagateLoop exStatics (propagateFuel exStatics exFunction.blocks)
          (blockKeys exFunction.blocks) exFunction.blocks :=
  ⟨by decide, PropagateStartRegs_terminates exStatics exFunction (by decide)⟩

/-- C4. Monotone growth. In every state the loop can reach from blocks with empty
`startRegs`, in whatever order addresses leave the work set, a pass of the loop
body leaves every block with a `startRegs` that holds every bit of the one it
had: the value `SetStartRegs` stores, although formed from the predecessors
alone, is a superset of the value it replaces, and no other block changes. -/
theorem SetStartRegs_grows (s : Statics) (blocks0 : BlockSummaryMap)
    (hempty : StartsEmpty blocks0) {toProcess toProcess1 : BlockAddressSet}
    {blocks blocks1 : BlockSummaryMap} (hreach : Reach s blocks0 toProcess blocks)
    {addr : BlockAddress}
    (hbody : PropagateBody s addr (toProcess.erase addr) blocks = some (toProcess1, blocks1)) :
    ∀ a B, GetBlock blocks a = some B →
      ∃ B1, GetBlock blocks1 a = some B1 ∧ BitSubset B.startRegs B1.startRegs ∧
        (a ≠ addr → B1 = B) := by
  have inv := hreach.inv hempty
  obtain ⟨B0, v, hB0, hv, hcase⟩ := PropagateBody_cases hbody
  have hsub := inv.supported.subset_union hB0 hv
  intro a B hB
  rcases hcase with ⟨_, _, h2⟩ | ⟨_, _, h2⟩
  · subst h2
    exact ⟨B, hB, BitSubset.refl _, fun _ => rfl⟩
  · subst h2
    by_cases ha : a = addr
    · subst ha
      rw [hB0] at hB
      cases hB
      exact ⟨_, GetBlock_SetStartRegsAt_self blocks a v _ hB0, hsub, fun h => absurd rfl h⟩
    · exact ⟨B, by rw [GetBlock_SetStartRegsAt_ne blocks addr v a ha]; exact hB,
        BitSubset.refl _, fun _ => rfl⟩

theorem SetStartRegs_grows_witness :
    StartsEmpty exBlocks ∧
      PropagateBody exStatics 16 ((blockKeys exBlocks).erase 16) exBlocks =
        some ([0, 32], SetStartRegsAt exBlocks 16 3) ∧
      ∃ B1, GetBlock (SetStartRegsAt exBlocks 16 3) 16 = some B1 ∧
        BitSubset exBlock16.startRegs B1.startRegs ∧ ((16 : Nat) ≠ 16 → B1 = exBlock16) :=
  ⟨by decide, by decide,
    SetStartRegs_grows exStatics exBlocks (by decide) Reach.init
      (by decide : PropagateBody exStatics 16 ((blockKeys exBlocks).erase 16) exBlocks =
        some ([0, 32], SetStartRegsAt exBlocks 16 3)) 16 exBlock16 (by decide)⟩

/-- C5. Call-site transfer function. `OutRegs(B)` is `startRegs(B) ∪ usedRegs(B)` for
a block that is not a call block and
`((startRegs(B) ∪ usedRegs(B)) ∩ NotKilledRegs) ∪ ReturnRegs` for a call block; so
`OutRegs` of a call block has no bit outside `NotKilledRegs ∪ ReturnRegs`, whatever
its `startRegs` and `usedRegs` are. -/
theorem OutRegs_transfer (s : Statics) (B : BlockSummary) :
    B.OutRegs s =
      (if B.isCallBlock = true then
        ((B.startRegs ||| B.usedRegs) &&& s.callNotKilledRegisters) ||| s.callReturnRegisters
      else B.startRegs ||| B.usedRegs) ∧
    BitSubset ({ B with isCallBlock := true }.OutRegs s)
      (s.callNotKilledRegisters ||| s.callReturnRegisters) := by
  constructor
  · simp only [BlockSummary.OutRegs, BlockSummary.IsCallBlock,
      Nat.lor_comm B.usedRegs B.startRegs]
  · intro i hi
    rw [testBit_OutRegs] at hi
    simp only [if_true, Bool.or_eq_true, Bool.and_eq_true] at hi
    rw [Nat.testBit_or, Bool.or_eq_true]
    rcases hi with ⟨_, hk⟩ | hr
    · exact Or.inl hk
    · exact Or.inr hr

/-- C2. Least fixed point. Under the conditions of C1 the map `PropagateStartRegs`
ends with solves `startRegs(B) = union of OutRegs(P) over the predecessors P of B`,
register by register (a register is in `startRegs(B)` exactly when it is in
`OutRegs` of a predecessor), and is contained, block by block, in every
assignment of `startRegs` to the same blocks that solves these equations.
Every pass, whichever member of the work set it takes, lowers `potential`, so a
run in any order ends; and every map a complete run can end with, in whatever
order addresses leave the work set, holds at each address the block the program
ends with there. -/
theorem PropagateStartRegs_least (s : Statics) (f : FunctionSummary)
    (hempty : StartsEmpty f.blocks) (hclosed : EdgesClosed f.blocks)
    (hcons : EdgesConsistent f.blocks) :
    ∃ f1, f.PropagateStartRegs s = .done f1 ∧
      (∀ a B, f1.GetBlock a = some B → ∀ i, (B.startRegs.testBit i = true ↔
        ∃ p ∈ B.Predecessors, ∃ P, f1.GetBlock p = some P ∧
          (P.OutRegs s).testBit i = true)) ∧
      (∀ sol, skeleton sol = skeleton f.blocks →
        (∀ a B, GetBlock sol a = some B → ∀ i, (B.startRegs.testBit i = true ↔
          ∃ p ∈ B.Predecessors, ∃ P, GetBlock sol p = some P ∧
            (P.OutRegs s).testBit i = true)) →
        ∀ a B B2, f1.GetBlock a = some B → GetBlock sol a = some B2 →
          ∀ i, B.startRegs.testBit i = true → B2.startRegs.testBit i = true) ∧
      (∀ tp bs addr tp1 bs1, Reach s f.blocks tp bs → addr ∈ tp →
        PropagateBody s addr (tp.erase addr) bs = some (tp1, bs1) →
        potential s tp1 bs1 < potential s tp bs) ∧
      (∀ final, Reach s f.blocks [] final → ∀ a, GetBlock final a = f1.GetBlock a) := by
  obtain ⟨final, hfinal⟩ := PropagateLoop_done s f.blocks hempty hclosed hcons
    (propagateFuel s f.blocks) (blockKeys f.blocks) f.blocks Reach.init
    (potential_init_le s f.blocks)
  have hreach := PropagateLoop_reach s f.blocks _ _ _ final Reach.init hfinal
  have hfix := (hreach.fixInv hempty hclosed hcons).fixedPoint
  have hshape := (hreach.inv hempty).shape
  refine ⟨{ f with blocks := final }, ?_, hfix.solvesUnion, ?_, ?_, ?_⟩
  · simp only [FunctionSummary.PropagateStartRegs, hfinal]
  · intro sol hsk hsol a B B2 hB hB2 i hi
    have hsolfix : IsFixedPoint s sol := SolvesUnion.isFixedPoint hclosed hsk hsol
    exact hreach.startsBelow hempty hsk hsolfix a B B2 hB hB2 i hi
  · intro tp bs addr tp1 bs1 hr hmem hbody
    have inv := hr.inv hempty
    refine potential_body_lt inv (sorted_erase _ _ inv.sorted)
      (fun a ha => List.mem_of_mem_erase ha) ?_ hbody
    rw [List.length_erase_of_mem hmem]
    have : 0 < tp.length := List.length_pos_of_mem hmem
    omega
  · intro other hother a
    have hfix2 := (hother.fixInv hempty hclosed hcons).fixedPoint
    have hshape2 := (hother.inv hempty).shape
    exact GetBlock_ext_of_below (hshape2.trans hshape.symm)
      (hother.startsBelow hempty hshape hfix) (hreach.startsBelow hempty hshape2 hfix2) a

theorem PropagateStartRegs_least_witness :
    StartsEmpty exFunction.blocks ∧ EdgesClosed exFunction.blocks ∧
      EdgesConsistent exFunction.blocks ∧
      ∃ f1, exFunction.PropagateStartRegs exStatics = .done f1 ∧
        (∀ a B, f1.GetBlock a = some B → ∀ i, (B.startRegs.testBit i = true ↔
          ∃ p ∈ B.Predecessors, ∃ P, f1.GetBlock p = some P ∧
            (P.OutRegs exStatics).testBit i = true)) ∧
        (∀ sol, skeleton sol = skeleton exFunction.blocks →
          (∀ a B, GetBlock sol a = some B → ∀ i, (B.startRegs.testBit i = true ↔
            ∃ p ∈ B.Predecessors, ∃ P, GetBlock sol p = some P ∧
              (P.OutRegs exStatics).testBit i = true)) →
          ∀ a B B2, f1.GetBlock a = some B → GetBlock sol a = some B2 →
            ∀ i, B.startRegs.testBit i = true → B2.startRegs.testBit i = true) ∧
        (∀ tp bs addr tp1 bs1, Reach exStatics exFunction.blocks tp bs → addr ∈ tp →
          PropagateBody exStatics addr (tp.erase addr) bs = some (tp1, bs1) →
          potential exStatics tp1 bs1 < potential exStatics tp bs) ∧
        (∀ final, Reach exStatics exFunction.blocks [] final →
          ∀ a, GetBlock final a = f1.GetBlock a) :=
  ⟨by decide, by decide, by decide,
    PropagateStartRegs_least exStatics exFunction (by decide) (by decide) (by decide)⟩

theorem island_no_edge (c : BlockAddress) : isEdge islandFunction.blocks 0 c = false := by
  cases h : isEdge islandFunction.blocks 0 c with
  | false => rfl
  | true =>
    obtain ⟨_, C, _, hC, hmem⟩ := isEdge_iff.1 h
    have hin := GetBlock_mem hC
    simp only [islandFunction, List.mem_cons, Prod.mk.injEq, List.mem_singleton,
      List.not_mem_nil, or_false] at hin
    rcases hin with ⟨_, e⟩ | ⟨_, e⟩ | ⟨_, e⟩ <;> subst e <;> revert hmem <;> decide

/-- C6, as stated, fails. In `killFunction` register 0 is used by the entry block, a
call block, and by no call block after it on the path to block 16, yet it is not
in `startRegs` of block 16: the call of the entry block kills it. In
`islandFunction` register 3 is in `startRegs` of block 32, yet no path of
intraprocedural edges from the entry block ends at a predecessor of block 32. -/
theorem entry_path_characterisation_fails :
    (∃ f1, killFunction.PropagateStartRegs exStatics = .done f1 ∧
      ¬ EntryPathCharacterisation exStatics killFunction f1.blocks) ∧
    (∃ f1, islandFunction.PropagateStartRegs exStatics = .done f1 ∧
      ¬ EntryPathCharacterisation exStatics islandFunction f1.blocks) := by
  constructor
  · refine ⟨{ killFunction with blocks := [(0, killBlock0), (16, killBlock16.SetStartRegs 4)] },
      by decide, ?_⟩
    intro h
    have h1 := (h 16 (killBlock16.SetStartRegs 4) (by decide) 0).2
      ⟨[], 0, [], by decide, by decide, by decide, by simp⟩
    revert h1
    decide
  · refine ⟨{ islandFunction with
        blocks := [(0, islandBlock0), (16, islandBlock16), (32, islandBlock32.SetStartRegs 8)] },
      by decide, ?_⟩
    intro h
    obtain ⟨pre, x, post, hpath, hhead, _, _⟩ :=
      (h 32 (islandBlock32.SetStartRegs 8) (by decide) 3).1 (by decide)
    have hentry : islandFunction.function.entry = 0 := rfl
    rw [hentry] at hhead
    cases pre with
    | nil =>
      simp only [List.nil_append, List.head?_cons, Option.some.injEq] at hhead
      subst hhead
      cases post with
      | nil =>
        simp only [List.nil_append, isPath, Bool.and_true] at hpath
        rw [island_no_edge] at hpath
        cases hpath
      | cons c post =>
        simp only [List.nil_append, List.cons_append, isPath, Bool.and_eq_true] at hpath
        rw [island_no_edge] at hpath
        cases hpath.1
    | cons p pre =>
      simp only [List.cons_append, List.head?_cons, Option.some.injEq] at hhead
      subst hhead
      cases pre with
      | nil =>
        simp only [List.nil_append, List.cons_append, isPath, Bool.and_eq_true] at hpath
        rw [island_no_edge] at hpath
        cases hpath.1
      | cons c pre =>
        simp only [List.cons_append, isPath, Bool.and_eq_true] at hpath
        rw [island_no_edge] at hpath
        cases hpath.1

/-- C6, amended. Under the conditions of C1, after propagation a register `i` is in
`startRegs(B)` exactly when there is a path of intraprocedural edges that starts
at some block of the function, the entry block or any other, and ends at a
predecessor of `B`, on which some block uses `i` or is a call block with `i` in
`ReturnRegs`, and neither that block nor any later block of the path is a call
block with `i` outside `NotKilledRegs ∪ ReturnRegs`. -/
theorem startRegs_iff_path (s : Statics) (f : FunctionSummary)
    (hempty : StartsEmpty f.blocks) (hclosed : EdgesClosed f.blocks)
    (hcons : EdgesConsistent f.blocks) :
    ∃ f1, f.PropagateStartRegs s = .done f1 ∧
      ∀ a B, f1.GetBlock a = some B → ∀ i, (B.startRegs.testBit i = true ↔
        ∃ pre x post, isPath f.blocks (pre ++ (x :: post) ++ [a]) = true ∧
          usesOrReturnsAt s f.blocks i x = true ∧
          ∀ y ∈ x :: post, killsAt s f.blocks i y = false) := by
  obtain ⟨final, hfinal⟩ := PropagateLoop_done s f.blocks hempty hclosed hcons
    (propagateFuel s f.blocks) (blockKeys f.blocks) f.blocks Reach.init
    (potential_init_le s f.blocks)
  have hreach := PropagateLoop_reach s f.blocks _ _ _ final Reach.init hfinal
  have hfix := (hreach.fixInv hempty hclosed hcons).fixedPoint
  have hshape := (hreach.inv hempty).shape
  refine ⟨{ f with blocks := final }, ?_, ?_⟩
  · simp only [FunctionSummary.PropagateStartRegs, hfinal]
  · intro a B hB i
    constructor
    · intro hi
      obtain ⟨q, post, hpath, hgen, hall⟩ := hreach.justified hempty a B hB i hi
      refine ⟨[], q, post, hpath, ?_, ?_⟩
      · unfold generatesAt at hgen
        unfold usesOrReturnsAt
        cases hQ : GetBlock f.blocks q with
        | none => simp [hQ] at hgen
        | some Q =>
          simp only [hQ] at hgen ⊢
          exact (uses_of_generates hgen).1
      · intro y hy
        rcases List.mem_cons.1 hy with e | hy
        · subst e
          unfold generatesAt at hgen
          unfold killsAt
          cases hQ : GetBlock f.blocks y with
          | none => rfl
          | some Q =>
            simp only [hQ] at hgen ⊢
            exact (uses_of_generates hgen).2
        · have hp := hall y hy
          unfold passesAt at hp
          unfold killsAt
          cases hY : GetBlock f.blocks y with
          | none => rfl
          | some Y =>
            simp only [hY] at hp ⊢
            exact not_kills_of_passes hp
    · rintro ⟨pre, x, post, hpath, huse, hall⟩
      rw [List.append_assoc] at hpath
      have hpath1 := isPath_suffix pre _ hpath
      have hkx := hall x (List.mem_cons_self _ _)
      unfold usesOrReturnsAt at huse
      unfold killsAt at hkx
      cases hX0 : GetBlock f.blocks x with
      | none => simp [hX0] at huse
      | some X0 =>
        simp only [hX0] at huse hkx
        obtain ⟨X, hX, hsk⟩ := shape_get hshape.symm hX0
        have hf := shape_fields hsk
        rw [← hf.2.1, ← hf.2.2.1] at huse
        rw [← hf.2.2.1] at hkx
        obtain ⟨B1, hB1, hst⟩ := fixedPoint_walk hshape hfix i post x a X hX
          (OutRegs_of_use huse hkx) hpath1 (fun y hy => hall y (List.mem_cons_of_mem _ hy))
        have hB2 : GetBlock final a = some B := hB
        rw [hB2] at hB1
        cases hB1
        exact hst

theorem startRegs_iff_path_witness :
    StartsEmpty exFunction.blocks ∧ EdgesClosed exFunction.blocks ∧
      EdgesConsistent exFunction.blocks ∧
      ∃ f1, exFunction.PropagateStartRegs exStatics = .done f1 ∧
        ∀ a B, f1.GetBlock a = some B → ∀ i, (B.startRegs.testBit i = true ↔
          ∃ pre x post, isPath exFunction.blocks (pre ++ (x :: post) ++ [a]) = true ∧
            usesOrReturnsAt exStatics exFunction.blocks i x = true ∧
            ∀ y ∈ x :: post, killsAt exStatics exFunction.blocks i y = false) :=
  ⟨by decide, by decide, by decide,
    startRegs_iff_path exStatics exFunction (by decide) (by decide) (by decide)⟩

/-- C7. The `liveRegisters` of a call record. Every record `BlockSummary::WriteJson`
emits for a block `B` has as `liveRegisters` the names of the register ids below
the size of the bit arrays that are in `usedRegs(B) ∩ ParamRegs`, in ascending
order of id; and the records do not change when `startRegs(B)` does. -/
theorem liveRegisters_eq_used_params (s : Statics) (options : Options) (B : BlockSummary) :
    (∀ r ∈ B.WriteJson s options, r.liveRegisters =
      ((List.range s.bitArraySize).filter
        (fun i => B.usedRegs.testBit i && s.callParamRegisters.testBit i)).map
          (FunctionSummary.RegIdToName s)) ∧
    ((List.range s.bitArraySize).filter
        (fun i => B.usedRegs.testBit i && s.callParamRegisters.testBit i)).Sorted (· < ·) ∧
    (∀ regs, (B.SetStartRegs regs).WriteJson s options = B.WriteJson s options) := by
  have hnames : liveParamNames s B =
      ((List.range s.bitArraySize).filter
        (fun i => B.usedRegs.testBit i && s.callParamRegisters.testBit i)).map
          (FunctionSummary.RegIdToName s) := by
    unfold liveParamNames FunctionSummary.RegBitmapToNames
    rw [setBitsFrom_eq, List.range_eq_range']
    simp only [Nat.testBit_and]
  refine ⟨?_, ?_, ?_⟩
  rotate_left 2
  · intro regs
    rw [WriteJson_eq_filter, WriteJson_eq_filter]
    rfl
  · intro r hr
    rw [WriteJson_eq_filter] at hr
    have hmem := (List.mem_filter.1 hr).1
    unfold unfilteredRecords at hmem
    split at hmem
    · simp only [List.mem_singleton] at hmem
      rw [hmem, ← hnames]
      rfl
    · obtain ⟨e, _, he⟩ := List.mem_map.1 hmem
      rw [← he, ← hnames]
      rfl
  · rw [List.range_eq_range']
    exact List.Pairwise.filter _ (List.pairwise_lt_range' 0 s.bitArraySize)

/-- C9. PLT filter. The object `FunctionSummary::WriteJson` writes by default is the
one it writes with `--all-calls` with the records whose `callToPlt` is false
taken out of `calls`; so every record written by default has `callToPlt = true`,
and the records written by default are, in the same order, among those written
with `--all-calls`. -/
theorem WriteJson_plt_filter (s : Statics) (options : Options) (f : FunctionSummary) :
    f.WriteJson s (pltOnly options) =
      (f.WriteJson s (allCalls options)).map
        (fun r => { r with calls := r.calls.filter (fun c => c.callToPlt) }) ∧
    (∀ d, f.WriteJson s (pltOnly options) = some d →
      (∀ c ∈ d.calls, c.callToPlt = true) ∧
      ∃ a, f.WriteJson s (allCalls options) = some a ∧ d.calls.Sublist a.calls) := by
  have hmain : f.WriteJson s (pltOnly options) =
      (f.WriteJson s (allCalls options)).map
        (fun r => { r with calls := r.calls.filter (fun c => c.callToPlt) }) := by
    unfold FunctionSummary.WriteJson
    rw [WriteJsonCalls_pltOnly]
    cases f.WriteJsonCalls s (allCalls options) f.callBlocks with
    | none => rfl
    | some calls => rfl
  refine ⟨hmain, ?_⟩
  intro d hd
  rw [hmain] at hd
  cases ha : f.WriteJson s (allCalls options) with
  | none => simp [ha] at hd
  | some a =>
    simp only [ha, Option.map_some', Option.some.injEq] at hd
    subst hd
    refine ⟨?_, a, rfl, List.filter_sublist _⟩
    intro c hc
    exact (List.mem_filter.1 hc).2

/-- C10, as stated, fails. The call block `sinkCallBlock` has one CALL edge, to the
sink block of the parser, and with `--all-calls` the one record `WriteJson` emits
for it is the null record: `calledAddr = null`, `funcNames = []` and
`callToPlt = false`. -/
theorem sink_edge_emits_null_record :
    (callEdges sinkCallBlock).length = 1 ∧
    sinkCallBlock.WriteJson exStatics (allCalls {}) = [nullRecord exStatics sinkCallBlock] ∧
    nullRecord exStatics sinkCallBlock =
      { callInstructionAddr := .num 70, calledAddr := .null, callToPlt := false,
        liveRegisters := ["rdi"], funcNames := [] } := by
  refine ⟨by decide, by decide, by decide⟩

/-- C10, amended. For a block with no CALL edge `WriteJson` emits with `--all-calls`
exactly one record, the null record (`calledAddr = null`, `funcNames = []`,
`callToPlt = false`), and by default none. For a block with `n ≥ 1` CALL edges it
emits with `--all-calls` exactly `n` records, the records of the CALL edges in
the order of the edges, and none besides; the record of a CALL edge has
`calledAddr = null` exactly when the target block of the edge starts at the
no-address value. By default the records of the CALL edges with `callToPlt` are
emitted. -/
theorem WriteJson_call_edges (s : Statics) (options : Options) (B : BlockSummary) :
    B.WriteJson s (allCalls options) =
      (if callEdges B = [] then [nullRecord s B] else (callEdges B).map (callRecordOf s B)) ∧
    (B.WriteJson s (allCalls options)).length =
      (if callEdges B = [] then 1 else (callEdges B).length) ∧
    B.WriteJson s (pltOnly options) =
      ((callEdges B).map (callRecordOf s B)).filter (fun r => r.callToPlt) ∧
    (∀ e, (callRecordOf s B e).calledAddr = .null ↔ e.trg = noAddress) ∧
    (nullRecord s B).calledAddr = .null ∧ (nullRecord s B).funcNames = [] ∧
    (nullRecord s B).callToPlt = false := by
  have hall := WriteJson_allCalls s options B
  unfold unfilteredRecords at hall
  refine ⟨hall, ?_, ?_, ?_, rfl, rfl, rfl⟩
  · rw [hall]
    split <;> simp
  · rw [WriteJson_pltOnly, hall]
    split
    · rename_i h
      simp [h, nullRecord]
    · rfl
  · intro e
    unfold callRecordOf FunctionSummary.WriteJsonAddressMember
    by_cases h : e.trg = noAddress <;> simp [h]

/-- C13. Register promotion rule. `PromotedRegisterId(r)` is the ABI index of
`promote(r)` when that index is not `-1`, and the ABI index of `r` otherwise: the
promoted index when the promoted register is indexable, the raw index when only
the raw register is, and `-1` when neither is. -/
theorem PromotedRegisterId_rule (abi : ABI) (r : MachRegister) :
    BlockSummary.PromotedRegisterId abi r =
      (if abi.getIndex (abi.promote r) ≠ -1 then abi.getIndex (abi.promote r)
       else abi.getIndex r) ∧
    (abi.getIndex (abi.promote r) ≠ -1 →
      BlockSummary.PromotedRegisterId abi r = abi.getIndex (abi.promote r)) ∧
    (abi.getIndex (abi.promote r) = -1 → abi.getIndex r ≠ -1 →
      BlockSummary.PromotedRegisterId abi r = abi.getIndex r) ∧
    (abi.getIndex (abi.promote r) = -1 → abi.getIndex r = -1 →
      BlockSummary.PromotedRegisterId abi r = -1) := by
  have h : BlockSummary.PromotedRegisterId abi r =
      (if abi.getIndex (abi.promote r) ≠ -1 then abi.getIndex (abi.promote r)
       else abi.getIndex r) := rfl
  refine ⟨h, ?_, ?_, ?_⟩
  · intro hp
    rw [h, if_pos hp]
  · intro hp _
    rw [h, if_neg (not_not.2 hp)]
  · intro hp hr
    rw [h, if_neg (not_not.2 hp), hr]

/-- C14, on the code. Register 300 of `exAbi` has no ABI index, promoted or raw, so
its `PromotedRegisterId` is `-1`. `RegisterSetToBitmap` of a set that holds it
does not yield the bitmap of the other registers: it indexes the bit array at
`-1`, outside its size, and so does `AddParamReg` of that register. -/
theorem untracked_register_indexed_out_of_range :
    BlockSummary.PromotedRegisterId exAbi 300 = -1 ∧
    BlockSummary.RegisterSetToBitmap exAbi [1] = some 2 ∧
    BlockSummary.RegisterSetToBitmap exAbi [1, 300] = none ∧
    exBlock0.AddParamReg exAbi 300 = none ∧
    setBit exAbi.bitArraySize 0 (-1) = none := by
  refine ⟨by decide, by decide, by decide, by decide, by decide⟩

/-- C12, as stated, fails. The location record of `emptyRangeSymtab` is in register 1
over the range from 5 to 5, which has no address at all and so none in common
with the entry block, from 0 to 10; yet `AddParamRegs` marks register 1 in the
`usedRegs` of the entry block, which go from 12 to 14. -/
theorem empty_range_record_is_seeded :
    ((FunctionSummary.addBlocks exAbi seedFunctionBlocks seedEmpty).map
      (fun f0 => (f0.GetBlock 0).map (fun b => b.usedRegs))) = some (some 12) ∧
    (((FunctionSummary.addBlocks exAbi seedFunctionBlocks seedEmpty).bind
      (fun f0 => f0.AddParamRegs exAbi emptyRangeSymtab seedFunctionBlocks seedBlock0)).map
      (fun f1 => (f1.GetBlock 0).map (fun b => b.usedRegs))) = some (some 14) ∧
    seedBlock0.start = 0 ∧ seedBlock0.end_ = 10 ∧
    ¬ ∃ x : Address, 5 ≤ x ∧ x < 5 ∧ seedBlock0.start ≤ x ∧ x < seedBlock0.end_ := by
  refine ⟨by decide, by decide, rfl, rfl, ?_⟩
  rintro ⟨x, h1, h2, _⟩
  exact absurd (lt_of_le_of_lt h1 h2) (lt_irrefl _)

/-- C12, amended. `AddParamRegs` seeds one block, `seedTarget`: the entry block, or
the first block when the symbol table has no function at the entry block. A
register bit is in the `usedRegs` of that block afterwards exactly when it was
there before or is the promoted index of the register of a location record
whose storage class is register or register with offset and for which
`end > lowPC` and `start < hiPC`; for a location range and a block that are not
empty this says that the two ranges have an address in common. Records of
another storage class or failing the comparison change nothing, no other block
is changed, and when the promoted indexes of the registers of the records are
positions of the bit array, `AddParamRegs` returns. -/
theorem AddParamRegs_seeds (abi : ABI) (symtab : Symtab) (fblocks : List Block)
    (entry : Block) (f : FunctionSummary) :
    (∀ f1, f.AddParamRegs abi symtab fblocks entry = some f1 →
      f1.function = f.function ∧ f1.callBlocks = f.callBlocks ∧
      (seedTarget symtab fblocks entry = none → f1 = f) ∧
      ∀ target symtabFunc, seedTarget symtab fblocks entry = some (target, symtabFunc) →
        (∀ a, a ≠ target.start → f1.GetBlock a = f.GetBlock a) ∧
        (f.GetBlock target.start = none → f1 = f) ∧
        ∀ B, f.GetBlock target.start = some B →
          ∃ U, f1.GetBlock target.start = some { B with usedRegs := U } ∧
            ∀ i : Nat, (U.testBit i = true ↔ (B.usedRegs.testBit i = true ∨
              ∃ p ∈ symtabFunc.params, ∃ loc ∈ p.locationLists,
                (loc.stClass = .storageReg ∨ loc.stClass = .storageRegOffset) ∧
                target.end_ > loc.lowPC ∧ target.start < loc.hiPC ∧
                BlockSummary.PromotedRegisterId abi loc.mr_reg = (i : Int)))) ∧
    ((∀ target symtabFunc, seedTarget symtab fblocks entry = some (target, symtabFunc) →
        ∀ p ∈ symtabFunc.params, ∀ loc ∈ p.locationLists,
          0 ≤ BlockSummary.PromotedRegisterId abi loc.mr_reg ∧
          BlockSummary.PromotedRegisterId abi loc.mr_reg < abi.bitArraySize) →
      ∃ f1, f.AddParamRegs abi symtab fblocks entry = some f1) ∧
    (∀ lowPC hiPC start last : Address, lowPC < hiPC → start < last →
      ((last > lowPC ∧ start < hiPC) ↔
        ∃ x : Address, lowPC ≤ x ∧ x < hiPC ∧ start ≤ x ∧ x < last)) := by
  refine ⟨?_, ?_, ?_⟩
  · intro f1 h
    rw [AddParamRegs_eq] at h
    cases ht : seedTarget symtab fblocks entry with
    | none =>
      simp only [ht, Option.some.injEq] at h
      subst h
      refine ⟨rfl, rfl, fun _ => rfl, ?_⟩
      intro target sf hts
      cases hts
    | some ts =>
      obtain ⟨target, sf⟩ := ts
      simp only [ht] at h
      cases hB : GetBlock f.blocks target.start with
      | none =>
        rw [seedParams_absent abi _ _ sf.params f hB] at h
        simp only [Option.some.injEq] at h
        subst h
        refine ⟨rfl, rfl, (fun hn => by cases hn), ?_⟩
        intro target1 sf1 hts
        simp only [Option.some.injEq, Prod.mk.injEq] at hts
        obtain ⟨e1, e2⟩ := hts
        subst e1
        subst e2
        refine ⟨fun _ _ => rfl, fun _ => rfl, ?_⟩
        intro B hB1
        have hB2 : GetBlock f.blocks target.start = some B := hB1
        rw [hB] at hB2
        cases hB2
      | some B =>
        obtain ⟨U, hf1, hU⟩ := seedParams_spec abi _ _ sf.params f f1 B hB h
        refine ⟨by rw [hf1], by rw [hf1], (fun hn => by cases hn), ?_⟩
        intro target1 sf1 hts
        simp only [Option.some.injEq, Prod.mk.injEq] at hts
        obtain ⟨e1, e2⟩ := hts
        subst e1
        subst e2
        refine ⟨?_, ?_, ?_⟩
        · intro a ha
          rw [hf1]
          simp only [FunctionSummary.GetBlock, GetBlock_SetBlockAt, ha, if_false]
        · intro hn
          have hB2 : GetBlock f.blocks target.start = none := hn
          rw [hB] at hB2
          cases hB2
        · intro B1 hB1
          have hB2 : GetBlock f.blocks target.start = some B1 := hB1
          rw [hB] at hB2
          cases hB2
          refine ⟨U, ?_, hU⟩
          rw [hf1]
          simp only [FunctionSummary.GetBlock, GetBlock_SetBlockAt, if_true, hB, Option.map_some']
  · intro h
    rw [AddParamRegs_eq]
    cases ht : seedTarget symtab fblocks entry with
    | none => exact ⟨f, rfl⟩
    | some ts =>
      obtain ⟨target, sf⟩ := ts
      exact seedParams_isSome abi _ _ sf.params f (h target sf ht)
  · intro lowPC hiPC start last h1 h2
    constructor
    · rintro ⟨h3, h4⟩
      exact ⟨max lowPC start, le_max_left _ _, max_lt h1 h4, le_max_right _ _, max_lt h3 h2⟩
    · rintro ⟨x, h3, h4, h5, h6⟩
      exact ⟨lt_of_le_of_lt h3 h6, lt_of_le_of_lt h5 h4⟩

/-- C11, as stated, fails. The blocks `twinPlain` and `twinCall` start at the same
address and only `twinCall` holds a call instruction. Enumerated as `twinPlain`,
`twinCall` the constructor keeps `twinPlain` at the address: the call-block set
and the `calls` array are empty, and the call block contributes no group.
Enumerated as `twinCall`, `twinPlain` the call-block set holds the address and
`calls` holds the record of the call. -/
theorem twin_blocks_order_changes_calls :
    twinPlain.start = twinCall.start ∧ hasCallInsn twinPlain = false ∧
    hasCallInsn twinCall = true ∧
    callsOf exStatics (allCalls {})
      (FunctionSummary.construct exStatics exAbi seedSymtab seedParseFunction
        [twinPlain, twinCall] twinPlain) = some ([], []) ∧
    callsOf exStatics (allCalls {})
      (FunctionSummary.construct exStatics exAbi seedSymtab seedParseFunction
        [twinCall, twinPlain] twinPlain) =
      some ([0], [{ callInstructionAddr := .num 5, calledAddr := .num 4096, callToPlt := true,
                    liveRegisters := ["rdi", "rsi"], funcNames := ["puts"] }]) := by
  refine ⟨by decide, by decide, by decide, by decide, by decide⟩

/-- C11, amended. For a function whose blocks have distinct start addresses,
in whatever order the parser enumerates them: the call-block set of the
constructed summary is strictly ascending and holds exactly the start addresses
of the blocks with an instruction of the call category; `WriteJson` returns, and
its `calls` array is the groups of records of the call blocks, one group for
each address of the set in the order of the set; the group at an address is what
`BlockSummary::WriteJson` emits for the block that starts there; and another
enumeration order of the same blocks gives the same call-block set. -/
theorem calls_in_ascending_block_order (s : Statics) (abi : ABI) (symtab : Symtab)
    (function : ParseFunction) (fblocks : List Block) (entry : Block) (options : Options)
    (hdistinct : (fblocks.map (fun b => b.start)).Nodup) (fsum : FunctionSummary)
    (hdone : FunctionSummary.construct s abi symtab function fblocks entry = .done fsum) :
    fsum.callBlocks.Sorted (· < ·) ∧
    (∀ a, a ∈ fsum.callBlocks ↔ ∃ b ∈ fblocks, b.start = a ∧ hasCallInsn b = true) ∧
    (∃ r, fsum.WriteJson s options = some r ∧
      r.calls = (fsum.callBlocks.map (callGroup s options fsum)).flatten) ∧
    (∀ b ∈ fblocks, hasCallInsn b = true →
      ∃ B, fsum.GetBlock b.start = some B ∧ B.block = b ∧
        callGroup s options fsum b.start = B.WriteJson s options) ∧
    (∀ fblocks2 fsum2, fblocks2.Perm fblocks →
      FunctionSummary.construct s abi symtab function fblocks2 entry = .done fsum2 →
      fsum2.callBlocks = fsum.callBlocks) := by
  obtain ⟨h1, h2, h3⟩ := construct_callBlocks hdistinct hdone
  refine ⟨h1, h2, ?_, ?_, ?_⟩
  · have hall : ∀ a ∈ fsum.callBlocks, ∃ B, fsum.GetBlock a = some B := by
      intro a ha
      obtain ⟨b, hb, e, _⟩ := (h2 a).1 ha
      obtain ⟨B, hB, _⟩ := h3 b hb
      exact ⟨B, by rw [← e]; exact hB⟩
    have hw := WriteJsonCalls_eq s options fsum fsum.callBlocks hall
    unfold FunctionSummary.WriteJson
    rw [hw]
    exact ⟨_, rfl, rfl⟩
  · intro b hb _
    obtain ⟨B, hB, hblock⟩ := h3 b hb
    refine ⟨B, hB, hblock, ?_⟩
    simp only [callGroup, hB]
  · intro fblocks2 fsum2 hperm hdone2
    have hdistinct2 : (fblocks2.map (fun b => b.start)).Nodup :=
      ((hperm.map (fun b => b.start)).nodup_iff).2 hdistinct
    obtain ⟨g1, g2, _⟩ := construct_callBlocks hdistinct2 hdone2
    apply sorted_ext g1 h1
    intro a
    rw [g2 a, h2 a]
    constructor
    · rintro ⟨b, hb, hrest⟩
      exact ⟨b, hperm.mem_iff.1 hb, hrest⟩
    · rintro ⟨b, hb, hrest⟩
      exact ⟨b, hperm.mem_iff.2 hb, hrest⟩

theorem calls_in_ascending_block_order_witness :
    (seedFunctionBlocks.map (fun b => b.start)).Nodup ∧
    FunctionSummary.construct exStatics exAbi seedSymtab seedParseFunction
      seedFunctionBlocks seedBlock0 = .done seedConstructed ∧
    seedConstructed.callBlocks = [0, 32] ∧
    seedConstructed.callBlocks.Sorted (· < ·) ∧
    (∀ a, a ∈ seedConstructed.callBlocks ↔
      ∃ b ∈ seedFunctionBlocks, b.start = a ∧ hasCallInsn b = true) ∧
    (∃ r, seedConstructed.WriteJson exStatics (allCalls {}) = some r ∧
      r.calls = (seedConstructed.callBlocks.map
        (callGroup exStatics (allCalls {}) seedConstructed)).flatten) ∧
    (∀ b ∈ seedFunctionBlocks, hasCallInsn b = true →
      ∃ B, seedConstructed.GetBlock b.start = some B ∧ B.block = b ∧
        callGroup exStatics (allCalls {}) seedConstructed b.start =
          B.WriteJson exStatics (allCalls {})) ∧
    (∀ fblocks2 fsum2, fblocks2.Perm seedFunctionBlocks →
      FunctionSummary.construct exStatics exAbi seedSymtab seedParseFunction fblocks2
        seedBlock0 = .done fsum2 →
      fsum2.callBlocks = seedConstructed.callBlocks) :=
  ⟨by decide, by decide, by decide,
    calls_in_ascending_block_order exStatics exAbi seedSymtab seedParseFunction
      seedFunctionBlocks seedBlock0 (allCalls {}) (by decide) seedConstructed (by decide)⟩

/-- C15, as stated, fails. The constructor of `BlockSummary` gives the entry block
of `seedFunctionBlocks` the `usedRegs` 12, from its instructions; in the
constructed function summary the `usedRegs` of that block are 15: `AddParamRegs`
has added the registers of the parameter. -/
theorem seeding_changes_usedRegs :
    (BlockSummary.construct exAbi seedBlock0).map (fun b => b.usedRegs) = some 12 ∧
    FunctionSummary.construct exStatics exAbi seedSymtab seedParseFunction
      seedFunctionBlocks seedBlock0 = .done seedConstructed ∧
    (seedConstructed.GetBlock 0).map (fun b => b.usedRegs) = some 15 := by
  refine ⟨by decide, by decide, by decide⟩

/-- C15, amended. The `usedRegs` a block summary is constructed with are determined
by the instructions of the block. Afterwards `AddParamRegs` can add bits to the
`usedRegs` of the one block it seeds: it clears no bit of any block, changes
nothing else of a block, and leaves every block but the seeded one as it is.
`PropagateStartRegs` changes the `usedRegs` of no block. -/
theorem usedRegs_after_construction (s : Statics) (abi : ABI) :
    (∀ b c : Block, b.insns = c.insns →
      (BlockSummary.construct abi b).map (fun x => x.usedRegs) =
        (BlockSummary.construct abi c).map (fun x => x.usedRegs)) ∧
    (∀ symtab fblocks entry (f f1 : FunctionSummary),
      f.AddParamRegs abi symtab fblocks entry = some f1 →
      (∀ a B, f.GetBlock a = some B →
        ∃ U, f1.GetBlock a = some { B with usedRegs := U } ∧ BitSubset B.usedRegs U) ∧
      (seedTarget symtab fblocks entry = none → f1 = f) ∧
      (∀ target symtabFunc, seedTarget symtab fblocks entry = some (target, symtabFunc) →
        ∀ a, a ≠ target.start → f1.GetBlock a = f.GetBlock a)) ∧
    (∀ f f1 : FunctionSummary, f.PropagateStartRegs s = .done f1 →
      ∀ a, (f1.GetBlock a).map (fun x => x.usedRegs) =
        (f.GetBlock a).map (fun x => x.usedRegs)) := by
  refine ⟨?_, ?_, ?_⟩
  · intro b c h
    unfold BlockSummary.construct BlockSummary.SummarizeBlock
    simp only [h]
    exact SummarizeInsns_usedRegs abi c.insns _ _ rfl
  · intro symtab fblocks entry f f1 h
    exact ⟨(AddParamRegs_frame h).2.2.2, (AddParamRegs_other_blocks h).1,
      (AddParamRegs_other_blocks h).2⟩
  · intro f f1 h a
    have hsk := (PropagateStartRegs_frame h).2.2
    have h1 := GetBlock_skeleton f1.blocks a
    have h2 := GetBlock_skeleton f.blocks a
    rw [hsk, h2] at h1
    have h3 := congrArg (Option.map (fun x : BlockSummary => x.usedRegs)) h1
    simp only [Option.map_map] at h3
    exact h3.symm

/-- C16. String escaping round trip. `JsonString(s)` is a double quote, the escaped
characters of `s`, and a double quote. Each double quote of `s` is written as
backslash and quote, each backslash as two backslashes, each newline as
backslash and `n`, and every other character as itself. Reading the characters
between the quotes back by the inverse of these rules gives `s`, so that
`JsonString` is injective; no newline is among them, and no double quote stands
among them without an escaping backslash before it. -/
theorem JsonString_round_trip (s : List Char) :
    JsonWriter.JsonString s = quoteChar :: (JsonWriter.escapeChars s ++ [quoteChar]) ∧
    (∀ c cs, JsonWriter.escapeChars (c :: cs) =
      (if c = newlineChar then [backslashChar, 'n']
       else if c = backslashChar ∨ c = quoteChar then [backslashChar, c]
       else [c]) ++ JsonWriter.escapeChars cs) ∧
    JsonWriter.escapeChars [] = [] ∧
    unescapeFrom false (JsonWriter.escapeChars s) = s ∧
    (∀ t, JsonWriter.JsonString s = JsonWriter.JsonString t → s = t) ∧
    newlineChar ∉ JsonWriter.escapeChars s ∧
    quotesEscapedFrom false (JsonWriter.escapeChars s) = true := by
  refine ⟨rfl, escapeChars_cons, rfl, unescape_escapeChars s, ?_,
    newline_not_mem_escapeChars s, quotesEscaped_escapeChars s⟩
  intro t h
  unfold JsonWriter.JsonString at h
  have h1 := List.append_cancel_right (List.cons.inj h).2
  rw [← unescape_escapeChars s, ← unescape_escapeChars t, h1]

/-- C19, as stated, fails. With the options the driver starts from, whose indent is
2, the characters written for a binary without functions are those of the
indented document, which are not those of the compact one. -/
theorem default_output_of_empty_binary :
    (mainOutput {} []).isOk = true ∧
    (mainOutput {} []).output = emptyBinaryPretty ∧
    (mainOutput {} []).output ≠ emptyBinaryCompact := by
  refine ⟨by decide, by decide, by decide⟩

/-- C19, amended. For a binary without functions the driver calls `OpenObject`,
`AddMemberKey "functions"`, `OpenArray`, `CloseArray`, `CloseObject` and `End`.
With `--compact-json`, indent 0, the characters written are exactly those of
the object with the one member `functions` and an empty array, without white
space; with the indent 2 of the default they are those of the indented
document, which ends in a newline. No call aborts. -/
theorem output_of_empty_binary (options : Options) :
    mainOps [] = [.OpenObject, .AddMemberKey "functions", .OpenArray, .CloseArray,
      .CloseObject, .End] ∧
    (mainOutput { options with indent := 0 } []).isOk = true ∧
    (mainOutput { options with indent := 0 } []).output = emptyBinaryCompact ∧
    (mainOutput { options with indent := 2 } []).isOk = true ∧
    (mainOutput { options with indent := 2 } []).output = emptyBinaryPretty := by
  refine ⟨rfl, ?_, ?_, ?_, ?_⟩
  · show (mainOutput { indent := 0 } []).isOk = true
    decide
  · show (mainOutput { indent := 0 } []).output = emptyBinaryCompact
    decide
  · show (mainOutput { indent := 2 } []).isOk = true
    decide
  · show (mainOutput { indent := 2 } []).output = emptyBinaryPretty
    decide

/-- C20, on the code. `AddMemberKey` is accepted where no key is expected, and no
call aborts: a key after a key in an object, a key in an array, and a key at
top level. The first run ends with two keys and no value written in the
object. -/
theorem key_accepted_where_no_key_is_expected :
    ((JsonWriter.new 0 0).run
      [.OpenObject, .AddMemberKey "a", .AddMemberKey "b", .CloseObject, .End]).isOk = true ∧
    ((JsonWriter.new 0 0).run
      [.OpenObject, .AddMemberKey "a", .AddMemberKey "b", .CloseObject, .End]).output =
        [Char.ofNat 123, quoteChar, 'a', quoteChar, ':', quoteChar, 'b', quoteChar, ':',
          Char.ofNat 125] ∧
    ((JsonWriter.new 0 0).run [.OpenArray, .AddMemberKey "a", .CloseArray, .End]).isOk = true ∧
    ((JsonWriter.new 0 0).run [.OpenArray, .AddMemberKey "a", .CloseArray, .End]).output =
        ['[', quoteChar, 'a', quoteChar, ':', ']'] ∧
    ((JsonWriter.new 0 0).run [.AddMemberKey "a", .End]).isOk = true ∧
    ((JsonWriter.new 0 0).run [.OpenObject, .AddScalarInt 1]).isOk = false := by
  refine ⟨by decide, by decide, by decide, by decide, by decide, by decide⟩

/-- C18. Compact mode has no layout whitespace. For every sequence of calls on a
writer constructed with the indent 0, `End` among them, the output has no newline,
and it is made of the literals `JsonString` writes for the strings passed as keys and
as string scalars and of characters that are neither spaces nor newlines, so every
space of it is inside such a literal. The punctuation `WritePreitemPunctuation`
writes before an item, with the indent 0, is nothing or one comma. -/
theorem compact_output_has_no_layout_whitespace (ops : List JsonWriter.Op)
    (initialLevel : Int) :
    newlineChar ∉ ((JsonWriter.new 0 initialLevel).run ops).output ∧
    CompactText (opStrings ops) ((JsonWriter.new 0 initialLevel).run ops).output ∧
    (∀ (os : List Char) (state : List JsonWriter.ItemState)
        (speciality : JsonWriter.ItemSpeciality),
      (JsonWriter.WritePreitemPunctuation
          { os := os, indent := 0, state := state } speciality).output = os ∨
      (JsonWriter.WritePreitemPunctuation
          { os := os, indent := 0, state := state } speciality).output = os ++ [',']) := by
  have hstep := CompactStep.ofRun ops (JsonWriter.new 0 initialLevel) rfl
  obtain ⟨added, hout, htext, _⟩ := hstep
  have hout2 : ((JsonWriter.new 0 initialLevel).run ops).output = added := by
    rw [hout]; rfl
  refine ⟨?_, ?_, ?_⟩
  · rw [hout2]; exact htext.no_newline
  · rw [hout2]; exact htext
  · intro os state speciality
    obtain ⟨p, hp, hpo, _⟩ := WritePreitemPunctuation_compact
      { os := os, indent := 0, state := state } speciality rfl
    rcases hp with e | e
    · left; rw [hpo, e]; simp
    · right; rw [hpo, e]

/-- C25. Path characterisation of the propagation result. Under the conditions of
C1 (every `startRegs` empty as the constructor leaves it, edge lists that name only
blocks of the function and are mutually consistent) `PropagateStartRegs` returns,
and a register `i` is in `startRegs(B)` exactly when there are blocks `Q`, `P1`, ...,
`Pk` (`k` can be 0) of the function, each joined to the next and the last to `B` by
an intraprocedural edge, with `i` in `OutRegs(Q)` computed with empty `startRegs`,
and each of `P1`, ..., `Pk` not a call block or with `i` in `NotKilledRegs`. `Q` is
any block of the function, reachable from the entry or not. The register is in
`OutRegs(Q)` computed with empty `startRegs` exactly when `Q` uses it and is not a
call block, or `Q` is a call block and it is in `ReturnRegs`, or `Q` uses it and
it is in `NotKilledRegs`. -/
theorem startRegs_iff_flow (s : Statics) (f : FunctionSummary)
    (hempty : StartsEmpty f.blocks) (hclosed : EdgesClosed f.blocks)
    (hcons : EdgesConsistent f.blocks) :
    (∃ f1, f.PropagateStartRegs s = .done f1 ∧
      ∀ a B, f1.GetBlock a = some B → ∀ i, (B.startRegs.testBit i = true ↔
        ∃ q post, isPath f.blocks (q :: post ++ [a]) = true ∧
          generatesAt s f.blocks i q = true ∧
          ∀ y ∈ post, passesAt s f.blocks i y = true)) ∧
    (∀ (Q : BlockSummary) (i : Nat),
      Q.generates s i = ((Q.SetStartRegs 0).OutRegs s).testBit i ∧
      (Q.generates s i = true ↔
        ((Q.usedRegs.testBit i = true ∧ Q.isCallBlock = false) ∨
         (Q.isCallBlock = true ∧ s.callReturnRegisters.testBit i = true) ∨
         (Q.usedRegs.testBit i = true ∧ s.callNotKilledRegisters.testBit i = true))) ∧
      (Q.passes s i = true ↔
        (Q.isCallBlock = false ∨ s.callNotKilledRegisters.testBit i = true))) := by
  refine ⟨?_, fun Q i => ⟨rfl, generates_passes_fields s Q i⟩⟩
  obtain ⟨final, hfinal⟩ := PropagateLoop_done s f.blocks hempty hclosed hcons
    (propagateFuel s f.blocks) (blockKeys f.blocks) f.blocks Reach.init
    (potential_init_le s f.blocks)
  have hreach := PropagateLoop_reach s f.blocks _ _ _ final Reach.init hfinal
  have hfix := (hreach.fixInv hempty hclosed hcons).fixedPoint
  have hshape := (hreach.inv hempty).shape
  refine ⟨{ f with blocks := final }, ?_, ?_⟩
  · simp only [FunctionSummary.PropagateStartRegs, hfinal]
  · intro a B hB i
    constructor
    · intro hi
      exact hreach.justified hempty a B hB i hi
    · rintro ⟨q, post, hpath, hgen, hall⟩
      unfold generatesAt at hgen
      cases hQ0 : GetBlock f.blocks q with
      | none => simp [hQ0] at hgen
      | some Q0 =>
        simp only [hQ0] at hgen
        obtain ⟨Q, hQ, hsk⟩ := shape_get hshape.symm hQ0
        rw [← generates_shape hsk] at hgen
        obtain ⟨B1, hB1, hst⟩ := fixedPoint_walk hshape hfix i post q a Q hQ
          (OutRegs_of_generates hgen) hpath (fun y hy => killsAt_of_passesAt (hall y hy))
        have hB2 : GetBlock final a = some B := hB
        rw [hB2] at hB1
        cases hB1
        exact hst

theorem startRegs_iff_flow_witness :
    StartsEmpty exFunction.blocks ∧ EdgesClosed exFunction.blocks ∧
    EdgesConsistent exFunction.blocks ∧
    (∃ f1, exFunction.PropagateStartRegs exStatics = .done f1 ∧
      ∀ a B, f1.GetBlock a = some B → ∀ i, (B.startRegs.testBit i = true ↔
        ∃ q post, isPath exFunction.blocks (q :: post ++ [a]) = true ∧
          generatesAt exStatics exFunction.blocks i q = true ∧
          ∀ y ∈ post, passesAt exStatics exFunction.blocks i y = true)) ∧
    (∀ (Q : BlockSummary) (i : Nat),
      Q.generates exStatics i = ((Q.SetStartRegs 0).OutRegs exStatics).testBit i ∧
      (Q.generates exStatics i = true ↔
        ((Q.usedRegs.testBit i = true ∧ Q.isCallBlock = false) ∨
         (Q.isCallBlock = true ∧ exStatics.callReturnRegisters.testBit i = true) ∨
         (Q.usedRegs.testBit i = true ∧ exStatics.callNotKilledRegisters.testBit i = true))) ∧
      (Q.passes exStatics i = true ↔
        (Q.isCallBlock = false ∨ exStatics.callNotKilledRegisters.testBit i = true))) :=
  ⟨by decide, by decide, by decide,
    startRegs_iff_flow exStatics exFunction (by decide) (by decide) (by decide)⟩

/-- C24, as stated, fails. The arguments `--bogus --help` contain an unknown option
and no positional argument, and the arguments `-v a b c` contain more than two
positional arguments; `ProcessOptions` ends the process with status 0 on both,
the usage message or the version having been asked for. Without `--help` the
first arguments end it with status 1. -/
theorem unknown_option_with_help_exits_zero :
    hasUnknownOption ["--bogus", "--help"] = true ∧
    positionalArgs ["--bogus", "--help"] = [] ∧
    (Options.ProcessOptions {} (some "call_analyzer") ["--bogus", "--help"]).status = some 0 ∧
    positionalArgs ["-v", "a", "b", "c"] = ["a", "b", "c"] ∧
    (Options.ProcessOptions {} (some "call_analyzer") ["-v", "a", "b", "c"]).status = some 0 ∧
    (Options.ProcessOptions {} (some "call_analyzer") ["--bogus"]).status = some 1 := by
  refine ⟨by decide, by decide, by decide, by decide, by decide, by decide⟩

/-- C24, amended. For every argument vector, on the options as the program starts
with them: when `--help`, `-h`, `--version` or `-v` is among the options (the
arguments that start with a dash and stand before the first positional argument
and before `--`), `ProcessOptions` ends the process with status 0, whatever else
the arguments hold; otherwise it ends the process with status 1 when the
arguments contain an unknown option, or no positional argument, or more than two
positional arguments; and otherwise it returns, with the positional arguments in
`args`. -/
theorem ProcessOptions_status (argv0 : Option String) (arguments : List String) :
    (Options.ProcessOptions {} argv0 arguments).status =
      (if asksHelp arguments = true ∨ asksVersion arguments = true then some 0
       else if hasUnknownOption arguments = true ∨ (positionalArgs arguments).length < 1 ∨
         2 < (positionalArgs arguments).length then some 1
       else none) ∧
    (∀ o, Options.ProcessOptions {} argv0 arguments = .returned o →
      o.args = positionalArgs arguments) := by
  cases argv0 with
  | none => exact ProcessOptions_from arguments {} rfl rfl rfl rfl
  | some name => exact ProcessOptions_from arguments { programName := name } rfl rfl rfl rfl

end Claims

end CallAnalyzer
